import Mathlib

/-! # pst-parser: the paged B-tree (`src/nbr/Page.js`) and `src/util.js`

A shallow embedding of the page layer of the PST reader.  The whole file is one
`ArrayBuffer`; every page and every entry is a `DataView` (an offset and a length)
over that single buffer.  Reads outside a view raise `RangeError`, as the
JavaScript `DataView` accessors do.

The recursive descents (`findEntry`, `getAllKeys`) call themselves on child pages
whose position is read from the file, so they are defined with a bound on the
nesting depth of the recursion: `none` means that the bound was reached.
-/

namespace PstParser

/-! ## Errors -/

/-- The exceptions the page layer can raise. -/
inductive Err where
  /-- a `DataView` was created or read outside its buffer -/
  | rangeError
  /-- the error `Error("Invalid BT Page")` -/
  | invalidBTPage
  /-- the errors `Error("Expected BT Entry")` and `Error("Expected BTEntry. Got: ...")`,
  raised when an entry of a branch page is not a `BTEntry` -/
  | expectedBTEntry
  /-- the error `Error("Expected BT Page")` -/
  | expectedBTPage
  deriving DecidableEq, Repr

/-! ## Buffers and views -/

/-- An `ArrayBuffer`: `byteLength` bytes; the byte at index `i` is `byte i % 256`. -/
structure ArrayBuffer where
  byteLength : Nat
  byte : Nat → Nat

/-- A `DataView` over the (single) buffer: where it starts and how many bytes it spans. -/
structure DataView where
  byteOffset : Nat
  byteLength : Nat
  deriving DecidableEq, Repr, Inhabited

/-- The two-argument constructor `new DataView(buffer, byteOffset)`: the view runs to the
end of the buffer; an offset outside `[0, buffer.byteLength]` raises `RangeError`. -/
def DataView.new (buf : ArrayBuffer) (byteOffset : Int) : Except Err DataView :=
  if byteOffset < 0 ∨ (buf.byteLength : Int) < byteOffset then .error .rangeError
  else .ok ⟨byteOffset.toNat, buf.byteLength - byteOffset.toNat⟩

/-- The little-endian value of the `w` bytes that start at absolute position `pos`. -/
def leValue (buf : ArrayBuffer) (pos : Nat) : Nat → Nat
  | 0 => 0
  | w + 1 => buf.byte pos % 256 + 256 * leValue buf (pos + 1) w

/-- Little-endian unsigned read of `w` bytes at offset `i` of the view
(`getUint8`, `getUint16(i, true)`, `getUint32(i, true)`, `getBigUint64(i, true)`). -/
def DataView.getUint (buf : ArrayBuffer) (dv : DataView) (w i : Nat) : Except Err Nat :=
  if i + w ≤ dv.byteLength then .ok (leValue buf (dv.byteOffset + i) w) else .error .rangeError

def DataView.getUint8 (buf : ArrayBuffer) (dv : DataView) (i : Nat) : Except Err Nat :=
  dv.getUint buf 1 i

def DataView.getUint16 (buf : ArrayBuffer) (dv : DataView) (i : Nat) : Except Err Nat :=
  dv.getUint buf 2 i

def DataView.getUint32 (buf : ArrayBuffer) (dv : DataView) (i : Nat) : Except Err Nat :=
  dv.getUint buf 4 i

def DataView.getBigUint64 (buf : ArrayBuffer) (dv : DataView) (i : Nat) : Except Err Nat :=
  dv.getUint buf 8 i

/-- Writing the `w` low bytes of `v`, little-endian, at absolute position `pos`
(`setUint8`, `setUint16(i, v, true)`, ...): the other bytes are unchanged. -/
def ArrayBuffer.writeLE (buf : ArrayBuffer) (pos w v : Nat) : ArrayBuffer :=
  { byteLength := buf.byteLength
    byte := fun j => if pos ≤ j ∧ j < pos + w then v / 256 ^ (j - pos) % 256 else buf.byte j }

/-- A buffer of `n` bytes given by the list of its non-zero bytes `(index, value)`. -/
def ArrayBuffer.ofSparse (n : Nat) (cells : List (Nat × Nat)) : ArrayBuffer :=
  { byteLength := n
    byte := fun i => match cells.lookup i with
      | some b => b
      | none => 0 }

/-! ## Page -/

/-- The classes of `Page.js`: the base `Page` and its subclasses. -/
inductive PageKind where
  | page | btPage | fMapPage | pMapPage | aMapPage | fpMapPage | dListPage
  deriving DecidableEq, Repr

/-- A page object: its class and the view it was constructed over (`#dv`). -/
structure Page where
  kind : PageKind
  dv : DataView
  deriving DecidableEq, Repr

def Page.ptype (buf : ArrayBuffer) (dv : DataView) : Except Err Nat := dv.getUint8 buf 496
def Page.ptypeRepeat (buf : ArrayBuffer) (dv : DataView) : Except Err Nat := dv.getUint8 buf 497
def Page.wSig (buf : ArrayBuffer) (dv : DataView) : Except Err Nat := dv.getUint16 buf 498
def Page.dwCRC (buf : ArrayBuffer) (dv : DataView) : Except Err Nat := dv.getUint32 buf 500
def Page.bid (buf : ArrayBuffer) (dv : DataView) : Except Err Nat := dv.getBigUint64 buf 504

/-- The class `Page.getPage` instantiates for a page-type byte. -/
def Page.kindOfType (t : Nat) : PageKind :=
  if t = 0x80 then .btPage
  else if t = 0x81 then .btPage
  else if t = 0x82 then .fMapPage
  else if t = 0x83 then .pMapPage
  else if t = 0x84 then .aMapPage
  else if t = 0x85 then .fpMapPage
  else if t = 0x86 then .dListPage
  else .page

/-- The static method `Page.getPage(dv)`. -/
def Page.getPage (buf : ArrayBuffer) (dv : DataView) : Except Err Page :=
  match Page.ptype buf dv with
  | .error e => .error e
  | .ok t => .ok ⟨Page.kindOfType t, dv⟩

/-! ## BTPage -/

def BTPage.cEnt (buf : ArrayBuffer) (dv : DataView) : Except Err Nat := dv.getUint8 buf 488
def BTPage.cEntMax (buf : ArrayBuffer) (dv : DataView) : Except Err Nat := dv.getUint8 buf 489
def BTPage.cbEnt (buf : ArrayBuffer) (dv : DataView) : Except Err Nat := dv.getUint8 buf 490
def BTPage.cLevel (buf : ArrayBuffer) (dv : DataView) : Except Err Nat := dv.getUint8 buf 491
def BTPage.dwPadding (buf : ArrayBuffer) (dv : DataView) : Except Err Nat := dv.getUint32 buf 492

/-- An entry object: its class and the view it was constructed over. -/
inductive Entry where
  | blockEntry (dv : DataView)
  | nodeEntry (dv : DataView)
  | btEntry (dv : DataView)
  deriving DecidableEq, Repr

/-- The view an entry decodes. -/
def Entry.dv : Entry → DataView
  | .blockEntry dv => dv
  | .nodeEntry dv => dv
  | .btEntry dv => dv

/-- The method `BTPage.getEntry(n)`.  The slot `n` is an integer: `findEntry` calls it with
`cEnt - 1`, which is `-1` on a page without entries. -/
def BTPage.getEntry (buf : ArrayBuffer) (dv : DataView) (n : Int) : Except Err Entry :=
  match BTPage.cbEnt buf dv with
  | .error e => .error e
  | .ok cb =>
    let begin : Int := n * cb
    match BTPage.cLevel buf dv with
    | .error e => .error e
    | .ok lvl =>
      if lvl = 0 then
        match Page.ptype buf dv with
        | .error e => .error e
        | .ok t =>
          if t = 0x80 then
            match DataView.new buf (dv.byteOffset + begin) with
            | .error e => .error e
            | .ok v => .ok (.blockEntry v)
          else if t = 0x81 then
            match DataView.new buf (dv.byteOffset + begin) with
            | .error e => .error e
            | .ok v => .ok (.nodeEntry v)
          else .error .invalidBTPage
      else
        match DataView.new buf (dv.byteOffset + begin) with
        | .error e => .error e
        | .ok v => .ok (.btEntry v)

/-- The field getters of the entry classes `BTEntry`, `BlockEntry`, `NodeEntry` (files
`BTEntry.js`, `BlockEntry.js`, `NodeEntry.js`, which `Page.js` imports): each decodes one
field from the entry's view.  The page layer is verified for every such decoder. -/
structure EntryLayout where
  /-- the getter `BTEntry.btkey` -/
  btkey : ArrayBuffer → DataView → Except Err Nat
  /-- the getter `BTEntry.BREF.ib` -/
  ib : ArrayBuffer → DataView → Except Err Nat
  /-- the getter `BlockEntry.BREF.bid` -/
  bid : ArrayBuffer → DataView → Except Err Nat
  /-- the getter `NodeEntry.nid` -/
  nid : ArrayBuffer → DataView → Except Err Nat

/-- Modelled from the spec: the entry classes `BTEntry`, `BlockEntry` and `NodeEntry` are
not in the source tree; the spec fixes their field layout as that of the MS-PST format
(Unicode): `BTENTRY = (btkey : 8 bytes, BREF)`, `BREF = (bid : 8 bytes, ib : 8 bytes)`,
`BBTENTRY` begins with its `BREF`, `NBTENTRY` begins with its 8-byte `nid`. -/
def msPst : EntryLayout where
  btkey := fun buf dv => dv.getBigUint64 buf 0
  ib := fun buf dv => dv.getBigUint64 buf 16
  bid := fun buf dv => dv.getBigUint64 buf 0
  nid := fun buf dv => dv.getBigUint64 buf 0

/-- The sort key `keys` pushes for an entry: `BREF.bid`, `nid` or `btkey` by class. -/
def Entry.key (L : EntryLayout) (buf : ArrayBuffer) : Entry → Except Err Nat
  | .blockEntry dv => L.bid buf dv
  | .nodeEntry dv => L.nid buf dv
  | .btEntry dv => L.btkey buf dv

/-- The body of the loop of `keys`, over the indices still to visit. -/
def BTPage.keysLoop (L : EntryLayout) (buf : ArrayBuffer) (dv : DataView) :
    List Nat → List Nat → Except Err (List Nat)
  | [], out => .ok out
  | i :: is, out =>
    match BTPage.getEntry buf dv i with
    | .error e => .error e
    | .ok entry =>
      match entry.key L buf with
      | .error e => .error e
      | .ok k => BTPage.keysLoop L buf dv is (out ++ [k])

/-- The getter `BTPage.keys`. -/
def BTPage.keys (L : EntryLayout) (buf : ArrayBuffer) (dv : DataView) : Except Err (List Nat) :=
  match BTPage.cEnt buf dv with
  | .error e => .error e
  | .ok c => BTPage.keysLoop L buf dv (List.range c) []

/-- The method `Array.prototype.indexOf`, scanning from index `i`: the first position
holding `k`, or `-1`. -/
def indexOfFrom (k : Nat) : List Nat → Nat → Int
  | [], _ => -1
  | x :: xs, i => if x = k then (i : Int) else indexOfFrom k xs (i + 1)

/-- The call `keys.indexOf(k)`. -/
def indexOf (ks : List Nat) (k : Nat) : Int := indexOfFrom k ks 0

/-- The result of the recursive operations: `none` when the nesting bound is reached. -/
abbrev Run (α : Type) := Option (Except Err α)

/-- The child page of entry `n`, as all three descent sites compute it: decode entry `n`,
require a `BTEntry`, load the page at its `BREF.ib` (`parseInt(entry.BREF.ib.toString())` is
`ib` itself below `2^53`, and an `ArrayBuffer` is shorter than that, so a larger `ib` is
outside the buffer either way), and require a `BTPage`. -/
def BTPage.childPage (L : EntryLayout) (buf : ArrayBuffer) (dv : DataView) (n : Int) :
    Except Err DataView :=
  match BTPage.getEntry buf dv n with
  | .error e => .error e
  | .ok (.btEntry edv) =>
    match L.ib buf edv with
    | .error e => .error e
    | .ok ib =>
      match DataView.new buf ib with
      | .error e => .error e
      | .ok cdv =>
        match Page.getPage buf cdv with
        | .error e => .error e
        | .ok page =>
          if page.kind = .btPage then .ok page.dv
          else .error .expectedBTPage
  | .ok _ => .error .expectedBTEntry

/-- Both descent sites of `findEntry`: load the child page of entry `n` and recurse. -/
def BTPage.descend (L : EntryLayout) (buf : ArrayBuffer)
    (recur : DataView → Nat → Run (Option Entry))
    (dv : DataView) (n : Int) (key : Nat) : Run (Option Entry) :=
  match BTPage.childPage L buf dv n with
  | .error e => some (.error e)
  | .ok cdv => recur cdv key

/-- The branch loop of `findEntry` over the indices still to visit, followed by the
code after the loop (`c` is `this.cEnt`).  A missing `keys[i]` is `undefined`, and
`undefined > key` is false. -/
def BTPage.findEntryLoop (L : EntryLayout) (buf : ArrayBuffer)
    (recur : DataView → Nat → Run (Option Entry))
    (dv : DataView) (ks : List Nat) (c : Nat) (key : Nat) : List Nat → Run (Option Entry)
  | [] => BTPage.descend L buf recur dv ((c : Int) - 1) key
  | i :: is =>
    if (match ks[i]? with
        | some x => decide (x > key)
        | none => false) then
      if i = 0 then some (.ok none)
      else BTPage.descend L buf recur dv ((i : Int) - 1) key
    else BTPage.findEntryLoop L buf recur dv ks c key is

/-- The body of `findEntry`, with the recursive call as a parameter.  Keys are non-negative
integers, so `BigInt(key)` is `key` itself. -/
def BTPage.findEntryStep (L : EntryLayout) (buf : ArrayBuffer)
    (recur : DataView → Nat → Run (Option Entry))
    (dv : DataView) (key : Nat) : Run (Option Entry) :=
  match BTPage.keys L buf dv with
  | .error e => some (.error e)
  | .ok ks =>
    match BTPage.cLevel buf dv with
    | .error e => some (.error e)
    | .ok lvl =>
      if lvl = 0 then
        let index := indexOf ks key
        if index ≥ 0 then
          match BTPage.getEntry buf dv index with
          | .error e => some (.error e)
          | .ok entry => some (.ok (some entry))
        else some (.ok none)
      else
        match BTPage.cEnt buf dv with
        | .error e => some (.error e)
        | .ok c => BTPage.findEntryLoop L buf recur dv ks c key (List.range c)

/-- The method `BTPage.findEntry(key)`, with at most `fuel` nested recursive calls. -/
def BTPage.findEntry (L : EntryLayout) (buf : ArrayBuffer) :
    Nat → DataView → Nat → Run (Option Entry)
  | 0 => BTPage.findEntryStep L buf (fun _ _ => none)
  | fuel + 1 => BTPage.findEntryStep L buf (BTPage.findEntry L buf fuel)

/-- The loop of `getAllKeys` over the indices still to visit. -/
def BTPage.getAllKeysLoop (L : EntryLayout) (buf : ArrayBuffer)
    (recur : DataView → Run (List Nat))
    (dv : DataView) : List Nat → List Nat → Run (List Nat)
  | [], out => some (.ok out)
  | i :: is, out =>
    match BTPage.childPage L buf dv i with
    | .error e => some (.error e)
    | .ok cdv =>
      match recur cdv with
      | none => none
      | some (.error e) => some (.error e)
      | some (.ok ks) => BTPage.getAllKeysLoop L buf recur dv is (out ++ ks)

/-- The body of `getAllKeys`, with the recursive call as a parameter. -/
def BTPage.getAllKeysStep (L : EntryLayout) (buf : ArrayBuffer)
    (recur : DataView → Run (List Nat)) (dv : DataView) : Run (List Nat) :=
  match BTPage.cLevel buf dv with
  | .error e => some (.error e)
  | .ok lvl =>
    if lvl = 0 then some (BTPage.keys L buf dv)
    else
      match BTPage.cEnt buf dv with
      | .error e => some (.error e)
      | .ok c => BTPage.getAllKeysLoop L buf recur dv (List.range c) []

/-- The method `BTPage.getAllKeys()`, with at most `fuel` nested recursive calls. -/
def BTPage.getAllKeys (L : EntryLayout) (buf : ArrayBuffer) : Nat → DataView → Run (List Nat)
  | 0 => BTPage.getAllKeysStep L buf (fun _ => none)
  | fuel + 1 => BTPage.getAllKeysStep L buf (BTPage.getAllKeys L buf fuel)

/-! ## Synthesizing a page trailer -/

/-- The window with the four trailer fields written at their offsets. -/
def writeTrailer (buf : ArrayBuffer) (dv : DataView) (ptype wSig dwCRC bid : Nat) : ArrayBuffer :=
  (((buf.writeLE (dv.byteOffset + 496) 1 ptype).writeLE (dv.byteOffset + 498) 2 wSig).writeLE
    (dv.byteOffset + 500) 4 dwCRC).writeLE (dv.byteOffset + 504) 8 bid

/-! ## Well-formed trees -/

/-- The tree under a page is well formed for `Q`: every page reachable from it satisfies
`Q`, and on every reachable branch page each entry's child window is a `BTPage` whose level
is strictly smaller than the level of the branch page. -/
inductive AllPages (L : EntryLayout) (buf : ArrayBuffer) (Q : DataView → Prop) :
    DataView → Prop where
  | leaf (dv : DataView) : BTPage.cLevel buf dv = .ok 0 → Q dv → AllPages L buf Q dv
  | branch (dv : DataView) (lvl c : Nat) :
      BTPage.cLevel buf dv = .ok lvl → 0 < lvl → BTPage.cEnt buf dv = .ok c → Q dv →
      (∀ i : Nat, i < c → ∃ cdv clvl, BTPage.childPage L buf dv (i : Int) = .ok cdv ∧
        BTPage.cLevel buf cdv = .ok clvl ∧ clvl < lvl) →
      (∀ (i : Nat) (cdv : DataView), i < c → BTPage.childPage L buf dv (i : Int) = .ok cdv →
        AllPages L buf Q cdv) →
      AllPages L buf Q dv

/-- The child pages of a page, in entry order. -/
def BTPage.children (L : EntryLayout) (buf : ArrayBuffer) (dv : DataView) : List DataView :=
  match BTPage.cEnt buf dv with
  | .error _ => []
  | .ok c =>
    (List.range c).filterMap (fun (i : Nat) => (BTPage.childPage L buf dv (i : Int)).toOption)

/-- The leaf pages (level 0) reachable from a page through at most `n` levels of children,
from left to right. -/
def leafPages (L : EntryLayout) (buf : ArrayBuffer) : Nat → DataView → List DataView
  | 0, dv =>
    match BTPage.cLevel buf dv with
    | .ok 0 => [dv]
    | _ => []
  | n + 1, dv =>
    match BTPage.cLevel buf dv with
    | .ok 0 => [dv]
    | _ => ((BTPage.children L buf dv).map (leafPages L buf n)).flatten

/-- A result with `out` put in front of the list it carries. -/
def prepend (out : List Nat) : Except Err (List Nat) → Except Err (List Nat)
  | .error e => .error e
  | .ok ks => .ok (out ++ ks)

/-- The concatenation of a sequence of results, in order; the first failure if there is
one. -/
def concatResults : List (Except Err (List Nat)) → Except Err (List Nat)
  | [] => .ok []
  | r :: rs =>
    match r with
    | .error e => .error e
    | .ok ks => prepend ks (concatResults rs)

/-- The concatenation of `keys()` of the given pages, in order. -/
def concatKeys (L : EntryLayout) (buf : ArrayBuffer) (pages : List DataView) :
    Except Err (List Nat) :=
  concatResults (pages.map (BTPage.keys L buf))

/-! ## The sortedness invariant, page by page -/

/-- The keys of the page are in ascending (non-decreasing) order. -/
def KeysAscending (L : EntryLayout) (buf : ArrayBuffer) (dv : DataView) : Prop :=
  ∃ ks, BTPage.keys L buf dv = .ok ks ∧ ks.Pairwise (· ≤ ·)

/-- The keys of the page are in strictly ascending order. -/
def KeysStrictlyAscending (L : EntryLayout) (buf : ArrayBuffer) (dv : DataView) : Prop :=
  ∃ ks, BTPage.keys L buf dv = .ok ks ∧ ks.Pairwise (· < ·)

/-- On a branch page, the `btkey` of every entry is the smallest key of the subtree at its
`BREF.ib`: it is the least element of what `getAllKeys()` returns on the child. -/
def BtkeyIsMin (L : EntryLayout) (buf : ArrayBuffer) (dv : DataView) : Prop :=
  ∀ lvl ks, BTPage.cLevel buf dv = .ok lvl → 0 < lvl → BTPage.keys L buf dv = .ok ks →
    ∀ (i b : Nat), ks[i]? = some b →
      ∃ cdv fuel sub, BTPage.childPage L buf dv (i : Int) = .ok cdv ∧
        BTPage.getAllKeys L buf fuel cdv = some (.ok sub) ∧ b ∈ sub ∧ ∀ x ∈ sub, b ≤ x

/-- On a branch page, the `btkey` of every entry but the first is greater than every key
of the subtree of the entry before it. -/
def BtkeyAbovePrev (L : EntryLayout) (buf : ArrayBuffer) (dv : DataView) : Prop :=
  ∀ lvl ks, BTPage.cLevel buf dv = .ok lvl → 0 < lvl → BTPage.keys L buf dv = .ok ks →
    ∀ (i b : Nat), ks[i + 1]? = some b →
      ∀ cdv fuel sub, BTPage.childPage L buf dv (i : Int) = .ok cdv →
        BTPage.getAllKeys L buf fuel cdv = some (.ok sub) → ∀ x ∈ sub, x < b

/-- On a branch page, every child is exactly one level lower. -/
def ChildOneLower (L : EntryLayout) (buf : ArrayBuffer) (dv : DataView) : Prop :=
  ∀ lvl c, BTPage.cLevel buf dv = .ok lvl → 0 < lvl → BTPage.cEnt buf dv = .ok c →
    ∀ (i : Nat) cdv, i < c → BTPage.childPage L buf dv (i : Int) = .ok cdv →
      BTPage.cLevel buf cdv = .ok (lvl - 1)

/-- A branch page has at least one entry. -/
def BranchNonEmpty (buf : ArrayBuffer) (dv : DataView) : Prop :=
  ∀ lvl c, BTPage.cLevel buf dv = .ok lvl → 0 < lvl → BTPage.cEnt buf dv = .ok c → 1 ≤ c

/-- The entry is a leaf entry: a `BlockEntry` or a `NodeEntry`. -/
def Entry.isLeaf : Entry → Bool
  | .blockEntry _ => true
  | .nodeEntry _ => true
  | .btEntry _ => false

/-! ## Two small files

Both hold three pages of 24-byte entries: a level-1 block-tree page at offset 0 with the
entries `(btkey 3, ib 512)` and `(btkey 10, ib 1024)`, and two block-tree leaves at offsets
512 and 1024.  In `sortedFile` the leaves hold the keys `3, 5` and `10, 11`; in
`overlapFile` the first leaf holds `3, 20`, so that its last key is above the `btkey` of the
second entry of the root. -/

/-- The bytes of the root page and the headers of the two leaves. -/
def treeCells : List (Nat × Nat) :=
  [(0, 3), (17, 2), (24, 10), (41, 4),
   (488, 2), (489, 20), (490, 24), (491, 1), (496, 128), (497, 128),
   (1000, 2), (1001, 20), (1002, 24), (1003, 0), (1008, 128), (1009, 128),
   (1512, 2), (1513, 20), (1514, 24), (1515, 0), (1520, 128), (1521, 128)]

def sortedFile : ArrayBuffer :=
  ArrayBuffer.ofSparse 1536 (treeCells ++ [(512, 3), (536, 5), (1024, 10), (1048, 11)])

def overlapFile : ArrayBuffer :=
  ArrayBuffer.ofSparse 1536 (treeCells ++ [(512, 3), (536, 20), (1024, 10), (1048, 11)])

/-- The view of the root page: the whole file from offset 0. -/
def rootView : DataView := ⟨0, 1536⟩

/-- The file `sortedFile` with the page-type byte of the page at offset 1024 changed to
`0x84` (an AMap page). -/
def strayFile : ArrayBuffer :=
  ArrayBuffer.ofSparse 1536
    ((1520, 0x84) :: (treeCells ++ [(512, 3), (536, 5), (1024, 10), (1048, 11)]))

/-- An all-zero page of 512 bytes and the view of it. -/
def blankPage : ArrayBuffer := ArrayBuffer.ofSparse 512 []

def pageView : DataView := ⟨0, 512⟩

/-! ## `src/util.js`: `propertiesToObject` -/

/-- The call `buffer.slice(begin, end)` for non-negative indices: a copy of the bytes from
`begin` up to `end`, both clamped to the length of the buffer. -/
def ArrayBuffer.slice (buf : ArrayBuffer) (b e : Nat) : ArrayBuffer :=
  let first := min b buf.byteLength
  let final := min e buf.byteLength
  { byteLength := final - first
    byte := fun i => buf.byte (first + i) }

/-- The function `arrayBufferFromDataView(dataView)`, for a view `dv` over the buffer
`buf`. -/
def arrayBufferFromDataView (buf : ArrayBuffer) (dv : DataView) : ArrayBuffer :=
  if dv.byteOffset = 0 ∧ dv.byteLength = buf.byteLength then buf
  else buf.slice dv.byteOffset (dv.byteOffset + dv.byteLength)

/-- A property value.  `propertiesToObject` only tells a `DataView` from everything else
(strings, numbers, booleans, arrays, dates, `undefined`), which it passes on unchanged:
`α` is the type of those other values. -/
inductive Value (α : Type) where
  | plain (a : α)
  | dataView (buffer : ArrayBuffer) (dv : DataView)
  | arrayBuffer (buffer : ArrayBuffer)

/-- The record type `PropertyData`; `tagName` may be absent. -/
structure PropertyData (α : Type) where
  tag : Nat
  tagHex : String
  tagName : Option String
  value : Value α

/-- The property name `prop.tagName||prop.tagHex`: `tagName` unless it is absent or the
empty string. -/
def PropertyData.effectiveKey {α : Type} (prop : PropertyData α) : String :=
  match prop.tagName with
  | some name => if name = "" then prop.tagHex else name
  | none => prop.tagHex

/-- The value `propertiesToObject` stores for a property value. -/
def storedValue {α : Type} : Value α → Value α
  | .dataView buffer dv => .arrayBuffer (arrayBufferFromDataView buffer dv)
  | v => v

/-- The own properties of a plain object, in insertion order. -/
abbrev Obj (α : Type) := List (String × Value α)

/-- Setting an own property: an existing one keeps its place and takes the new value, a new
one is added at the end. -/
def Obj.set {α : Type} : Obj α → String → Value α → Obj α
  | [], k, v => [(k, v)]
  | (k', v') :: rest, k, v =>
    if k' = k then (k, v) :: rest else (k', v') :: Obj.set rest k v

/-- The assignment `out[k] = v` on an object created by `{}`.  The name `__proto__` is an
accessor inherited from `Object.prototype`: assigning to it runs the inherited setter and
creates no own property. -/
def Obj.assign {α : Type} (out : Obj α) (k : String) (v : Value α) : Obj α :=
  if k = "__proto__" then out else out.set k v

/-- Reading the own property `k`. -/
def Obj.get {α : Type} : Obj α → String → Option (Value α)
  | [], _ => none
  | (k', v') :: rest, k => if k' = k then some v' else Obj.get rest k

/-- The own property names. -/
def Obj.keys {α : Type} (o : Obj α) : List String := o.map Prod.fst

/-- The loop of `propertiesToObject`. -/
def propertiesToObjectLoop {α : Type} : List (PropertyData α) → Obj α → Obj α
  | [], out => out
  | prop :: rest, out =>
    let value := storedValue prop.value
    propertiesToObjectLoop rest (out.assign prop.effectiveKey value)

/-- The function `propertiesToObject(properties)`. -/
def propertiesToObject {α : Type} (properties : List (PropertyData α)) : Obj α :=
  propertiesToObjectLoop properties []

/-- The last record, in list order, whose effective key is `k`. -/
def lastWithKey {α : Type} (properties : List (PropertyData α)) (k : String) :
    Option (PropertyData α) :=
  (properties.filter (fun p => decide (p.effectiveKey = k))).getLast?

/-- A record named `body` whose value is a view of the whole of `blankPage`. -/
def bodyRecord : PropertyData Nat :=
  { tag := 0x1000, tagHex := "0x1000", tagName := some "body",
    value := .dataView blankPage pageView }

/-- A record whose name is `__proto__`. -/
def protoRecord : PropertyData Nat :=
  { tag := 0x1001, tagHex := "0x1001", tagName := some "__proto__", value := .plain 7 }

/-! ## The descent without assumptions on the file -/

/-- The slots of a page with `c` entries that the descent of `findEntry` may follow: the
slots of the page, and `c - 1` (which is `-1` on a page without entries). -/
def followedSlot (c : Nat) (n : Int) : Prop := (0 ≤ n ∧ n < (c : Int)) ∨ n = (c : Int) - 1

/-- Along the descent from a page, the level strictly decreases: the child page of every
entry that may be followed on a branch page (and on the branch pages below it) has a
`cLevel` strictly smaller than its parent's. -/
inductive LevelsDescend (L : EntryLayout) (buf : ArrayBuffer) : DataView → Prop where
  | intro (dv : DataView) :
      (∀ (lvl c : Nat) (n : Int) (cdv : DataView), BTPage.cLevel buf dv = .ok lvl → 0 < lvl →
        BTPage.cEnt buf dv = .ok c → followedSlot c n →
        BTPage.childPage L buf dv n = .ok cdv →
        ∃ clvl, BTPage.cLevel buf cdv = .ok clvl ∧ clvl < lvl) →
      (∀ (lvl c : Nat) (n : Int) (cdv : DataView), BTPage.cLevel buf dv = .ok lvl → 0 < lvl →
        BTPage.cEnt buf dv = .ok c → followedSlot c n →
        BTPage.childPage L buf dv n = .ok cdv → LevelsDescend L buf cdv) →
      LevelsDescend L buf dv

/-- The getters of the entry classes fail only by reading outside the buffer. -/
def EntryLayout.RangeOnly (L : EntryLayout) : Prop :=
  ∀ (buf : ArrayBuffer) (dv : DataView) (e : Err),
    (L.btkey buf dv = .error e ∨ L.ib buf dv = .error e ∨ L.bid buf dv = .error e ∨
      L.nid buf dv = .error e) → e = .rangeError

/-- A file of one page: a level-1 block-tree page at offset 0 whose only entry has
`btkey` 0 and points back to offset 0. -/
def loopFile : ArrayBuffer :=
  ArrayBuffer.ofSparse 512
    [(488, 1), (489, 20), (490, 24), (491, 1), (496, 128), (497, 128)]

/-- The type byte of the page, if the page is a leaf, is `0x80` or `0x81`: this holds of
every page above level 0 and of every page that `Page.getPage` dispatched to `BTPage`. -/
def GoodLeafType (buf : ArrayBuffer) (dv : DataView) : Prop :=
  ∀ t, BTPage.cLevel buf dv = .ok 0 → Page.ptype buf dv = .ok t → t = 0x80 ∨ t = 0x81

/-! ## The window of a page -/

/-- The view cut down to its first 512 bytes (`new DataView(buffer, byteOffset, 512)`). -/
def DataView.cut512 (dv : DataView) : DataView := ⟨dv.byteOffset, 512⟩

/-- A file of two pages whose first page is a block-tree leaf that declares 3 entries of
255 bytes, so that its third slot starts at byte 510; byte 512 is 1. -/
def wideFile : ArrayBuffer :=
  ArrayBuffer.ofSparse 1024
    [(488, 3), (489, 3), (490, 255), (491, 0), (496, 128), (497, 128), (512, 1)]

/-- The file `wideFile` with byte 512, the first byte of its second page, set to 2. -/
def wideFile2 : ArrayBuffer := wideFile.writeLE 512 1 2

/-! ## `src/util.js`: `stringFromBuffer` -/

/-- A JavaScript string: the sequence of its UTF-16 code units. -/
abbrev JsString := List Nat

/-- The elements of `new Uint16Array(buffer)`: the 16-bit values of the whole buffer, whose
length must be even.  Typed arrays use the byte order of the platform, which is
little-endian on the platforms the library runs on. -/
def uint16ArrayOfBuffer (buf : ArrayBuffer) : Except Err (List Nat) :=
  if buf.byteLength % 2 = 0 then
    .ok ((List.range (buf.byteLength / 2)).map (fun i => leValue buf (2 * i) 2))
  else .error .rangeError

/-- The elements of `new Uint16Array(buffer, byteOffset, length)`: `length` 16-bit values
from `byteOffset`, which must be even; the values must lie in the buffer. -/
def uint16ArrayOfRange (buf : ArrayBuffer) (byteOffset length : Nat) : Except Err (List Nat) :=
  if byteOffset % 2 = 0 ∧ byteOffset + 2 * length ≤ buf.byteLength then
    .ok ((List.range length).map (fun i => leValue buf (byteOffset + 2 * i) 2))
  else .error .rangeError

/-- The function `stringFromBuffer(buffer, byteOffset, byteLength)`;
`String.fromCharCode(...units)` is the string whose code units are `units`. -/
def stringFromBuffer (buf : ArrayBuffer) (byteOffset byteLength : Nat) : Except Err JsString :=
  if byteOffset % 2 ≠ 0 then
    let stringBuffer := buf.slice byteOffset (byteOffset + byteLength)
    uint16ArrayOfBuffer stringBuffer
  else uint16ArrayOfRange buf byteOffset (byteLength / 2)

/-- The string of `n` UTF-16 code units whose `i`-th unit is the little-endian 16-bit value
at `byteOffset + 2i`. -/
def utf16Units (buf : ArrayBuffer) (byteOffset n : Nat) : JsString :=
  (List.range n).map (fun i => leValue buf (byteOffset + 2 * i) 2)

/-- A buffer of 12 bytes holding `Hi` in UTF-16 from byte 1 and `ok` from byte 6. -/
def textFile : ArrayBuffer := ArrayBuffer.ofSparse 12 [(1, 72), (3, 105), (6, 111), (8, 107)]

/-! ## `src/messaging/Message.js`: addresses and headers -/

/-- The code units of a string literal of the Basic Multilingual Plane. -/
def str (s : String) : JsString := s.toList.map Char.toNat

/-- The code units `String.prototype.trim` removes: white space and line terminators. -/
def isWhiteSpace (c : Nat) : Bool :=
  c = 0x09 || c = 0x0A || c = 0x0B || c = 0x0C || c = 0x0D || c = 0x20 || c = 0xA0 ||
  c = 0x1680 || (0x2000 ≤ c && c ≤ 0x200A) || c = 0x2028 || c = 0x2029 || c = 0x202F ||
  c = 0x205F || c = 0x3000 || c = 0xFEFF

/-- The method `String.prototype.trim`. -/
def trim (s : JsString) : JsString :=
  ((s.dropWhile isWhiteSpace).reverse.dropWhile isWhiteSpace).reverse

/-- The method `String.prototype.toLowerCase` on ASCII text: the letters `A`..`Z` are
mapped to `a`..`z`.  The functions below take `toLowerCase` as a parameter; this is the
instance used on ASCII examples. -/
def asciiLower (s : JsString) : JsString :=
  s.map (fun c => if 65 ≤ c ∧ c ≤ 90 then c + 32 else c)

/-- Truthiness of a value that is a string or is absent (`undefined` or `null`): only a
non-empty string is truthy. -/
def truthy : Option JsString → Bool
  | some (_ :: _) => true
  | _ => false

/-- The string held by a truthy value. -/
def stringOf (x : Option JsString) : JsString := x.getD []

/-- The function `getRFCAddress(display, address)`; `lower` is `toLowerCase`, and the result
`none` is `null`. -/
def getRFCAddress (lower : JsString → JsString) (display address : Option JsString) :
    Option JsString :=
  if !truthy display && truthy address then
    some (trim (lower (stringOf address)))
  else if truthy display && !truthy address then
    some (trim (stringOf display))
  else if !truthy address && !truthy display then
    none
  else if trim (lower (stringOf display)) = trim (lower (stringOf address)) then
    some (trim (lower (stringOf address)))
  else
    some (stringOf display ++ str " <" ++ trim (lower (stringOf address)) ++ str ">")

/-- A value that counts as present: a non-empty string. -/
def present : Option JsString → Option JsString
  | some (c :: cs) => some (c :: cs)
  | _ => none

/-- The five-case address rule of the specification, an empty or absent value counting as
absent. -/
def rfcAddressRule (lower : JsString → JsString) (display address : Option JsString) :
    Option JsString :=
  match present display, present address with
  | none, some addr => some (trim (lower addr))
  | some name, none => some (trim name)
  | none, none => none
  | some name, some addr =>
    if trim (lower name) = trim (lower addr) then some (trim (lower addr))
    else some (name ++ str " <" ++ trim (lower addr) ++ str ">")

/-- The call `s.split('\n')`. -/
def splitLines : JsString → List JsString
  | [] => [[]]
  | c :: cs =>
    if c = 10 then [] :: splitLines cs
    else
      match splitLines cs with
      | l :: ls => (c :: l) :: ls
      | [] => [[c]]

/-- The first loop of `headersToArr`, over the lines still to read: `actualLines` collects
the header lines, a line that starts with a space being appended, after a newline, to the
last one. -/
def foldLinesLoop : List JsString → List JsString → List JsString
  | [], actualLines => actualLines
  | line :: rest, actualLines =>
    if line ≠ [] then
      if actualLines = [] then foldLinesLoop rest (actualLines ++ [line])
      else if line.head? = some 32 then
        foldLinesLoop rest
          (actualLines.dropLast ++ [actualLines.getLast?.getD [] ++ [10] ++ line])
      else foldLinesLoop rest (actualLines ++ [line])
    else foldLinesLoop rest actualLines

/-- The call `s.replace(pat, '')` for a string pattern: the first occurrence of `pat` is
removed. -/
def removeFirst (pat : JsString) : JsString → JsString
  | [] => []
  | c :: cs =>
    if pat.isPrefixOf (c :: cs) then (c :: cs).drop pat.length
    else c :: removeFirst pat cs

/-- A header `{key, value}`. -/
structure Header where
  key : JsString
  value : JsString
  deriving DecidableEq, Repr

/-- The body of the second loop of `headersToArr` for one line: the header it pushes, if
any.  The match of `/^[^:]+/i` is the longest prefix of the line without a colon, and it
fails when that prefix is empty. -/
def headerOfLine (lower : JsString → JsString) (line : JsString) : Option Header :=
  let key := line.takeWhile (fun c => c ≠ 58)
  if key ≠ [] ∧ key.length < 100 ∧ lower key ≠ str "content-type" then
    let value := trim (removeFirst (key ++ [58]) line)
    if value ≠ [] then some ⟨key, value⟩ else none
  else none

/-- The second loop of `headersToArr`, over the lines still to read. -/
def headersLoop (lower : JsString → JsString) : List JsString → List Header → List Header
  | [], headers => headers
  | line :: rest, headers =>
    match headerOfLine lower line with
    | some h => headersLoop lower rest (headers ++ [h])
    | none => headersLoop lower rest headers

/-- The function `headersToArr(headersStr)`; `lower` is `toLowerCase`. -/
def headersToArr (lower : JsString → JsString) (headersStr : Option JsString) : List Header :=
  let lines := splitLines (if truthy headersStr then stringOf headersStr else [])
  let actualLines := foldLinesLoop lines []
  headersLoop lower actualLines []

/-- The headers `headersToArr` returns for a text with the given lines. -/
def headersOfLines (lower : JsString → JsString) (lines : List JsString) : List Header :=
  headersLoop lower (foldLinesLoop lines []) []

/-- The first non-empty line, if there is one, does not start with a space. -/
def startsFresh : List JsString → Bool
  | [] => true
  | line :: rest => if line = [] then startsFresh rest else line.head? ≠ some 32

/-! ## `src/messaging/Message.js`: attachments -/

/-- The exceptions of the message layer. -/
inductive MsgErr where
  /-- the error `Error("Unable to find Attachment PropertyContext")` -/
  | unableToFindAttachment
  /-- an exception raised by a collaborator (table, orchestrator, property context,
  `Buffer.from`), identified by a number -/
  | thrown (id : Nat)
  deriving DecidableEq, Repr

/-- A cell value as `getAttachment` tells them apart: a number, or anything else
(`undefined` included). -/
inductive Cell where
  | number (n : Int)
  | notNumber
  deriving DecidableEq, Repr

/-- The interface of a `PropertyContext` that `Message` uses (the class is in
`ltp/PropertyContext.js`, outside the source tree): its `getAllProperties()`. -/
structure PropertyContext (α : Type) where
  getAllProperties : Except MsgErr (List (PropertyData α))

/-- The interface of a `TableContext` that `Message` uses (the class is in
`ltp/TableContext.js`, outside the source tree), as lookup functions. -/
structure TableContext (α : Type) where
  recordCount : Nat
  getAllRowProperties : Nat → Except MsgErr (List (PropertyData α))
  getCellValueByColumnTag : Int → Nat → Except MsgErr Cell

/-- The orchestrator `PSTContext`, as a lookup function: `getSubPropertyContext(nid)`
returns a property context, returns nothing, or fails. -/
structure PSTContext (α : Type) where
  getSubPropertyContext : Int → Except MsgErr (Option (PropertyContext α))

/-- What `getAttachment` returns: `null`, `undefined`, or an object. -/
inductive JsResult (α : Type) where
  | null
  | undefined
  | object (o : Obj α)

/-- The method `Message.getAttachment(index)`; `rowIdTag` is `Tags.PID_TAG_LTP_ROW_ID`. -/
def Message.getAttachment {α : Type} (rowIdTag : Nat) (pstContext : PSTContext α)
    (attachments : Option (TableContext α)) (index : Int) : Except MsgErr (JsResult α) :=
  if index < 0 then .ok .null
  else
    match attachments with
    | none => .ok .undefined
    | some table =>
      match table.getCellValueByColumnTag index rowIdTag with
      | .error e => .error e
      | .ok (.number attachmentPCNid) =>
        match pstContext.getSubPropertyContext attachmentPCNid with
        | .error e => .error e
        | .ok none => .error .unableToFindAttachment
        | .ok (some pc) =>
          match pc.getAllProperties with
          | .error e => .error e
          | .ok props => .ok (.object (propertiesToObject props))
      | .ok .notNumber => .ok .undefined

/-- The loop of `getAttachmentEntries` over the row indices still to read. -/
def Message.getAttachmentEntriesLoop {α : Type} (table : TableContext α) :
    List Nat → List (Obj α) → Except MsgErr (List (Obj α))
  | [], out => .ok out
  | i :: is, out =>
    match table.getAllRowProperties i with
    | .error e => .error e
    | .ok props => Message.getAttachmentEntriesLoop table is (out ++ [propertiesToObject props])

/-- The method `Message.getAttachmentEntries()`. -/
def Message.getAttachmentEntries {α : Type} (attachments : Option (TableContext α)) :
    Except MsgErr (List (Obj α)) :=
  match attachments with
  | none => .ok []
  | some table => Message.getAttachmentEntriesLoop table (List.range table.recordCount) []

/-- An attachment of the mail object; `cid` and `contentType` are `none` when the property
is missing or `undefined`, `filename` is `none` when it is `null`. -/
structure MailAttachment (α β : Type) where
  filename : Option (Value α)
  cid : Option (Value α)
  content : β
  contentType : Option (Value α)

/-- Truthiness of a property read from an object: a missing property is `undefined`,
objects are truthy, and `truthyPlain` decides for the other values. -/
def truthyValue {α : Type} (truthyPlain : α → Bool) : Option (Value α) → Bool
  | none => false
  | some (.plain a) => truthyPlain a
  | some _ => true

/-- The expression `x || y`. -/
def orElse {α : Type} (truthyPlain : α → Bool) (x y : Option (Value α)) : Option (Value α) :=
  if truthyValue truthyPlain x then x else y

/-- The body of the `try` in the loop of `getRFC` that builds one attachment from the
object `obj`; `bufferFrom` is `Buffer.from`. -/
def Message.attachmentOf {α β : Type} (truthyPlain : α → Bool)
    (bufferFrom : Option (Value α) → Except MsgErr β) (obj : Obj α) :
    Except MsgErr (MailAttachment α β) :=
  match bufferFrom (obj.get "attachDataBinary") with
  | .error e => .error e
  | .ok content =>
    .ok { filename := orElse truthyPlain (obj.get "attachFilename")
            (orElse truthyPlain (obj.get "displayName") none)
          cid := orElse truthyPlain (obj.get "attachContentId") none
          content := content
          contentType := orElse truthyPlain (obj.get "attachMimeTag") none }

/-- The loop of `getRFC` over the attachment objects still to convert: a conversion that
fails is logged and skipped. -/
def Message.pushAttachmentsLoop {α β : Type} (truthyPlain : α → Bool)
    (bufferFrom : Option (Value α) → Except MsgErr β) :
    List (Obj α) → List (MailAttachment α β) → List (MailAttachment α β)
  | [], attachments => attachments
  | obj :: rest, attachments =>
    match Message.attachmentOf truthyPlain bufferFrom obj with
    | .ok att => Message.pushAttachmentsLoop truthyPlain bufferFrom rest (attachments ++ [att])
    | .error _ => Message.pushAttachmentsLoop truthyPlain bufferFrom rest attachments

/-- The attachments of the mail object `getRFC` builds: `none` when the message class is
not `IPM.Note` (`getRFC` then returns `null`); `isNote` is the outcome of
`info.messageClass === "IPM.Note"` and `hasAttachments` the value of the getter, which is
`undefined` or a boolean. -/
def Message.getRFCAttachments {α β : Type} (rowIdTag : Nat) (truthyPlain : α → Bool)
    (bufferFrom : Option (Value α) → Except MsgErr β) (pstContext : PSTContext α)
    (attachments : Option (TableContext α)) (isNote : Bool) (hasAttachments : Option Bool) :
    Option (List (MailAttachment α β)) :=
  if isNote then
    if hasAttachments = some true then
      match Message.getAttachmentEntries attachments with
      | .error _ => some []
      | .ok attEntries =>
        let mapped := (List.range attEntries.length).map (fun (i : Nat) =>
          match Message.getAttachment rowIdTag pstContext attachments (i : Int) with
          | .ok r => r
          | .error _ => JsResult.null)
        let attObjects := mapped.filterMap (fun r =>
          match r with
          | .object o => some o
          | _ => none)
        some (Message.pushAttachmentsLoop truthyPlain bufferFrom attObjects [])
    else some []
  else none

/-- The attachment row `i` gives, when its resolution and its conversion both succeed. -/
def Message.rowAttachment {α β : Type} (rowIdTag : Nat) (truthyPlain : α → Bool)
    (bufferFrom : Option (Value α) → Except MsgErr β) (pstContext : PSTContext α)
    (attachments : Option (TableContext α)) (i : Nat) : Option (MailAttachment α β) :=
  match Message.getAttachment rowIdTag pstContext attachments (i : Int) with
  | .ok (.object o) =>
    match Message.attachmentOf truthyPlain bufferFrom o with
    | .ok att => some att
    | .error _ => none
  | _ => none

/-- A property context holding one attachment payload. -/
def payloadContext : PropertyContext Nat :=
  { getAllProperties := .ok [⟨0x3701, "0x3701", some "attachDataBinary", .plain 1⟩] }

/-- An orchestrator that resolves the node 7 to `payloadContext`, resolves the node 8 to
nothing, and fails on every other node. -/
def sampleContext : PSTContext Nat :=
  { getSubPropertyContext := fun nid =>
      if nid = 7 then .ok (some payloadContext)
      else if nid = 8 then .ok none
      else .error (.thrown 3) }

/-- A conversion `Buffer.from` that fails on `undefined`. -/
def sampleBufferFrom : Option (Value Nat) → Except MsgErr Nat
  | some _ => .ok 0
  | none => .error (.thrown 2)

/-- An attachments table of three rows: the row-id cell of row 0 is absent, that of row 1
is the node 7, that of row 2 is the node 8. -/
def sampleTable : TableContext Nat :=
  { recordCount := 3
    getAllRowProperties := fun _ => .ok []
    getCellValueByColumnTag := fun i _ =>
      if i = 0 then .ok .notNumber else if i = 1 then .ok (.number 7) else .ok (.number 8) }

/-- An attachments table of two rows whose row-id cells are the node 7, and in which
reading the properties of row 1 fails. -/
def brokenTable : TableContext Nat :=
  { recordCount := 2
    getAllRowProperties := fun i => if i = 0 then .ok [] else .error (.thrown 1)
    getCellValueByColumnTag := fun _ _ => .ok (.number 7) }

/-! ## Reading what was written -/

theorem leValue_congr (b1 b2 : ArrayBuffer) (w : Nat) : ∀ pos : Nat,
    (∀ j, pos ≤ j → j < pos + w → b1.byte j = b2.byte j) →
    leValue b1 pos w = leValue b2 pos w := by
  induction w with
  | zero => intro pos _; rfl
  | succ w ih =>
    intro pos h
    simp only [leValue]
    rw [h pos (le_refl _) (by omega), ih (pos + 1) (fun j h1 h2 => h j (by omega) (by omega))]

theorem leValue_writeLE_other (buf : ArrayBuffer) (pos w v pos2 w2 : Nat)
    (h : pos2 + w2 ≤ pos ∨ pos + w ≤ pos2) :
    leValue (buf.writeLE pos w v) pos2 w2 = leValue buf pos2 w2 := by
  apply leValue_congr
  intro j h1 h2
  simp only [ArrayBuffer.writeLE]
  rw [if_neg]
  omega

theorem leValue_writeLE_aux (buf : ArrayBuffer) (pos w v : Nat) : ∀ n k : Nat, k + n = w →
    leValue (buf.writeLE pos w v) (pos + k) n = v / 256 ^ k % 256 ^ n := by
  intro n
  induction n with
  | zero => intro k _; simp [leValue, Nat.mod_one]
  | succ n ih =>
    intro k hk
    simp only [leValue]
    rw [show pos + k + 1 = pos + (k + 1) by omega, ih (k + 1) (by omega)]
    simp only [ArrayBuffer.writeLE]
    rw [if_pos (by omega), Nat.add_sub_cancel_left, Nat.mod_mod]
    rw [pow_succ 256 k, ← Nat.div_div_eq_div_mul]
    generalize v / 256 ^ k = q
    rw [pow_succ, Nat.mul_comm (256 ^ n) 256, Nat.mod_mul]

theorem leValue_writeLE_same (buf : ArrayBuffer) (pos w v : Nat) (hv : v < 256 ^ w) :
    leValue (buf.writeLE pos w v) pos w = v := by
  have := leValue_writeLE_aux buf pos w v w 0 (by omega)
  simpa [Nat.mod_eq_of_lt hv] using this

/-- Claim C8: trailer round trip.  For a 512-byte window and values `ptype` (8-bit), `wSig`
(16-bit), `dwCRC` (32-bit) and `bid` (64-bit), after writing `ptype` at byte 496, `wSig`
little-endian at 498..500, `dwCRC` little-endian at 500..504 and `bid` little-endian at
504..512, the getters `ptype`, `wSig`, `dwCRC` and `bid` of a page over the window return
exactly those values, and `ptypeRepeat` returns byte 497 of the window. -/
theorem trailer_roundtrip (buf : ArrayBuffer) (dv : DataView) (ptype wSig dwCRC bid : Nat)
    (hlen : dv.byteLength = 512)
    (h1 : ptype < 2 ^ 8) (h2 : wSig < 2 ^ 16) (h3 : dwCRC < 2 ^ 32) (h4 : bid < 2 ^ 64) :
    Page.ptype (writeTrailer buf dv ptype wSig dwCRC bid) dv = .ok ptype ∧
    Page.wSig (writeTrailer buf dv ptype wSig dwCRC bid) dv = .ok wSig ∧
    Page.dwCRC (writeTrailer buf dv ptype wSig dwCRC bid) dv = .ok dwCRC ∧
    Page.bid (writeTrailer buf dv ptype wSig dwCRC bid) dv = .ok bid ∧
    Page.ptypeRepeat (writeTrailer buf dv ptype wSig dwCRC bid) dv
      = .ok (buf.byte (dv.byteOffset + 497) % 256) := by
  refine ⟨?_, ?_, ?_, ?_, ?_⟩
  · simp only [Page.ptype, DataView.getUint8, DataView.getUint, writeTrailer, hlen]
    rw [if_pos (by omega), leValue_writeLE_other _ _ _ _ _ _ (by omega),
      leValue_writeLE_other _ _ _ _ _ _ (by omega),
      leValue_writeLE_other _ _ _ _ _ _ (by omega), leValue_writeLE_same _ _ _ _ (by simpa using h1)]
  · simp only [Page.wSig, DataView.getUint16, DataView.getUint, writeTrailer, hlen]
    rw [if_pos (by omega), leValue_writeLE_other _ _ _ _ _ _ (by omega),
      leValue_writeLE_other _ _ _ _ _ _ (by omega), leValue_writeLE_same _ _ _ _ (by simpa using h2)]
  · simp only [Page.dwCRC, DataView.getUint32, DataView.getUint, writeTrailer, hlen]
    rw [if_pos (by omega), leValue_writeLE_other _ _ _ _ _ _ (by omega),
      leValue_writeLE_same _ _ _ _ (by simpa using h3)]
  · simp only [Page.bid, DataView.getBigUint64, DataView.getUint, writeTrailer, hlen]
    rw [if_pos (by omega), leValue_writeLE_same _ _ _ _ (by simpa using h4)]
  · simp only [Page.ptypeRepeat, DataView.getUint8, DataView.getUint, writeTrailer, hlen]
    rw [if_pos (by omega), leValue_writeLE_other _ _ _ _ _ _ (by omega),
      leValue_writeLE_other _ _ _ _ _ _ (by omega),
      leValue_writeLE_other _ _ _ _ _ _ (by omega), leValue_writeLE_other _ _ _ _ _ _ (by omega)]
    simp [leValue]

/-! ## Page dispatch and entry decoding -/

theorem getUint8_lt (buf : ArrayBuffer) (dv : DataView) (i v : Nat)
    (h : dv.getUint8 buf i = .ok v) : v < 256 := by
  simp only [DataView.getUint8, DataView.getUint] at h
  split at h
  · simp only [leValue, Except.ok.injEq] at h
    omega
  · cases h

/-- Claim C9: `Page.getPage` is a closed dispatch on the byte `t` at offset 496 of the
window: `0x80` and `0x81` give a `BTPage`, `0x82` an `FMapPage`, `0x83` a `PMapPage`, `0x84`
an `AMapPage`, `0x85` an `FPMapPage`, `0x86` a `DListPage`, and every other value the base
`Page`; the page returned is over the window that was passed in, so its trailer getters
read that window. -/
theorem getPage_dispatch (buf : ArrayBuffer) (dv : DataView) (t : Nat)
    (h : Page.ptype buf dv = .ok t) :
    ∃ k, Page.getPage buf dv = .ok ⟨k, dv⟩ ∧
      (k = .btPage ↔ t = 0x80 ∨ t = 0x81) ∧
      (k = .fMapPage ↔ t = 0x82) ∧
      (k = .pMapPage ↔ t = 0x83) ∧
      (k = .aMapPage ↔ t = 0x84) ∧
      (k = .fpMapPage ↔ t = 0x85) ∧
      (k = .dListPage ↔ t = 0x86) ∧
      (k = .page ↔ t < 0x80 ∨ 0x86 < t) ∧
      Page.ptype buf (Page.mk k dv).dv = Page.ptype buf dv ∧
      Page.ptypeRepeat buf (Page.mk k dv).dv = Page.ptypeRepeat buf dv ∧
      Page.wSig buf (Page.mk k dv).dv = Page.wSig buf dv ∧
      Page.dwCRC buf (Page.mk k dv).dv = Page.dwCRC buf dv ∧
      Page.bid buf (Page.mk k dv).dv = Page.bid buf dv := by
  refine ⟨Page.kindOfType t, by simp [Page.getPage, h], ?_⟩
  simp only [Page.kindOfType]
  split_ifs <;> simp_all
  omega

theorem DataView.new_nat (buf : ArrayBuffer) (pos : Nat) (h : pos ≤ buf.byteLength) :
    DataView.new buf (pos : Int) = .ok ⟨pos, buf.byteLength - pos⟩ := by
  simp only [DataView.new]
  rw [if_neg (by omega)]
  simp

/-- Claim C6: on a page whose header is readable, for a slot `n` whose start
`byteOffset + n*cbEnt` is within the buffer, `getEntry(n)` returns a `BlockEntry` when
`cLevel == 0` and `ptype == 0x80`, a `NodeEntry` when `cLevel == 0` and `ptype == 0x81`, and
a `BTEntry` when `cLevel > 0`, each over the bytes that start at `byteOffset + n*cbEnt`; it
fails exactly when `cLevel == 0` and `ptype` is neither `0x80` nor `0x81`, and the failure
is then "Invalid BT Page". -/
theorem getEntry_spec (buf : ArrayBuffer) (dv : DataView) (n cb lvl t : Nat)
    (hcb : BTPage.cbEnt buf dv = .ok cb) (hl : BTPage.cLevel buf dv = .ok lvl)
    (ht : Page.ptype buf dv = .ok t)
    (hin : dv.byteOffset + n * cb ≤ buf.byteLength) :
    (lvl = 0 → t = 0x80 → BTPage.getEntry buf dv n =
      .ok (.blockEntry ⟨dv.byteOffset + n * cb, buf.byteLength - (dv.byteOffset + n * cb)⟩)) ∧
    (lvl = 0 → t = 0x81 → BTPage.getEntry buf dv n =
      .ok (.nodeEntry ⟨dv.byteOffset + n * cb, buf.byteLength - (dv.byteOffset + n * cb)⟩)) ∧
    (0 < lvl → BTPage.getEntry buf dv n =
      .ok (.btEntry ⟨dv.byteOffset + n * cb, buf.byteLength - (dv.byteOffset + n * cb)⟩)) ∧
    (∀ e, BTPage.getEntry buf dv n = .error e ↔
      (e = .invalidBTPage ∧ lvl = 0 ∧ t ≠ 0x80 ∧ t ≠ 0x81)) := by
  have hnew : DataView.new buf ((dv.byteOffset : Int) + (n : Int) * (cb : Int)) =
      .ok ⟨dv.byteOffset + n * cb, buf.byteLength - (dv.byteOffset + n * cb)⟩ := by
    have := DataView.new_nat buf (dv.byteOffset + n * cb) hin
    push_cast at this
    exact this
  refine ⟨?_, ?_, ?_, ?_⟩
  · intro h0 h80
    simp [BTPage.getEntry, hcb, hl, ht, h0, h80, hnew]
  · intro h0 h81
    simp [BTPage.getEntry, hcb, hl, ht, h0, h81, hnew]
  · intro hpos
    have : lvl ≠ 0 := by omega
    simp [BTPage.getEntry, hcb, hl, this, hnew]
  · intro e
    by_cases h0 : lvl = 0
    · by_cases h80 : t = 0x80
      · simp [BTPage.getEntry, hcb, hl, ht, hnew, h0, h80]
      · by_cases h81 : t = 0x81
        · simp [BTPage.getEntry, hcb, hl, ht, hnew, h0, h81]
        · simp only [BTPage.getEntry, hcb, hl, ht, h0, if_true, if_neg h80, if_neg h81]
          constructor
          · intro h
            cases h
            exact ⟨rfl, trivial, h80, h81⟩
          · rintro ⟨rfl, -⟩
            rfl
    · simp [BTPage.getEntry, hcb, hl, hnew, h0]

/-! ## `keys` and `indexOf` -/

/-- What one iteration of the loop of `keys` pushes for slot `i`. -/
theorem keysLoop_ok (L : EntryLayout) (buf : ArrayBuffer) (dv : DataView) :
    ∀ (is out ks : List Nat), BTPage.keysLoop L buf dv is out = .ok ks ↔
      ∃ ks', ks = out ++ ks' ∧
        List.Forall₂ (fun (i k : Nat) => ∃ e, BTPage.getEntry buf dv i = .ok e ∧
          e.key L buf = .ok k) is ks' := by
  intro is
  induction is with
  | nil =>
    intro out ks
    simp only [BTPage.keysLoop, Except.ok.injEq, List.forall₂_nil_left_iff]
    constructor
    · rintro rfl
      exact ⟨[], by simp, rfl⟩
    · rintro ⟨ks', rfl, rfl⟩
      simp
  | cons i is ih =>
    intro out ks
    simp only [BTPage.keysLoop]
    constructor
    · intro h
      split at h
      · cases h
      · rename_i entry he
        split at h
        · cases h
        · rename_i k hk
          obtain ⟨ks', rfl, hf⟩ := (ih _ _).1 h
          exact ⟨k :: ks', by simp, List.Forall₂.cons ⟨entry, he, hk⟩ hf⟩
    · rintro ⟨ks', rfl, hf⟩
      cases hf with
      | cons h1 hf =>
        obtain ⟨e, he, hk⟩ := h1
        rename_i k ks2
        simp only [he, hk]
        exact (ih _ _).2 ⟨ks2, by simp, hf⟩

theorem forall₂_range_aux {R : Nat → Nat → Prop} : ∀ (n s : Nat) (ks : List Nat),
    List.Forall₂ R (List.map (· + s) (List.range n)) ks ↔
      ks.length = n ∧ ∀ i k, ks[i]? = some k → R (i + s) k := by
  intro n
  induction n with
  | zero =>
    intro s ks
    simp only [List.range_zero, List.map_nil, List.forall₂_nil_left_iff]
    constructor
    · rintro rfl
      simp
    · rintro ⟨h, -⟩
      exact List.length_eq_zero.1 h
  | succ n ih =>
    intro s ks
    rw [List.range_succ_eq_map, List.map_cons, List.map_map]
    have hfun : ((· + s) ∘ Nat.succ) = (· + (s + 1)) := by
      funext x
      simp only [Function.comp, Nat.succ_eq_add_one]
      omega
    rw [hfun]
    cases ks with
    | nil => simp
    | cons k ks =>
      simp only [List.forall₂_cons, ih, List.length_cons, Nat.add_right_cancel_iff, zero_add]
      constructor
      · rintro ⟨h0, hlen, h⟩
        refine ⟨hlen, ?_⟩
        intro i k' hk'
        cases i with
        | zero =>
          simp only [List.getElem?_cons_zero, Option.some.injEq] at hk'
          subst hk'
          simpa using h0
        | succ i =>
          simp only [List.getElem?_cons_succ] at hk'
          have := h i k' hk'
          rwa [show i + (s + 1) = i + 1 + s by omega] at this
      · rintro ⟨hlen, h⟩
        refine ⟨by simpa using h 0 k (by simp), hlen, ?_⟩
        intro i k' hk'
        have := h (i + 1) k' (by simpa using hk')
        rwa [show i + 1 + s = i + (s + 1) by omega] at this

theorem forall₂_range {R : Nat → Nat → Prop} (n : Nat) (ks : List Nat) :
    List.Forall₂ R (List.range n) ks ↔
      ks.length = n ∧ ∀ i k, ks[i]? = some k → R i k := by
  have := @forall₂_range_aux R n 0 ks
  simpa using this

/-- The getter `keys` returns `ks` exactly when `cEnt` is readable and equals the length of
`ks`, and slot `i` decodes to an entry whose key is `ks[i]`. -/
theorem keys_ok (L : EntryLayout) (buf : ArrayBuffer) (dv : DataView) (ks : List Nat) :
    BTPage.keys L buf dv = .ok ks ↔
      BTPage.cEnt buf dv = .ok ks.length ∧
      ∀ i k : Nat, ks[i]? = some k → ∃ e, BTPage.getEntry buf dv (i : Int) = .ok e ∧
        e.key L buf = .ok k := by
  simp only [BTPage.keys]
  constructor
  · intro h
    split at h
    · cases h
    · rename_i c hc
      obtain ⟨ks', hks, hf⟩ := (keysLoop_ok L buf dv _ _ _).1 h
      simp only [List.nil_append] at hks
      subst hks
      obtain ⟨hlen, hall⟩ := (forall₂_range c ks).1 hf
      exact ⟨by rw [hlen]; exact hc, hall⟩
  · rintro ⟨hc, hall⟩
    simp only [hc]
    exact (keysLoop_ok L buf dv _ _ _).2 ⟨ks, by simp, (forall₂_range _ ks).2 ⟨rfl, hall⟩⟩

theorem indexOfFrom_spec (k : Nat) : ∀ (xs : List Nat) (s : Nat),
    (k ∉ xs ∧ indexOfFrom k xs s = -1) ∨
    (∃ i, i < xs.length ∧ xs[i]? = some k ∧ (∀ j, j < i → xs[j]? ≠ some k) ∧
      indexOfFrom k xs s = ((s + i : Nat) : Int)) := by
  intro xs
  induction xs with
  | nil => intro s; left; simp [indexOfFrom]
  | cons x xs ih =>
    intro s
    simp only [indexOfFrom]
    by_cases hx : x = k
    · right
      refine ⟨0, by simp, by simp [hx], by simp, by simp [hx]⟩
    · rcases ih (s + 1) with ⟨hn, h⟩ | ⟨i, hi, hik, hmin, h⟩
      · left
        refine ⟨by simp [hn, Ne.symm hx], by simp [hx, h]⟩
      · right
        refine ⟨i + 1, by simpa using hi, by simpa using hik, ?_, ?_⟩
        · intro j hj
          cases j with
          | zero => simpa using hx
          | succ j => simpa using hmin j (by omega)
        · rw [if_neg hx, h]
          congr 1
          omega

/-! ## `findEntry` at a leaf -/

theorem findEntry_eq_step (L : EntryLayout) (buf : ArrayBuffer) (fuel : Nat) :
    ∃ recur, BTPage.findEntry L buf fuel = BTPage.findEntryStep L buf recur ∧
      (∀ f, fuel = f + 1 → recur = BTPage.findEntry L buf f) := by
  cases fuel with
  | zero => exact ⟨_, rfl, by intro f h; cases h⟩
  | succ f => exact ⟨_, rfl, by intro f' h; cases h; rfl⟩

theorem findEntryStep_leaf (L : EntryLayout) (buf : ArrayBuffer)
    (recur : DataView → Nat → Run (Option Entry)) (dv : DataView) (ks : List Nat) (k : Nat)
    (hl : BTPage.cLevel buf dv = .ok 0) (hk : BTPage.keys L buf dv = .ok ks) :
    (k ∈ ks → ∃ (i : Nat) (e : Entry), ks[i]? = some k ∧ (∀ j, j < i → ks[j]? ≠ some k) ∧
        BTPage.getEntry buf dv (i : Int) = .ok e ∧ e.key L buf = .ok k ∧
        BTPage.findEntryStep L buf recur dv k = some (.ok (some e))) ∧
    (k ∉ ks → BTPage.findEntryStep L buf recur dv k = some (.ok none)) := by
  have hks := (keys_ok L buf dv ks).1 hk
  rcases indexOfFrom_spec k ks 0 with ⟨hn, h⟩ | ⟨i, hi, hik, hmin, h⟩
  · refine ⟨fun hin => absurd hin hn, fun _ => ?_⟩
    simp [BTPage.findEntryStep, hk, hl, indexOf, h]
  · have hin : k ∈ ks := List.getElem?_mem hik
    refine ⟨fun _ => ?_, fun hn => absurd hin hn⟩
    obtain ⟨e, he, hke⟩ := hks.2 i k hik
    refine ⟨i, e, hik, hmin, he, hke, ?_⟩
    simp only [zero_add] at h
    simp [BTPage.findEntryStep, hk, hl, indexOf, h, he]

theorem findEntry_leaf_aux (L : EntryLayout) (buf : ArrayBuffer) (dv : DataView)
    (fuel : Nat) (ks : List Nat) (k : Nat)
    (hl : BTPage.cLevel buf dv = .ok 0) (hk : BTPage.keys L buf dv = .ok ks) :
    (k ∈ ks → ∃ (i : Nat) (e : Entry), ks[i]? = some k ∧ (∀ j, j < i → ks[j]? ≠ some k) ∧
        BTPage.getEntry buf dv (i : Int) = .ok e ∧ e.key L buf = .ok k ∧
        BTPage.findEntry L buf fuel dv k = some (.ok (some e))) ∧
    (k ∉ ks → BTPage.findEntry L buf fuel dv k = some (.ok none)) := by
  obtain ⟨recur, hrec, -⟩ := findEntry_eq_step L buf fuel
  rw [hrec]
  exact findEntryStep_leaf L buf recur dv ks k hl hk

/-- Claim C2: on a leaf page (`cLevel == 0`) whose `keys` is `ks`, `findEntry(k)` returns
`getEntry(i)` for the first index `i` with `ks[i] == k` when `k` occurs in `ks` (and the
key of that entry is `k`), and returns `null`, without failing, when it does not.  No
recursive call is made, so this holds for every bound `fuel`.  A leaf whose `keys` returns
with at least one entry has page type `0x80` or `0x81`, so the page type needs no
hypothesis of its own. -/
theorem findEntry_leaf (L : EntryLayout) (buf : ArrayBuffer) (dv : DataView)
    (fuel : Nat) (ks : List Nat) (k : Nat)
    (hl : BTPage.cLevel buf dv = .ok 0) (hk : BTPage.keys L buf dv = .ok ks) :
    (k ∈ ks → ∃ (i : Nat) (e : Entry), ks[i]? = some k ∧ (∀ j, j < i → ks[j]? ≠ some k) ∧
        BTPage.getEntry buf dv (i : Int) = .ok e ∧ e.key L buf = .ok k ∧
        BTPage.findEntry L buf fuel dv k = some (.ok (some e))) ∧
    (k ∉ ks → BTPage.findEntry L buf fuel dv k = some (.ok none)) :=
  findEntry_leaf_aux L buf dv fuel ks k hl hk

/-! ## `findEntry` at a branch -/

theorem kindOfType_bt (t : Nat) : Page.kindOfType t = .btPage ↔ t = 0x80 ∨ t = 0x81 := by
  simp only [Page.kindOfType]
  split_ifs <;> simp_all

theorem childPage_ok (L : EntryLayout) (buf : ArrayBuffer) (dv : DataView) (n : Int)
    (edv : DataView) (ib t : Nat)
    (he : BTPage.getEntry buf dv n = .ok (.btEntry edv)) (hib : L.ib buf edv = .ok ib)
    (hle : ib ≤ buf.byteLength)
    (ht : Page.ptype buf ⟨ib, buf.byteLength - ib⟩ = .ok t) (hbt : t = 0x80 ∨ t = 0x81) :
    BTPage.childPage L buf dv n = .ok ⟨ib, buf.byteLength - ib⟩ := by
  simp [BTPage.childPage, he, hib, DataView.new_nat buf ib hle, Page.getPage, ht,
    (kindOfType_bt t).2 hbt]

theorem childPage_notBT (L : EntryLayout) (buf : ArrayBuffer) (dv : DataView) (n : Int)
    (edv : DataView) (ib t : Nat)
    (he : BTPage.getEntry buf dv n = .ok (.btEntry edv)) (hib : L.ib buf edv = .ok ib)
    (hle : ib ≤ buf.byteLength)
    (ht : Page.ptype buf ⟨ib, buf.byteLength - ib⟩ = .ok t) (hbt : t ≠ 0x80 ∧ t ≠ 0x81) :
    BTPage.childPage L buf dv n = .error .expectedBTPage := by
  have : Page.kindOfType t ≠ .btPage := by
    rw [Ne, kindOfType_bt]
    omega
  simp [BTPage.childPage, he, hib, DataView.new_nat buf ib hle, Page.getPage, ht, this]

/-- The loop falls through to the code after it when no visited key exceeds `key`. -/
theorem findEntryLoop_none (L : EntryLayout) (buf : ArrayBuffer)
    (recur : DataView → Nat → Run (Option Entry)) (dv : DataView) (ks : List Nat)
    (c key : Nat) : ∀ (n s : Nat),
    (∀ (j y : Nat), s ≤ j → j < s + n → ks[j]? = some y → y ≤ key) →
    BTPage.findEntryLoop L buf recur dv ks c key (List.range' s n) =
      BTPage.descend L buf recur dv ((c : Int) - 1) key := by
  intro n
  induction n with
  | zero => intro s _; rfl
  | succ n ih =>
    intro s h
    simp only [List.range']
    rw [BTPage.findEntryLoop]
    have hcond : (match ks[s]? with
        | some x => decide (x > key)
        | none => false) = false := by
      cases hs : ks[s]? with
      | none => rfl
      | some x =>
        have := h s x (le_refl _) (by omega) hs
        simp only [decide_eq_false_iff_not]
        omega
    rw [hcond]
    simp only [Bool.false_eq_true, if_false]
    exact ih (s + 1) (fun j y h1 h2 hy => h j y (by omega) (by omega) hy)

/-- The loop stops at the first visited index whose key exceeds `key`. -/
theorem findEntryLoop_hit (L : EntryLayout) (buf : ArrayBuffer)
    (recur : DataView → Nat → Run (Option Entry)) (dv : DataView) (ks : List Nat)
    (c key i x : Nat) (hx : ks[i]? = some x) (hgt : key < x) : ∀ (n s : Nat),
    s ≤ i → i < s + n →
    (∀ (j y : Nat), s ≤ j → j < i → ks[j]? = some y → y ≤ key) →
    BTPage.findEntryLoop L buf recur dv ks c key (List.range' s n) =
      if i = 0 then some (.ok none)
      else BTPage.descend L buf recur dv ((i : Int) - 1) key := by
  intro n
  induction n with
  | zero => intro s h1 h2; omega
  | succ n ih =>
    intro s h1 h2 h
    simp only [List.range']
    rw [BTPage.findEntryLoop]
    by_cases hsi : s = i
    · subst hsi
      simp [hx, hgt]
    · have hcond : (match ks[s]? with
          | some x => decide (x > key)
          | none => false) = false := by
        cases hs : ks[s]? with
        | none => rfl
        | some y =>
          have := h s y (le_refl _) (by omega) hs
          simp only [decide_eq_false_iff_not]
          omega
      rw [hcond]
      simp only [Bool.false_eq_true, if_false]
      exact ih (s + 1) (by omega) (by omega) (fun j y h1 h2 hy => h j y (by omega) h2 hy)

/-- The branch case of the body of `findEntry`, for any recursive call. -/
theorem findEntryStep_branch (L : EntryLayout) (buf : ArrayBuffer)
    (recur : DataView → Nat → Run (Option Entry)) (dv : DataView) (ks : List Nat)
    (lvl k : Nat) (hl : BTPage.cLevel buf dv = .ok lvl) (hpos : 0 < lvl)
    (hk : BTPage.keys L buf dv = .ok ks) :
    (∀ (i x : Nat), ks[i]? = some x → k < x →
      (∀ (j y : Nat), j < i → ks[j]? = some y → y ≤ k) →
      BTPage.findEntryStep L buf recur dv k =
        if i = 0 then some (.ok none)
        else BTPage.descend L buf recur dv ((i : Int) - 1) k) ∧
    ((∀ (j y : Nat), ks[j]? = some y → y ≤ k) →
      BTPage.findEntryStep L buf recur dv k =
        BTPage.descend L buf recur dv ((ks.length : Int) - 1) k) := by
  have hc := ((keys_ok L buf dv ks).1 hk).1
  have hne : lvl ≠ 0 := by omega
  constructor
  · intro i x hx hgt hmin
    have hi : i < ks.length := by
      by_contra hcon
      rw [List.getElem?_eq_none (by omega)] at hx
      cases hx
    simp only [BTPage.findEntryStep, hk, hl, hc, if_neg hne, List.range_eq_range']
    exact findEntryLoop_hit L buf recur dv ks _ k i x hx hgt _ 0 (by omega) (by omega)
      (fun j y _ h2 hy => hmin j y h2 hy)
  · intro hall
    simp only [BTPage.findEntryStep, hk, hl, hc, if_neg hne, List.range_eq_range']
    exact findEntryLoop_none L buf recur dv ks _ k _ 0 (fun j y _ _ hy => hall j y hy)

/-- Claim C3: on a branch page (`cLevel > 0`) whose `keys` is `ks`, let `i` be the first
index with `ks[i] > k`.  If `i == 0` the result is `null` whatever the bound on recursive
calls (no child is loaded); if `i > 0` the result is that of `findEntry(k)` on the page at
entry `i-1`'s `BREF.ib`; if no key exceeds `k` it is that of `findEntry(k)` on the page at
the last entry's (index `cEnt-1`) `BREF.ib`.  The child is the `BTPage` (page type `0x80`
or `0x81`) over the rest of the buffer from `BREF.ib`. -/
theorem findEntry_branch (L : EntryLayout) (buf : ArrayBuffer) (dv : DataView)
    (fuel : Nat) (ks : List Nat) (lvl k : Nat)
    (hl : BTPage.cLevel buf dv = .ok lvl) (hpos : 0 < lvl)
    (hk : BTPage.keys L buf dv = .ok ks) :
    (∀ x, ks[0]? = some x → k < x → BTPage.findEntry L buf fuel dv k = some (.ok none)) ∧
    (∀ (i x : Nat) edv ib t, 0 < i → ks[i]? = some x → k < x →
      (∀ (j y : Nat), j < i → ks[j]? = some y → y ≤ k) →
      BTPage.getEntry buf dv ((i : Int) - 1) = .ok (.btEntry edv) →
      L.ib buf edv = .ok ib → ib ≤ buf.byteLength →
      Page.ptype buf ⟨ib, buf.byteLength - ib⟩ = .ok t → (t = 0x80 ∨ t = 0x81) →
      BTPage.findEntry L buf (fuel + 1) dv k =
        BTPage.findEntry L buf fuel ⟨ib, buf.byteLength - ib⟩ k) ∧
    (∀ edv ib t, (∀ (j y : Nat), ks[j]? = some y → y ≤ k) →
      BTPage.getEntry buf dv ((ks.length : Int) - 1) = .ok (.btEntry edv) →
      L.ib buf edv = .ok ib → ib ≤ buf.byteLength →
      Page.ptype buf ⟨ib, buf.byteLength - ib⟩ = .ok t → (t = 0x80 ∨ t = 0x81) →
      BTPage.findEntry L buf (fuel + 1) dv k =
        BTPage.findEntry L buf fuel ⟨ib, buf.byteLength - ib⟩ k) := by
  refine ⟨?_, ?_, ?_⟩
  · intro x hx hgt
    obtain ⟨recur, hrec, -⟩ := findEntry_eq_step L buf fuel
    rw [hrec, (findEntryStep_branch L buf recur dv ks lvl k hl hpos hk).1 0 x hx hgt
      (fun j y hj _ => absurd hj (by omega))]
    rfl
  · intro i x edv ib t hi hx hgt hmin he hib hle ht hbt
    rw [BTPage.findEntry, (findEntryStep_branch L buf _ dv ks lvl k hl hpos hk).1 i x hx hgt hmin,
      if_neg (by omega), BTPage.descend, childPage_ok L buf dv _ edv ib t he hib hle ht hbt]
  · intro edv ib t hall he hib hle ht hbt
    rw [BTPage.findEntry, (findEntryStep_branch L buf _ dv ks lvl k hl hpos hk).2 hall,
      BTPage.descend, childPage_ok L buf dv _ edv ib t he hib hle ht hbt]

/-! ## Children that are not B-tree pages -/

theorem getAllKeys_eq_step (L : EntryLayout) (buf : ArrayBuffer) (fuel : Nat) :
    BTPage.getAllKeys L buf (fuel + 1) =
      BTPage.getAllKeysStep L buf (BTPage.getAllKeys L buf fuel) := rfl

/-- The loop of `getAllKeys` runs through a stretch of children that all return. -/
theorem getAllKeysLoop_skip (L : EntryLayout) (buf : ArrayBuffer)
    (recur : DataView → Run (List Nat)) (dv : DataView) (rest : List Nat) :
    ∀ (n s : Nat) (out : List Nat),
    (∀ j : Nat, s ≤ j → j < s + n → ∃ cdv kj, BTPage.childPage L buf dv (j : Int) = .ok cdv ∧
      recur cdv = some (.ok kj)) →
    ∃ out', BTPage.getAllKeysLoop L buf recur dv (List.range' s n ++ rest) out =
      BTPage.getAllKeysLoop L buf recur dv rest out' := by
  intro n
  induction n with
  | zero => intro s out _; exact ⟨out, rfl⟩
  | succ n ih =>
    intro s out h
    obtain ⟨cdv, kj, hc, hr⟩ := h s (le_refl _) (by omega)
    obtain ⟨out', ho⟩ := ih (s + 1) (out ++ kj) (fun j h1 h2 => h j (by omega) (by omega))
    refine ⟨out', ?_⟩
    simp only [List.range', List.cons_append, BTPage.getAllKeysLoop, hc, hr]
    exact ho

theorem range_split (c i : Nat) (hi : i < c) :
    List.range c = List.range' 0 i ++ (i :: List.range' (i + 1) (c - i - 1)) := by
  rw [List.range_eq_range', ← List.range'_succ]
  have := List.range'_append_1 0 i (c - i - 1 + 1)
  rw [zero_add] at this
  rw [this]
  congr 1
  omega

/-- The loop of `getAllKeys` raises the failure of the first child that fails. -/
theorem getAllKeysStep_fail (L : EntryLayout) (buf : ArrayBuffer)
    (recur : DataView → Run (List Nat)) (dv : DataView) (lvl c i : Nat) (e : Err)
    (hl : BTPage.cLevel buf dv = .ok lvl) (hpos : 0 < lvl)
    (hc : BTPage.cEnt buf dv = .ok c) (hi : i < c)
    (hpre : ∀ j : Nat, j < i → ∃ cdv kj, BTPage.childPage L buf dv (j : Int) = .ok cdv ∧
      recur cdv = some (.ok kj))
    (hfail : BTPage.childPage L buf dv (i : Int) = .error e ∨
      ∃ cdv, BTPage.childPage L buf dv (i : Int) = .ok cdv ∧ recur cdv = some (.error e)) :
    BTPage.getAllKeysStep L buf recur dv = some (.error e) := by
  have hne : lvl ≠ 0 := by omega
  simp only [BTPage.getAllKeysStep, hl, hc, if_neg hne, range_split c i hi]
  obtain ⟨out', ho⟩ := getAllKeysLoop_skip L buf recur dv (i :: List.range' (i + 1) (c - i - 1))
    i 0 [] (fun j _ h2 => hpre j (by omega))
  rw [ho]
  rcases hfail with h | ⟨cdv, h1, h2⟩
  · simp only [BTPage.getAllKeysLoop, h]
  · simp only [BTPage.getAllKeysLoop, h1, h2]

/-- Claim C7: on a branch page, when the child selected by the descent rule of `findEntry`
lies at a readable window whose page-type byte is neither `0x80` nor `0x81`, `findEntry(k)`
fails with "Expected BT Page" (for every bound on the recursion: the failure precedes the
recursive call).  Likewise `getAllKeys()` fails with "Expected BT Page" at the first child
window that is not a `BTPage`, once the children before it have returned, and the failure
of a child's `getAllKeys()` is the failure of its parent's. -/
theorem child_not_BTPage_fails (L : EntryLayout) (buf : ArrayBuffer) (dv : DataView)
    (lvl : Nat) (hl : BTPage.cLevel buf dv = .ok lvl) (hpos : 0 < lvl) :
    (∀ (fuel : Nat) (ks : List Nat) (k : Nat), BTPage.keys L buf dv = .ok ks →
      (∀ (i x : Nat) edv ib t, 0 < i → ks[i]? = some x → k < x →
        (∀ (j y : Nat), j < i → ks[j]? = some y → y ≤ k) →
        BTPage.getEntry buf dv ((i : Int) - 1) = .ok (.btEntry edv) →
        L.ib buf edv = .ok ib → ib ≤ buf.byteLength →
        Page.ptype buf ⟨ib, buf.byteLength - ib⟩ = .ok t → t ≠ 0x80 → t ≠ 0x81 →
        BTPage.findEntry L buf fuel dv k = some (.error .expectedBTPage)) ∧
      (∀ edv ib t, (∀ (j y : Nat), ks[j]? = some y → y ≤ k) →
        BTPage.getEntry buf dv ((ks.length : Int) - 1) = .ok (.btEntry edv) →
        L.ib buf edv = .ok ib → ib ≤ buf.byteLength →
        Page.ptype buf ⟨ib, buf.byteLength - ib⟩ = .ok t → t ≠ 0x80 → t ≠ 0x81 →
        BTPage.findEntry L buf fuel dv k = some (.error .expectedBTPage))) ∧
    (∀ (fuel c i : Nat), BTPage.cEnt buf dv = .ok c → i < c →
      (∀ j : Nat, j < i → ∃ cdv kj, BTPage.childPage L buf dv (j : Int) = .ok cdv ∧
        BTPage.getAllKeys L buf fuel cdv = some (.ok kj)) →
      (∀ edv ib t, BTPage.getEntry buf dv (i : Int) = .ok (.btEntry edv) →
        L.ib buf edv = .ok ib → ib ≤ buf.byteLength →
        Page.ptype buf ⟨ib, buf.byteLength - ib⟩ = .ok t → t ≠ 0x80 → t ≠ 0x81 →
        BTPage.getAllKeys L buf (fuel + 1) dv = some (.error .expectedBTPage)) ∧
      (∀ cdv e, BTPage.childPage L buf dv (i : Int) = .ok cdv →
        BTPage.getAllKeys L buf fuel cdv = some (.error e) →
        BTPage.getAllKeys L buf (fuel + 1) dv = some (.error e))) := by
  refine ⟨?_, ?_⟩
  · intro fuel ks k hk
    obtain ⟨recur, hrec, -⟩ := findEntry_eq_step L buf fuel
    refine ⟨?_, ?_⟩
    · intro i x edv ib t hi hx hgt hmin he hib hle ht h80 h81
      rw [hrec, (findEntryStep_branch L buf recur dv ks lvl k hl hpos hk).1 i x hx hgt hmin,
        if_neg (by omega), BTPage.descend,
        childPage_notBT L buf dv _ edv ib t he hib hle ht ⟨h80, h81⟩]
    · intro edv ib t hall he hib hle ht h80 h81
      rw [hrec, (findEntryStep_branch L buf recur dv ks lvl k hl hpos hk).2 hall,
        BTPage.descend, childPage_notBT L buf dv _ edv ib t he hib hle ht ⟨h80, h81⟩]
  · intro fuel c i hc hi hpre
    refine ⟨?_, ?_⟩
    · intro edv ib t he hib hle ht h80 h81
      rw [getAllKeys_eq_step]
      exact getAllKeysStep_fail L buf _ dv lvl c i _ hl hpos hc hi hpre
        (Or.inl (childPage_notBT L buf dv _ edv ib t he hib hle ht ⟨h80, h81⟩))
    · intro cdv e hcp hfail
      rw [getAllKeys_eq_step]
      exact getAllKeysStep_fail L buf _ dv lvl c i _ hl hpos hc hi hpre
        (Or.inr ⟨cdv, hcp, hfail⟩)

/-! ## `getAllKeys` as the concatenation of the leaves -/

theorem prepend_nil (r : Except Err (List Nat)) : prepend [] r = r := by
  cases r <;> simp [prepend]

theorem prepend_prepend (a b : List Nat) (r : Except Err (List Nat)) :
    prepend a (prepend b r) = prepend (a ++ b) r := by
  cases r <;> simp [prepend]

theorem concatResults_singleton (r : Except Err (List Nat)) : concatResults [r] = r := by
  cases r <;> simp [concatResults, prepend]

theorem concatResults_append (a b : List (Except Err (List Nat))) :
    concatResults (a ++ b) =
      match concatResults a with
      | .error e => .error e
      | .ok x => prepend x (concatResults b) := by
  induction a with
  | nil => simp [concatResults, prepend_nil]
  | cons r a ih =>
    cases r with
    | error e => simp [concatResults]
    | ok ks =>
      simp only [List.cons_append, concatResults]
      rw [show a.append b = a ++ b from rfl, ih]
      cases concatResults a with
      | error e => simp [prepend]
      | ok x => cases concatResults b <;> simp [prepend]

theorem concatResults_join (f : DataView → Except Err (List Nat)) (ls : List (List DataView)) :
    concatResults (ls.flatten.map f) = concatResults (ls.map (fun l => concatResults (l.map f))) := by
  induction ls with
  | nil => rfl
  | cons l ls ih =>
    simp only [List.flatten_cons, List.map_append, List.map_cons, concatResults_append, ih]
    cases h : concatResults (List.map f l) with
    | error e => simp [concatResults]
    | ok x => simp [concatResults]

/-- The loop of `getAllKeys` over children that all load and whose recursive calls are
not cut off: the output is extended by the children's results in order. -/
theorem getAllKeysLoop_eq (L : EntryLayout) (buf : ArrayBuffer)
    (recur : DataView → Run (List Nat)) (dv : DataView)
    (res : Nat → Except Err (List Nat)) :
    ∀ (n s : Nat) (out : List Nat),
    (∀ j : Nat, s ≤ j → j < s + n → ∃ cdv, BTPage.childPage L buf dv (j : Int) = .ok cdv ∧
      recur cdv = some (res j)) →
    BTPage.getAllKeysLoop L buf recur dv (List.range' s n) out =
      some (prepend out (concatResults ((List.range' s n).map res))) := by
  intro n
  induction n with
  | zero => intro s out _; simp [BTPage.getAllKeysLoop, concatResults, prepend]
  | succ n ih =>
    intro s out h
    obtain ⟨cdv, hc, hr⟩ := h s (le_refl _) (by omega)
    simp only [List.range', List.map_cons, BTPage.getAllKeysLoop, hc, hr, concatResults]
    cases hres : res s with
    | error e => simp [prepend]
    | ok ks =>
      simp only
      rw [ih (s + 1) (out ++ ks) (fun j h1 h2 => h j (by omega) (by omega)), prepend_prepend]

theorem getAllKeys_leaf (L : EntryLayout) (buf : ArrayBuffer) (dv : DataView) (fuel : Nat)
    (hl : BTPage.cLevel buf dv = .ok 0) :
    BTPage.getAllKeys L buf fuel dv = some (BTPage.keys L buf dv) := by
  cases fuel <;> simp [BTPage.getAllKeys, BTPage.getAllKeysStep, hl]

/-- On a branch page all of whose children load, `getAllKeys` concatenates the results of
the children. -/
theorem getAllKeys_branch (L : EntryLayout) (buf : ArrayBuffer) (dv : DataView)
    (fuel lvl c : Nat) (res : Nat → Except Err (List Nat))
    (hl : BTPage.cLevel buf dv = .ok lvl) (hpos : 0 < lvl) (hc : BTPage.cEnt buf dv = .ok c)
    (h : ∀ j : Nat, j < c → ∃ cdv, BTPage.childPage L buf dv (j : Int) = .ok cdv ∧
      BTPage.getAllKeys L buf fuel cdv = some (res j)) :
    BTPage.getAllKeys L buf (fuel + 1) dv = some (concatResults ((List.range c).map res)) := by
  have hne : lvl ≠ 0 := by omega
  rw [getAllKeys_eq_step]
  simp only [BTPage.getAllKeysStep, hl, hc, if_neg hne, List.range_eq_range']
  rw [getAllKeysLoop_eq L buf _ dv res c 0 [] (fun j _ h2 => h j (by omega)), prepend_nil]

theorem leafPages_leaf (L : EntryLayout) (buf : ArrayBuffer) (dv : DataView) (n : Nat)
    (hl : BTPage.cLevel buf dv = .ok 0) : leafPages L buf n dv = [dv] := by
  cases n <;> simp [leafPages, hl]

theorem leafPages_branch (L : EntryLayout) (buf : ArrayBuffer) (dv : DataView) (n lvl : Nat)
    (hl : BTPage.cLevel buf dv = .ok lvl) (hpos : 0 < lvl) :
    leafPages L buf (n + 1) dv = ((BTPage.children L buf dv).map (leafPages L buf n)).flatten := by
  cases lvl with
  | zero => omega
  | succ l => simp [leafPages, hl]

theorem children_eq (L : EntryLayout) (buf : ArrayBuffer) (dv : DataView) (c : Nat)
    (ch : Nat → DataView) (hc : BTPage.cEnt buf dv = .ok c)
    (h : ∀ j : Nat, j < c → BTPage.childPage L buf dv (j : Int) = .ok (ch j)) :
    BTPage.children L buf dv = (List.range c).map ch := by
  simp only [BTPage.children, hc]
  rw [← List.filterMap_eq_map]
  apply List.filterMap_congr
  intro j hj
  rw [h j (List.mem_range.1 hj)]
  rfl

theorem getAllKeys_eq_concat_aux (L : EntryLayout) (buf : ArrayBuffer) (Q : DataView → Prop)
    (dv : DataView) (h : AllPages L buf Q dv) :
    ∀ lvl, BTPage.cLevel buf dv = .ok lvl → ∀ fuel n, lvl ≤ fuel → lvl ≤ n →
      BTPage.getAllKeys L buf fuel dv = some (concatKeys L buf (leafPages L buf n dv)) := by
  induction h with
  | leaf dv hl _ =>
    intro lvl _ fuel n _ _
    rw [getAllKeys_leaf L buf dv fuel hl, leafPages_leaf L buf dv n hl]
    simp [concatKeys, concatResults_singleton]
  | branch dv lvl c hl hpos hc _ hch _ ih =>
    intro lvl' hl' fuel n hf hn
    rw [hl] at hl'
    cases hl'
    obtain ⟨f, rfl⟩ : ∃ f, fuel = f + 1 := ⟨fuel - 1, by omega⟩
    obtain ⟨m, rfl⟩ : ∃ m, n = m + 1 := ⟨n - 1, by omega⟩
    choose! ch clvl hch using hch
    have hres : ∀ j : Nat, j < c → ∃ cdv, BTPage.childPage L buf dv (j : Int) = .ok cdv ∧
        BTPage.getAllKeys L buf f cdv =
          some ((fun j => concatKeys L buf (leafPages L buf m (ch j))) j) := by
      intro j hj
      obtain ⟨h1, h2, h3⟩ := hch j hj
      exact ⟨ch j, h1, ih j (ch j) hj h1 (clvl j) h2 f m (by omega) (by omega)⟩
    rw [getAllKeys_branch L buf dv f lvl c _ hl hpos hc hres,
      leafPages_branch L buf dv m lvl hl hpos,
      children_eq L buf dv c ch hc (fun j hj => (hch j hj).1)]
    simp only [concatKeys, concatResults_join, List.map_map]
    rfl

/-- Claim C4: on a tree whose children are all `BTPage`s with strictly decreasing levels,
`getAllKeys()` on the root returns (once the bound on the recursion is at least the level
of the root) the concatenation, in left-to-right entry order, of `keys()` of every leaf
page reachable from the root, or the first failure among them; at a leaf it is `keys()`. -/
theorem getAllKeys_eq_concat_leaves (L : EntryLayout) (buf : ArrayBuffer) (dv : DataView)
    (lvl fuel : Nat) (h : AllPages L buf (fun _ => True) dv)
    (hl : BTPage.cLevel buf dv = .ok lvl) (hf : lvl ≤ fuel) :
    BTPage.getAllKeys L buf fuel dv = some (concatKeys L buf (leafPages L buf lvl dv)) ∧
    (lvl = 0 → BTPage.getAllKeys L buf fuel dv = some (BTPage.keys L buf dv)) := by
  refine ⟨getAllKeys_eq_concat_aux L buf _ dv h lvl hl fuel lvl hf (le_refl _), ?_⟩
  rintro rfl
  exact getAllKeys_leaf L buf dv fuel hl

/-! ## The result of `getAllKeys` does not depend on the bound once it is reached -/

theorem getAllKeysLoop_mono (L : EntryLayout) (buf : ArrayBuffer)
    (r1 r2 : DataView → Run (List Nat)) (dv : DataView)
    (h : ∀ cdv r, r1 cdv = some r → r2 cdv = some r) :
    ∀ (is out : List Nat) (r : Except Err (List Nat)),
      BTPage.getAllKeysLoop L buf r1 dv is out = some r →
      BTPage.getAllKeysLoop L buf r2 dv is out = some r := by
  intro is
  induction is with
  | nil => intro out r hr; exact hr
  | cons i is ih =>
    intro out r hr
    simp only [BTPage.getAllKeysLoop] at hr ⊢
    cases hc : BTPage.childPage L buf dv (i : Int) with
    | error e => simpa [hc] using hr
    | ok cdv =>
      simp only [hc] at hr ⊢
      cases h1 : r1 cdv with
      | none => simp [h1] at hr
      | some res =>
        rw [h cdv res h1]
        rw [h1] at hr
        cases res with
        | error e => exact hr
        | ok ks => exact ih _ _ hr

theorem getAllKeys_succ (L : EntryLayout) (buf : ArrayBuffer) :
    ∀ (fuel : Nat) (dv : DataView) (r : Except Err (List Nat)),
      BTPage.getAllKeys L buf fuel dv = some r → BTPage.getAllKeys L buf (fuel + 1) dv = some r := by
  intro fuel
  induction fuel with
  | zero =>
    intro dv r h
    simp only [BTPage.getAllKeys, BTPage.getAllKeysStep] at h ⊢
    cases hl : BTPage.cLevel buf dv with
    | error e => simpa [hl] using h
    | ok lvl =>
      simp only [hl] at h ⊢
      split_ifs at h ⊢ with h0
      · exact h
      · cases hc : BTPage.cEnt buf dv with
        | error e => simpa [hc] using h
        | ok c =>
          simp only [hc] at h ⊢
          exact getAllKeysLoop_mono L buf _ _ dv (by intro cdv r hr; cases hr) _ _ _ h
  | succ f ih =>
    intro dv r h
    rw [getAllKeys_eq_step] at h ⊢
    simp only [BTPage.getAllKeysStep] at h ⊢
    cases hl : BTPage.cLevel buf dv with
    | error e => simpa [hl] using h
    | ok lvl =>
      simp only [hl] at h ⊢
      split_ifs at h ⊢ with h0
      · exact h
      · cases hc : BTPage.cEnt buf dv with
        | error e => simpa [hc] using h
        | ok c =>
          simp only [hc] at h ⊢
          exact getAllKeysLoop_mono L buf _ _ dv (fun cdv r hr => ih cdv r hr) _ _ _ h

theorem getAllKeys_mono (L : EntryLayout) (buf : ArrayBuffer) (dv : DataView)
    (r : Except Err (List Nat)) (f f' : Nat) (hle : f ≤ f')
    (h : BTPage.getAllKeys L buf f dv = some r) : BTPage.getAllKeys L buf f' dv = some r := by
  induction hle with
  | refl => exact h
  | step _ ih => exact getAllKeys_succ L buf _ dv r ih

/-- Two runs of `getAllKeys` that both return agree. -/
theorem getAllKeys_det (L : EntryLayout) (buf : ArrayBuffer) (dv : DataView)
    (r r' : Except Err (List Nat)) (f f' : Nat)
    (h : BTPage.getAllKeys L buf f dv = some r) (h' : BTPage.getAllKeys L buf f' dv = some r') :
    r = r' := by
  have h1 := getAllKeys_mono L buf dv r f (max f f') (le_max_left _ _) h
  have h2 := getAllKeys_mono L buf dv r' f' (max f f') (le_max_right _ _) h'
  rw [h1] at h2
  exact Option.some.inj h2

theorem concatResults_ok (sub : Nat → List Nat) (l : List Nat) :
    concatResults (l.map (fun j => Except.ok (sub j))) = .ok (l.map sub).flatten := by
  induction l with
  | nil => rfl
  | cons a l ih => simp [concatResults, ih, prepend]

theorem getAllKeys_branch_ok (L : EntryLayout) (buf : ArrayBuffer) (dv : DataView)
    (fuel lvl c : Nat) (sub : Nat → List Nat)
    (hl : BTPage.cLevel buf dv = .ok lvl) (hpos : 0 < lvl) (hc : BTPage.cEnt buf dv = .ok c)
    (h : ∀ j : Nat, j < c → ∃ cdv, BTPage.childPage L buf dv (j : Int) = .ok cdv ∧
      BTPage.getAllKeys L buf fuel cdv = some (.ok (sub j))) :
    BTPage.getAllKeys L buf (fuel + 1) dv = some (.ok ((List.range c).map sub).flatten) := by
  rw [getAllKeys_branch L buf dv fuel lvl c (fun j => .ok (sub j)) hl hpos hc h,
    concatResults_ok]

/-! ## Sortedness of `getAllKeys` -/

/-- The keys of consecutive subtrees of a sorted branch page: everything in subtree `i`
lies below everything in subtree `j` when `i < j`. -/
theorem subtrees_ordered (bs : List Nat) (c : Nat) (sub : Nat → List Nat)
    (hlen : bs.length = c) (hasc : bs.Pairwise (· ≤ ·))
    (hmin : ∀ (i b : Nat), bs[i]? = some b → b ∈ sub i ∧ ∀ x ∈ sub i, b ≤ x)
    (hsep : ∀ (i b : Nat), bs[i + 1]? = some b → ∀ x ∈ sub i, x < b)
    (i j : Nat) (hij : i < j) (hj : j < c) :
    ∀ x ∈ sub i, ∀ y ∈ sub j, x < y := by
  intro x hx y hy
  have hi1 : i + 1 < bs.length := by omega
  have hjl : j < bs.length := by omega
  have h1 : x < bs[i + 1] := hsep i bs[i + 1] (List.getElem?_eq_getElem hi1) x hx
  have h2 : bs[j] ≤ y := (hmin j bs[j] (List.getElem?_eq_getElem hjl)).2 y hy
  have h3 : bs[i + 1] ≤ bs[j] := by
    rcases Nat.lt_or_ge (i + 1) j with h | h
    · exact (List.pairwise_iff_getElem.1 hasc) (i + 1) j hi1 hjl h
    · have : i + 1 = j := by omega
      subst this
      exact le_refl _
  omega

theorem getAllKeys_sorted_aux (L : EntryLayout) (buf : ArrayBuffer) (dv : DataView)
    (h : AllPages L buf (fun p => KeysAscending L buf p ∧ BtkeyIsMin L buf p ∧
      BtkeyAbovePrev L buf p) dv) :
    ∀ lvl, BTPage.cLevel buf dv = .ok lvl → ∀ fuel, lvl ≤ fuel →
      ∃ all, BTPage.getAllKeys L buf fuel dv = some (.ok all) ∧ all.Pairwise (· ≤ ·) := by
  induction h with
  | leaf dv hl hq =>
    intro lvl _ fuel _
    obtain ⟨ks, hk, hs⟩ := hq.1
    exact ⟨ks, by rw [getAllKeys_leaf L buf dv fuel hl, hk], hs⟩
  | branch dv lvl c hl hpos hc hq hch _ ih =>
    intro lvl' hl' fuel hf
    rw [hl] at hl'
    cases hl'
    obtain ⟨f, rfl⟩ : ∃ f, fuel = f + 1 := ⟨fuel - 1, by omega⟩
    obtain ⟨⟨bs, hk, hasc⟩, hmin, hsep⟩ := hq
    have hlen : bs.length = c := by
      have := ((keys_ok L buf dv bs).1 hk).1
      rw [hc] at this
      exact (Except.ok.inj this).symm
    have hsub : ∀ j : Nat, j < c → ∃ sub, (∃ cdv, BTPage.childPage L buf dv (j : Int) = .ok cdv ∧
        BTPage.getAllKeys L buf f cdv = some (.ok sub)) ∧ sub.Pairwise (· ≤ ·) := by
      intro j hj
      obtain ⟨cdv, clvl, h1, h2, h3⟩ := hch j hj
      obtain ⟨all, ha, hs⟩ := ih j cdv hj h1 clvl h2 f (by omega)
      exact ⟨all, ⟨cdv, h1, ha⟩, hs⟩
    choose! sub hsub using hsub
    refine ⟨_, getAllKeys_branch_ok L buf dv f lvl c sub hl hpos hc (fun j hj => (hsub j hj).1), ?_⟩
    have hmin' : ∀ (i b : Nat), bs[i]? = some b → b ∈ sub i ∧ ∀ x ∈ sub i, b ≤ x := by
      intro i b hb
      have hi : i < c := by
        rw [← hlen]
        by_contra hcon
        rw [List.getElem?_eq_none (by omega)] at hb
        cases hb
      obtain ⟨cdv, f0, s0, hcp, hg, hmem, hle⟩ := hmin lvl bs hl hpos hk i b hb
      obtain ⟨cdv', hcp', hg'⟩ := (hsub i hi).1
      rw [hcp] at hcp'
      cases hcp'
      have := getAllKeys_det L buf cdv _ _ _ _ hg hg'
      cases this
      exact ⟨hmem, hle⟩
    have hsep' : ∀ (i b : Nat), bs[i + 1]? = some b → ∀ x ∈ sub i, x < b := by
      intro i b hb
      have hi : i < c := by
        rw [← hlen]
        by_contra hcon
        rw [List.getElem?_eq_none (by omega)] at hb
        cases hb
      obtain ⟨cdv', hcp', hg'⟩ := (hsub i hi).1
      exact hsep lvl bs hl hpos hk i b hb cdv' f (sub i) hcp' hg'
    rw [List.pairwise_flatten]
    constructor
    · intro l hl'
      obtain ⟨j, hj, rfl⟩ := List.mem_map.1 hl'
      exact (hsub j (List.mem_range.1 hj)).2
    · rw [List.pairwise_map]
      refine List.Pairwise.imp_of_mem ?_ (List.pairwise_lt_range c)
      intro i j _ hj hij x hx y hy
      exact le_of_lt (subtrees_ordered bs c sub hlen hasc hmin' hsep' i j hij
        (List.mem_range.1 hj) x hx y hy)

/-- Claim C5: under the sortedness invariant (on every page the keys are ascending, every
branch entry's `btkey` is the smallest key of its child subtree and is greater than every
key of the preceding sibling subtree), `getAllKeys()` on the root returns, once the bound
on the recursion is at least the level of the root, a sequence that is non-decreasing from
its first element to its last. -/
theorem getAllKeys_sorted (L : EntryLayout) (buf : ArrayBuffer) (dv : DataView)
    (lvl fuel : Nat)
    (h : AllPages L buf (fun p => KeysAscending L buf p ∧ BtkeyIsMin L buf p ∧
      BtkeyAbovePrev L buf p) dv)
    (hl : BTPage.cLevel buf dv = .ok lvl) (hf : lvl ≤ fuel) :
    ∃ all, BTPage.getAllKeys L buf fuel dv = some (.ok all) ∧ all.Pairwise (· ≤ ·) :=
  getAllKeys_sorted_aux L buf dv h lvl hl fuel hf

/-! ## `findEntry` is a correct lookup on a sorted tree -/

theorem getEntry_leaf_isLeaf (buf : ArrayBuffer) (dv : DataView) (n : Int) (e : Entry)
    (hl : BTPage.cLevel buf dv = .ok 0) (he : BTPage.getEntry buf dv n = .ok e) :
    e.isLeaf = true := by
  simp only [BTPage.getEntry, hl] at he
  split at he
  · cases he
  · simp only [if_true] at he
    split at he
    · cases he
    · split_ifs at he
      · split at he
        · cases he
        · cases he; rfl
      · split at he
        · cases he
        · cases he; rfl

theorem first_above_or_none (k : Nat) : ∀ bs : List Nat,
    (∃ (i x : Nat), bs[i]? = some x ∧ k < x ∧ ∀ (j y : Nat), j < i → bs[j]? = some y → y ≤ k) ∨
    (∀ (j y : Nat), bs[j]? = some y → y ≤ k) := by
  intro bs
  induction bs with
  | nil => right; intro j y h; simp at h
  | cons b bs ih =>
    by_cases hb : k < b
    · left
      exact ⟨0, b, by simp, hb, fun j y hj _ => absurd hj (by omega)⟩
    · rcases ih with ⟨i, x, hx, hgt, hmin⟩ | hall
      · left
        refine ⟨i + 1, x, by simpa using hx, hgt, ?_⟩
        intro j y hj hy
        cases j with
        | zero =>
          simp only [List.getElem?_cons_zero, Option.some.injEq] at hy
          omega
        | succ j => exact hmin j y (by omega) (by simpa using hy)
      · right
        intro j y hy
        cases j with
        | zero =>
          simp only [List.getElem?_cons_zero, Option.some.injEq] at hy
          omega
        | succ j => exact hall j y (by simpa using hy)

/-- The order facts of a branch page of a sorted tree, in terms of the keys `sub j` that
`getAllKeys` returns on its children. -/
theorem branch_order_facts (L : EntryLayout) (buf : ArrayBuffer) (dv : DataView)
    (f lvl c : Nat) (bs : List Nat) (sub : Nat → List Nat)
    (hl : BTPage.cLevel buf dv = .ok lvl) (hpos : 0 < lvl)
    (hk : BTPage.keys L buf dv = .ok bs) (hlen : bs.length = c)
    (hmin : BtkeyIsMin L buf dv) (hsep : BtkeyAbovePrev L buf dv)
    (hsub : ∀ j : Nat, j < c → ∃ cdv, BTPage.childPage L buf dv (j : Int) = .ok cdv ∧
      BTPage.getAllKeys L buf f cdv = some (.ok (sub j))) :
    (∀ (i b : Nat), bs[i]? = some b → b ∈ sub i ∧ ∀ x ∈ sub i, b ≤ x) ∧
    (∀ (i b : Nat), bs[i + 1]? = some b → ∀ x ∈ sub i, x < b) := by
  constructor
  · intro i b hb
    have hi : i < c := by
      rw [← hlen]
      by_contra hcon
      rw [List.getElem?_eq_none (by omega)] at hb
      cases hb
    obtain ⟨cdv, f0, s0, hcp, hg, hmem, hle⟩ := hmin lvl bs hl hpos hk i b hb
    obtain ⟨cdv', hcp', hg'⟩ := hsub i hi
    rw [hcp] at hcp'
    cases hcp'
    have := getAllKeys_det L buf cdv _ _ _ _ hg hg'
    cases this
    exact ⟨hmem, hle⟩
  · intro i b hb
    have hi : i < c := by
      rw [← hlen]
      by_contra hcon
      rw [List.getElem?_eq_none (by omega)] at hb
      cases hb
    obtain ⟨cdv', hcp', hg'⟩ := hsub i hi
    exact hsep lvl bs hl hpos hk i b hb cdv' f (sub i) hcp' hg'

/-- In a sorted branch page, a key can only be in the subtree the descent rule selects. -/
theorem mem_flatten_sub_iff (c j0 k : Nat) (sub : Nat → List Nat) (hj0 : j0 < c)
    (hother : ∀ j : Nat, j < c → j ≠ j0 → k ∉ sub j) :
    k ∈ ((List.range c).map sub).flatten ↔ k ∈ sub j0 := by
  simp only [List.mem_flatten, List.mem_map, List.mem_range]
  constructor
  · rintro ⟨l, ⟨j, hj, rfl⟩, hk⟩
    by_cases h : j = j0
    · subst h; exact hk
    · exact absurd hk (hother j hj h)
  · intro hk
    exact ⟨sub j0, ⟨j0, hj0, rfl⟩, hk⟩

theorem findEntry_lookup_aux (L : EntryLayout) (buf : ArrayBuffer) (dv : DataView) (k : Nat)
    (h : AllPages L buf (fun p => KeysStrictlyAscending L buf p ∧ BtkeyIsMin L buf p ∧
      ChildOneLower L buf p ∧ BranchNonEmpty buf p ∧ BtkeyAbovePrev L buf p) dv) :
    ∀ lvl, BTPage.cLevel buf dv = .ok lvl → ∀ fuel, lvl ≤ fuel →
      ∃ all, BTPage.getAllKeys L buf fuel dv = some (.ok all) ∧
        (k ∈ all → ∃ e, BTPage.findEntry L buf fuel dv k = some (.ok (some e)) ∧
          e.isLeaf = true ∧ e.key L buf = .ok k) ∧
        (k ∉ all → BTPage.findEntry L buf fuel dv k = some (.ok none)) := by
  induction h with
  | leaf dv hl hq =>
    intro lvl _ fuel _
    obtain ⟨ks, hk, -⟩ := hq.1
    refine ⟨ks, by rw [getAllKeys_leaf L buf dv fuel hl, hk], ?_, ?_⟩
    · intro hin
      obtain ⟨i, e, -, -, he, hke, hf⟩ := (findEntry_leaf_aux L buf dv fuel ks k hl hk).1 hin
      exact ⟨e, hf, getEntry_leaf_isLeaf buf dv _ e hl he, hke⟩
    · exact (findEntry_leaf_aux L buf dv fuel ks k hl hk).2
  | branch dv lvl c hl hpos hc hq hch _ ih =>
    intro lvl' hl' fuel hf
    rw [hl] at hl'
    cases hl'
    obtain ⟨f, rfl⟩ : ∃ f, fuel = f + 1 := ⟨fuel - 1, by omega⟩
    obtain ⟨⟨bs, hk, hstrict⟩, hmin, -, hne, hsep⟩ := hq
    have hc1 : 1 ≤ c := hne lvl c hl hpos hc
    have hasc : bs.Pairwise (· ≤ ·) := hstrict.imp (fun h => le_of_lt h)
    have hlen : bs.length = c := by
      have := ((keys_ok L buf dv bs).1 hk).1
      rw [hc] at this
      exact (Except.ok.inj this).symm
    have hsub : ∀ j : Nat, j < c → ∃ sub, (∃ cdv, BTPage.childPage L buf dv (j : Int) = .ok cdv ∧
        BTPage.getAllKeys L buf f cdv = some (.ok sub) ∧
        (k ∈ sub → ∃ e, BTPage.findEntry L buf f cdv k = some (.ok (some e)) ∧
          e.isLeaf = true ∧ e.key L buf = .ok k) ∧
        (k ∉ sub → BTPage.findEntry L buf f cdv k = some (.ok none))) := by
      intro j hj
      obtain ⟨cdv, clvl, h1, h2, h3⟩ := hch j hj
      obtain ⟨all, ha, hin, hout⟩ := ih j cdv hj h1 clvl h2 f (by omega)
      exact ⟨all, cdv, h1, ha, hin, hout⟩
    choose! sub hsub using hsub
    have hsub0 : ∀ j : Nat, j < c → ∃ cdv, BTPage.childPage L buf dv (j : Int) = .ok cdv ∧
        BTPage.getAllKeys L buf f cdv = some (.ok (sub j)) := by
      intro j hj
      obtain ⟨cdv, h1, h2, -⟩ := hsub j hj
      exact ⟨cdv, h1, h2⟩
    obtain ⟨hmin', hsep'⟩ :=
      branch_order_facts L buf dv f lvl c bs sub hl hpos hk hlen hmin hsep hsub0
    refine ⟨_, getAllKeys_branch_ok L buf dv f lvl c sub hl hpos hc hsub0, ?_⟩
    -- every key of subtree `j` is at least `bs[i]` for `i ≤ j`
    have hlow : ∀ (i j : Nat), i ≤ j → j < c → ∀ y ∈ sub j, ∀ b, bs[i]? = some b → b ≤ y := by
      intro i j hij hj y hy b hb
      have hjl : j < bs.length := by omega
      have hil : i < bs.length := by omega
      have h2 : bs[j] ≤ y := (hmin' j bs[j] (List.getElem?_eq_getElem hjl)).2 y hy
      have hbi : b = bs[i] := by
        rw [List.getElem?_eq_getElem hil] at hb
        exact (Option.some.inj hb).symm
      rcases Nat.lt_or_ge i j with h | h
      · have := (List.pairwise_iff_getElem.1 hasc) i j hil hjl h
        omega
      · have : i = j := by omega
        subst this
        omega
    -- every key of subtree `i` is below `bs[j]` for `i < j`
    have hup : ∀ (i j : Nat), i < j → ∀ x ∈ sub i, ∀ b, bs[j]? = some b → x < b := by
      intro i j hij x hx b hb
      have hjl : j < bs.length := by
        by_contra hcon
        rw [List.getElem?_eq_none (by omega)] at hb
        cases hb
      have hi1 : i + 1 < bs.length := by omega
      have h1 : x < bs[i + 1] := hsep' i bs[i + 1] (List.getElem?_eq_getElem hi1) x hx
      have hbj : b = bs[j] := by
        rw [List.getElem?_eq_getElem hjl] at hb
        exact (Option.some.inj hb).symm
      rcases Nat.lt_or_ge (i + 1) j with h | h
      · have := (List.pairwise_iff_getElem.1 hasc) (i + 1) j hi1 hjl h
        omega
      · have : i + 1 = j := by omega
        subst this
        omega
    -- the descent into child `j0` decides the lookup
    have hdesc : ∀ j0 : Nat, j0 < c → (∀ j : Nat, j < c → j ≠ j0 → k ∉ sub j) →
        BTPage.findEntry L buf (f + 1) dv k = BTPage.descend L buf (BTPage.findEntry L buf f) dv
          (j0 : Int) k →
        (k ∈ ((List.range c).map sub).flatten →
          ∃ e, BTPage.findEntry L buf (f + 1) dv k = some (.ok (some e)) ∧
            e.isLeaf = true ∧ e.key L buf = .ok k) ∧
        (k ∉ ((List.range c).map sub).flatten →
          BTPage.findEntry L buf (f + 1) dv k = some (.ok none)) := by
      intro j0 hj0 hother heq
      obtain ⟨cdv, h1, -, hin, hout⟩ := hsub j0 hj0
      rw [mem_flatten_sub_iff c j0 k sub hj0 hother, heq, BTPage.descend, h1]
      exact ⟨hin, hout⟩
    rcases first_above_or_none k bs with ⟨i, x, hx, hgt, hfirst⟩ | hall
    · have hil : i < bs.length := by
        by_contra hcon
        rw [List.getElem?_eq_none (by omega)] at hx
        cases hx
      have hstep := (findEntryStep_branch L buf (BTPage.findEntry L buf f) dv bs lvl k hl hpos
        hk).1 i x hx hgt hfirst
      by_cases hi0 : i = 0
      · subst hi0
        have hnot : k ∉ ((List.range c).map sub).flatten := by
          simp only [List.mem_flatten, List.mem_map, List.mem_range]
          rintro ⟨l, ⟨j, hj, rfl⟩, hkm⟩
          have := hlow 0 j (by omega) hj k hkm x hx
          omega
        refine ⟨fun hin => absurd hin hnot, fun _ => ?_⟩
        rw [BTPage.findEntry, hstep]
        rfl
      · apply hdesc (i - 1) (by omega)
        · intro j hj hne' hkm
          rcases Nat.lt_or_ge j (i - 1) with h | h
          · have hb : bs[i - 1]? = some bs[i - 1] := List.getElem?_eq_getElem (by omega)
            have h1 := hup j (i - 1) h k hkm _ hb
            have h2 := hfirst (i - 1) _ (by omega) hb
            omega
          · have := hlow i j (by omega) hj k hkm x hx
            omega
        · rw [BTPage.findEntry, hstep, if_neg hi0]
          congr 1
          omega
    · have hstep := (findEntryStep_branch L buf (BTPage.findEntry L buf f) dv bs lvl k hl hpos
        hk).2 hall
      apply hdesc (c - 1) (by omega)
      · intro j hj hne' hkm
        have hb : bs[c - 1]? = some bs[c - 1] := List.getElem?_eq_getElem (by omega)
        have h1 := hup j (c - 1) (by omega) k hkm _ hb
        have h2 := hall (c - 1) _ hb
        omega
      · rw [BTPage.findEntry, hstep, hlen]
        congr 1
        omega

/-! ## The two small files are trees -/

theorem AllPages.mono (L : EntryLayout) (buf : ArrayBuffer) (Q Q' : DataView → Prop)
    (hQ : ∀ p, Q p → Q' p) (dv : DataView) (h : AllPages L buf Q dv) :
    AllPages L buf Q' dv := by
  induction h with
  | leaf dv hl hq => exact AllPages.leaf dv hl (hQ dv hq)
  | branch dv lvl c hl hpos hc hq hch _ ih =>
    exact AllPages.branch dv lvl c hl hpos hc (hQ dv hq) hch ih

theorem level_eq (buf : ArrayBuffer) (dv : DataView) (a b : Nat)
    (h1 : BTPage.cLevel buf dv = .ok a) (h2 : BTPage.cLevel buf dv = .ok b) : a = b := by
  rw [h1] at h2
  exact Except.ok.inj h2

theorem btkeyIsMin_of_leaf (L : EntryLayout) (buf : ArrayBuffer) (dv : DataView)
    (hl : BTPage.cLevel buf dv = .ok 0) : BtkeyIsMin L buf dv := by
  intro lvl ks hl' hpos
  have := level_eq buf dv _ _ hl hl'
  omega

theorem btkeyAbovePrev_of_leaf (L : EntryLayout) (buf : ArrayBuffer) (dv : DataView)
    (hl : BTPage.cLevel buf dv = .ok 0) : BtkeyAbovePrev L buf dv := by
  intro lvl ks hl' hpos
  have := level_eq buf dv _ _ hl hl'
  omega

theorem childOneLower_of_leaf (L : EntryLayout) (buf : ArrayBuffer) (dv : DataView)
    (hl : BTPage.cLevel buf dv = .ok 0) : ChildOneLower L buf dv := by
  intro lvl c hl' hpos
  have := level_eq buf dv _ _ hl hl'
  omega

theorem branchNonEmpty_of_leaf (buf : ArrayBuffer) (dv : DataView)
    (hl : BTPage.cLevel buf dv = .ok 0) : BranchNonEmpty buf dv := by
  intro lvl c hl' hpos
  have := level_eq buf dv _ _ hl hl'
  omega

/-- A root of level 1 with two entries whose children are leaves is a tree. -/
theorem two_leaf_tree (L : EntryLayout) (buf : ArrayBuffer) (Q : DataView → Prop)
    (root c0 c1 : DataView)
    (hl : BTPage.cLevel buf root = .ok 1) (hc : BTPage.cEnt buf root = .ok 2)
    (h0 : BTPage.childPage L buf root ((0 : Nat) : Int) = .ok c0)
    (h1 : BTPage.childPage L buf root ((1 : Nat) : Int) = .ok c1)
    (hl0 : BTPage.cLevel buf c0 = .ok 0) (hl1 : BTPage.cLevel buf c1 = .ok 0)
    (q : Q root) (q0 : Q c0) (q1 : Q c1) : AllPages L buf Q root := by
  refine AllPages.branch root 1 2 hl (by omega) hc q ?_ ?_
  · intro i hi
    interval_cases i
    · exact ⟨c0, 0, h0, hl0, by omega⟩
    · exact ⟨c1, 0, h1, hl1, by omega⟩
  · intro i cdv hi hcp
    interval_cases i
    · rw [h0] at hcp
      cases hcp
      exact AllPages.leaf _ hl0 q0
    · rw [h1] at hcp
      cases hcp
      exact AllPages.leaf _ hl1 q1

/-- The first four conditions on the root of either small file. -/
theorem root_conditions (buf : ArrayBuffer) (s0 s1 : List Nat)
    (hl : BTPage.cLevel buf rootView = .ok 1) (hc : BTPage.cEnt buf rootView = .ok 2)
    (hk : BTPage.keys msPst buf rootView = .ok [3, 10])
    (h0 : BTPage.childPage msPst buf rootView ((0 : Nat) : Int) = .ok ⟨512, 1024⟩)
    (h1 : BTPage.childPage msPst buf rootView ((1 : Nat) : Int) = .ok ⟨1024, 512⟩)
    (hl0 : BTPage.cLevel buf ⟨512, 1024⟩ = .ok 0) (hl1 : BTPage.cLevel buf ⟨1024, 512⟩ = .ok 0)
    (hg0 : BTPage.getAllKeys msPst buf 0 ⟨512, 1024⟩ = some (.ok s0))
    (hg1 : BTPage.getAllKeys msPst buf 0 ⟨1024, 512⟩ = some (.ok s1))
    (hm0 : 3 ∈ s0 ∧ ∀ x ∈ s0, 3 ≤ x) (hm1 : 10 ∈ s1 ∧ ∀ x ∈ s1, 10 ≤ x) :
    KeysStrictlyAscending msPst buf rootView ∧ BtkeyIsMin msPst buf rootView ∧
      ChildOneLower msPst buf rootView ∧ BranchNonEmpty buf rootView := by
  refine ⟨⟨[3, 10], hk, by decide⟩, ?_, ?_, ?_⟩
  · intro lvl ks _ _ hks i b hb
    rw [hk] at hks
    cases hks
    match i, hb with
    | 0, hb =>
      simp only [List.getElem?_cons_zero, Option.some.injEq] at hb
      subst hb
      exact ⟨_, 0, s0, h0, hg0, hm0.1, hm0.2⟩
    | 1, hb =>
      simp only [List.getElem?_cons_succ, List.getElem?_cons_zero, Option.some.injEq] at hb
      subst hb
      exact ⟨_, 0, s1, h1, hg1, hm1.1, hm1.2⟩
    | i + 2, hb => simp at hb
  · intro lvl c hl' _ hc' i cdv hi hcp
    have hlv := level_eq buf rootView _ _ hl hl'
    subst hlv
    rw [hc] at hc'
    cases hc'
    interval_cases i
    · rw [h0] at hcp
      cases hcp
      exact hl0
    · rw [h1] at hcp
      cases hcp
      exact hl1
  · intro lvl c _ _ hc'
    rw [hc] at hc'
    cases hc'
    omega

theorem leaf_conditions (buf : ArrayBuffer) (dv : DataView) (ks : List Nat)
    (hl : BTPage.cLevel buf dv = .ok 0) (hk : BTPage.keys msPst buf dv = .ok ks)
    (hs : ks.Pairwise (· < ·)) :
    KeysStrictlyAscending msPst buf dv ∧ BtkeyIsMin msPst buf dv ∧
      ChildOneLower msPst buf dv ∧ BranchNonEmpty buf dv ∧ BtkeyAbovePrev msPst buf dv :=
  ⟨⟨ks, hk, hs⟩, btkeyIsMin_of_leaf _ buf dv hl, childOneLower_of_leaf _ buf dv hl,
    branchNonEmpty_of_leaf buf dv hl, btkeyAbovePrev_of_leaf _ buf dv hl⟩

/-- The file `sortedFile` satisfies every condition of the sortedness invariant. -/
theorem sortedFile_tree :
    AllPages msPst sortedFile (fun p => KeysStrictlyAscending msPst sortedFile p ∧
      BtkeyIsMin msPst sortedFile p ∧ ChildOneLower msPst sortedFile p ∧
      BranchNonEmpty sortedFile p ∧ BtkeyAbovePrev msPst sortedFile p) rootView := by
  have hroot := root_conditions sortedFile [3, 5] [10, 11] rfl rfl rfl rfl rfl rfl rfl rfl rfl
    (by decide) (by decide)
  refine two_leaf_tree msPst sortedFile _ rootView ⟨512, 1024⟩ ⟨1024, 512⟩ rfl rfl rfl rfl rfl rfl
    ⟨hroot.1, hroot.2.1, hroot.2.2.1, hroot.2.2.2, ?_⟩
    (leaf_conditions sortedFile _ [3, 5] rfl rfl (by decide))
    (leaf_conditions sortedFile _ [10, 11] rfl rfl (by decide))
  intro lvl ks _ _ hks i b hb cdv fuel sub hcp hg x hx
  have hk : BTPage.keys msPst sortedFile rootView = .ok [3, 10] := rfl
  rw [hk] at hks
  cases hks
  match i, hb with
  | 0, hb =>
    simp only [zero_add, List.getElem?_cons_succ, List.getElem?_cons_zero,
      Option.some.injEq] at hb
    subst hb
    have h0 : BTPage.childPage msPst sortedFile rootView ((0 : Nat) : Int) = .ok ⟨512, 1024⟩ :=
      rfl
    rw [h0] at hcp
    cases hcp
    have hg0 : BTPage.getAllKeys msPst sortedFile 0 ⟨512, 1024⟩ = some (.ok [3, 5]) := rfl
    have := getAllKeys_det msPst sortedFile _ _ _ _ _ hg hg0
    cases this
    simp only [List.mem_cons, List.mem_singleton, List.not_mem_nil, or_false] at hx
    omega
  | i + 1, hb => simp at hb

/-- The file `overlapFile` satisfies the four conditions that do not compare a subtree
with the next entry. -/
theorem overlapFile_tree :
    AllPages msPst overlapFile (fun p => KeysStrictlyAscending msPst overlapFile p ∧
      BtkeyIsMin msPst overlapFile p ∧ ChildOneLower msPst overlapFile p ∧
      BranchNonEmpty overlapFile p) rootView := by
  have hroot := root_conditions overlapFile [3, 20] [10, 11] rfl rfl rfl rfl rfl rfl rfl rfl rfl
    (by decide) (by decide)
  have hA := leaf_conditions overlapFile ⟨512, 1024⟩ [3, 20] rfl rfl (by decide)
  have hB := leaf_conditions overlapFile ⟨1024, 512⟩ [10, 11] rfl rfl (by decide)
  exact two_leaf_tree msPst overlapFile _ rootView ⟨512, 1024⟩ ⟨1024, 512⟩ rfl rfl rfl rfl rfl rfl
    hroot ⟨hA.1, hA.2.1, hA.2.2.1, hA.2.2.2.1⟩ ⟨hB.1, hB.2.1, hB.2.2.1, hB.2.2.2.1⟩

/-! ## The claims about `findEntry` and `getAllKeys` on whole trees -/

/-- Claim C1 (amended): on a well-formed tree (on every page the keys are strictly
ascending, every branch entry's `btkey` is the smallest key in the subtree at its
`BREF.ib`, every child is a `BTPage` one level lower, every branch page has at least one
entry) in which, moreover, every key of the subtree of a branch entry is smaller than the
`btkey` of the next entry, `findEntry(k)` returns a leaf entry whose key is `k` when `k`
occurs in `getAllKeys()`, and returns `null` otherwise, once the bound on the recursion is
at least the level of the root. -/
theorem findEntry_lookup (L : EntryLayout) (buf : ArrayBuffer) (dv : DataView)
    (lvl fuel k : Nat)
    (h : AllPages L buf (fun p => KeysStrictlyAscending L buf p ∧ BtkeyIsMin L buf p ∧
      ChildOneLower L buf p ∧ BranchNonEmpty buf p ∧ BtkeyAbovePrev L buf p) dv)
    (hl : BTPage.cLevel buf dv = .ok lvl) (hf : lvl ≤ fuel) :
    ∃ all, BTPage.getAllKeys L buf fuel dv = some (.ok all) ∧
      (k ∈ all → ∃ e, BTPage.findEntry L buf fuel dv k = some (.ok (some e)) ∧
        e.isLeaf = true ∧ e.key L buf = .ok k) ∧
      (k ∉ all → BTPage.findEntry L buf fuel dv k = some (.ok none)) :=
  findEntry_lookup_aux L buf dv k h lvl hl fuel hf

/-- The amended claim C1 on `sortedFile`, looking up the key 10. -/
theorem findEntry_lookup_witness :
    BTPage.cLevel sortedFile rootView = .ok 1 ∧
    ∃ all, BTPage.getAllKeys msPst sortedFile 1 rootView = some (.ok all) ∧
      (10 ∈ all → ∃ e, BTPage.findEntry msPst sortedFile 1 rootView 10 = some (.ok (some e)) ∧
        e.isLeaf = true ∧ e.key msPst sortedFile = .ok 10) ∧
      (10 ∉ all → BTPage.findEntry msPst sortedFile 1 rootView 10 = some (.ok none)) :=
  ⟨rfl, findEntry_lookup msPst sortedFile rootView 1 1 10 sortedFile_tree rfl (le_refl 1)⟩

/-- Claim C1 as stated fails on `overlapFile`: the tree satisfies the four stated
conditions, the key 20 occurs in `getAllKeys()`, and `findEntry(20)` returns `null`. -/
theorem findEntry_lookup_counterexample :
    AllPages msPst overlapFile (fun p => KeysStrictlyAscending msPst overlapFile p ∧
      BtkeyIsMin msPst overlapFile p ∧ ChildOneLower msPst overlapFile p ∧
      BranchNonEmpty overlapFile p) rootView ∧
    BTPage.cLevel overlapFile rootView = .ok 1 ∧
    BTPage.getAllKeys msPst overlapFile 1 rootView = some (.ok [3, 20, 10, 11]) ∧
    20 ∈ [3, 20, 10, 11] ∧
    BTPage.findEntry msPst overlapFile 1 rootView 20 = some (.ok none) :=
  ⟨overlapFile_tree, rfl, rfl, by decide, rfl⟩

/-- Claim C2 on the first leaf of `sortedFile`, whose keys are `3, 5`. -/
theorem findEntry_leaf_witness :
    BTPage.cLevel sortedFile ⟨512, 1024⟩ = .ok 0 ∧
    BTPage.keys msPst sortedFile ⟨512, 1024⟩ = .ok [3, 5] ∧
    (5 ∈ [3, 5] → ∃ (i : Nat) (e : Entry), [3, 5][i]? = some 5 ∧
        (∀ j, j < i → [3, 5][j]? ≠ some 5) ∧
        BTPage.getEntry sortedFile ⟨512, 1024⟩ (i : Int) = .ok e ∧
        e.key msPst sortedFile = .ok 5 ∧
        BTPage.findEntry msPst sortedFile 0 ⟨512, 1024⟩ 5 = some (.ok (some e))) ∧
    (5 ∉ [3, 5] → BTPage.findEntry msPst sortedFile 0 ⟨512, 1024⟩ 5 = some (.ok none)) :=
  ⟨rfl, rfl, findEntry_leaf msPst sortedFile ⟨512, 1024⟩ 0 [3, 5] 5 rfl rfl⟩

/-- Claim C3 on the root of `sortedFile`: the key 5 is below the second `btkey`, so the
lookup continues in the page at offset 512. -/
theorem findEntry_branch_witness :
    BTPage.cLevel sortedFile rootView = .ok 1 ∧
    BTPage.keys msPst sortedFile rootView = .ok [3, 10] ∧
    BTPage.findEntry msPst sortedFile 0 rootView 2 = some (.ok none) ∧
    BTPage.findEntry msPst sortedFile 1 rootView 5 =
      BTPage.findEntry msPst sortedFile 0 ⟨512, 1024⟩ 5 ∧
    BTPage.findEntry msPst sortedFile 1 rootView 11 =
      BTPage.findEntry msPst sortedFile 0 ⟨1024, 512⟩ 11 :=
  ⟨rfl, rfl,
    (findEntry_branch msPst sortedFile rootView 0 [3, 10] 1 2 rfl (by decide) rfl).1 3 rfl
      (by decide),
    (findEntry_branch msPst sortedFile rootView 0 [3, 10] 1 5 rfl (by decide) rfl).2.1
      1 10 ⟨0, 1536⟩ 512 128 (by decide) rfl (by decide)
      (fun j y hj hy => by
        have h0 : j = 0 := by omega
        subst h0
        simp only [List.getElem?_cons_zero, Option.some.injEq] at hy
        omega)
      rfl rfl (by decide) rfl (by decide),
    (findEntry_branch msPst sortedFile rootView 0 [3, 10] 1 11 rfl (by decide) rfl).2.2
      ⟨24, 1512⟩ 1024 128
      (fun j y hy => by
        match j, hy with
        | 0, hy => simp only [List.getElem?_cons_zero, Option.some.injEq] at hy; omega
        | 1, hy =>
          simp only [List.getElem?_cons_succ, List.getElem?_cons_zero,
            Option.some.injEq] at hy
          omega
        | j + 2, hy => simp at hy)
      rfl rfl (by decide) rfl (by decide)⟩

/-- Claim C4 on `sortedFile`. -/
theorem getAllKeys_eq_concat_leaves_witness :
    BTPage.cLevel sortedFile rootView = .ok 1 ∧
    BTPage.getAllKeys msPst sortedFile 1 rootView =
      some (concatKeys msPst sortedFile (leafPages msPst sortedFile 1 rootView)) ∧
    ((1 : Nat) = 0 → BTPage.getAllKeys msPst sortedFile 1 rootView =
      some (BTPage.keys msPst sortedFile rootView)) :=
  ⟨rfl, getAllKeys_eq_concat_leaves msPst sortedFile rootView 1 1
    (AllPages.mono msPst sortedFile _ _ (fun _ _ => trivial) rootView sortedFile_tree) rfl
    (le_refl 1)⟩

/-- Claim C5 on `sortedFile`. -/
theorem getAllKeys_sorted_witness :
    BTPage.cLevel sortedFile rootView = .ok 1 ∧
    ∃ all, BTPage.getAllKeys msPst sortedFile 1 rootView = some (.ok all) ∧
      all.Pairwise (· ≤ ·) :=
  ⟨rfl, getAllKeys_sorted msPst sortedFile rootView 1 1
    (AllPages.mono msPst sortedFile _ _
      (fun _ hp => ⟨⟨hp.1.choose, hp.1.choose_spec.1,
        hp.1.choose_spec.2.imp (fun h => le_of_lt h)⟩, hp.2.1, hp.2.2.2.2⟩)
      rootView sortedFile_tree) rfl (le_refl 1)⟩

/-! ## Instances of the page-level claims -/

/-- Claim C6 on the root of `sortedFile` (a branch page) at slot 1. -/
theorem getEntry_spec_witness :
    BTPage.cbEnt sortedFile rootView = .ok 24 ∧ BTPage.cLevel sortedFile rootView = .ok 1 ∧
    Page.ptype sortedFile rootView = .ok 128 ∧
    rootView.byteOffset + 1 * 24 ≤ sortedFile.byteLength ∧
    BTPage.getEntry sortedFile rootView ((1 : Nat) : Int) = .ok (.btEntry ⟨24, 1512⟩) :=
  ⟨rfl, rfl, rfl, by decide,
    (getEntry_spec sortedFile rootView 1 24 1 128 rfl rfl rfl (by decide)).2.2.1 (by decide)⟩

/-- Claim C7 on `strayFile`: the second entry of the root points to an AMap page. -/
theorem child_not_BTPage_fails_witness :
    BTPage.cLevel strayFile rootView = .ok 1 ∧
    BTPage.findEntry msPst strayFile 0 rootView 11 = some (.error .expectedBTPage) ∧
    BTPage.getAllKeys msPst strayFile 1 rootView = some (.error .expectedBTPage) :=
  ⟨rfl,
    ((child_not_BTPage_fails msPst strayFile rootView 1 rfl (by decide)).1 0 [3, 10] 11 rfl).2
      ⟨24, 1512⟩ 1024 0x84
      (fun j y hy => by
        match j, hy with
        | 0, hy => simp only [List.getElem?_cons_zero, Option.some.injEq] at hy; omega
        | 1, hy =>
          simp only [List.getElem?_cons_succ, List.getElem?_cons_zero,
            Option.some.injEq] at hy
          omega
        | j + 2, hy => simp at hy)
      rfl rfl (by decide) rfl (by decide) (by decide),
    ((child_not_BTPage_fails msPst strayFile rootView 1 rfl (by decide)).2 0 2 1 rfl
      (by decide)
      (fun j hj => by
        have h0 : j = 0 := by omega
        subst h0
        exact ⟨⟨512, 1024⟩, [3, 5], rfl, rfl⟩)).1
      ⟨24, 1512⟩ 1024 0x84 rfl rfl (by decide) rfl (by decide) (by decide)⟩

/-- Claim C8 on an all-zero page. -/
theorem trailer_roundtrip_witness :
    pageView.byteLength = 512 ∧
    Page.ptype (writeTrailer blankPage pageView 0x80 0x1234 0xDEADBEEF 0x0102030405060708)
      pageView = .ok 0x80 ∧
    Page.wSig (writeTrailer blankPage pageView 0x80 0x1234 0xDEADBEEF 0x0102030405060708)
      pageView = .ok 0x1234 ∧
    Page.dwCRC (writeTrailer blankPage pageView 0x80 0x1234 0xDEADBEEF 0x0102030405060708)
      pageView = .ok 0xDEADBEEF ∧
    Page.bid (writeTrailer blankPage pageView 0x80 0x1234 0xDEADBEEF 0x0102030405060708)
      pageView = .ok 0x0102030405060708 ∧
    Page.ptypeRepeat (writeTrailer blankPage pageView 0x80 0x1234 0xDEADBEEF 0x0102030405060708)
      pageView = .ok (blankPage.byte (pageView.byteOffset + 497) % 256) :=
  ⟨rfl, trailer_roundtrip blankPage pageView 0x80 0x1234 0xDEADBEEF 0x0102030405060708 rfl
    (by decide) (by decide) (by decide) (by decide)⟩

/-- Claim C9 on the page at offset 1024 of `strayFile`, whose type byte is `0x84`. -/
theorem getPage_dispatch_witness :
    Page.ptype strayFile ⟨1024, 512⟩ = .ok 0x84 ∧
    Page.getPage strayFile ⟨1024, 512⟩ = .ok ⟨.aMapPage, ⟨1024, 512⟩⟩ := by
  refine ⟨rfl, ?_⟩
  obtain ⟨k, hk, -, -, -, h84, -⟩ := getPage_dispatch strayFile ⟨1024, 512⟩ 0x84 rfl
  rw [hk, h84.2 rfl]

/-! ## `propertiesToObject` -/

theorem Obj.get_set {α : Type} (o : Obj α) (k k' : String) (v : Value α) :
    (o.set k v).get k' = if k = k' then some v else o.get k' := by
  induction o with
  | nil => simp [Obj.set, Obj.get]
  | cons p o ih =>
    obtain ⟨k0, v0⟩ := p
    simp only [Obj.set]
    by_cases h : k0 = k
    · subst h
      by_cases h' : k0 = k' <;> simp [Obj.get, h']
    · simp only [if_neg h, Obj.get, ih]
      by_cases h' : k0 = k'
      · subst h'
        simp [Ne.symm h]
      · simp [h']

theorem Obj.mem_keys_iff {α : Type} (o : Obj α) (k : String) :
    k ∈ o.keys ↔ ∃ v, o.get k = some v := by
  induction o with
  | nil => simp [Obj.keys, Obj.get]
  | cons p o ih =>
    obtain ⟨k0, v0⟩ := p
    simp only [Obj.keys, List.map_cons, List.mem_cons, Obj.get] at ih ⊢
    by_cases h : k0 = k
    · subst h
      simp
    · simp only [if_neg h]
      rw [← ih]
      constructor
      · rintro (h1 | h1)
        · exact absurd h1.symm h
        · exact h1
      · exact Or.inr

theorem lastWithKey_cons {α : Type} (p : PropertyData α) (ps : List (PropertyData α))
    (k : String) :
    lastWithKey (p :: ps) k =
      match lastWithKey ps k with
      | some q => some q
      | none => if p.effectiveKey = k then some p else none := by
  simp only [lastWithKey, List.filter_cons]
  by_cases h : p.effectiveKey = k
  · simp only [h, decide_True, if_true]
    cases hf : List.filter (fun p => decide (p.effectiveKey = k)) ps with
    | nil => simp
    | cons q qs =>
      rw [List.getLast?_cons_cons, List.getLast?_eq_getLast _ (List.cons_ne_nil _ _)]
  · simp only [h, decide_False, if_false, Bool.false_eq_true]
    cases List.getLast? (List.filter (fun p => decide (p.effectiveKey = k)) ps) <;> rfl

theorem propertiesToObjectLoop_get {α : Type} (k : String) :
    ∀ (props : List (PropertyData α)) (out : Obj α),
      (∀ p ∈ props, p.effectiveKey ≠ "__proto__") →
      (propertiesToObjectLoop props out).get k =
        match lastWithKey props k with
        | some p => some (storedValue p.value)
        | none => out.get k := by
  intro props
  induction props with
  | nil => intro out _; simp [propertiesToObjectLoop, lastWithKey]
  | cons p ps ih =>
    intro out h
    have hp : p.effectiveKey ≠ "__proto__" := h p (List.mem_cons_self _ _)
    simp only [propertiesToObjectLoop]
    rw [ih _ (fun q hq => h q (List.mem_cons_of_mem _ hq)), lastWithKey_cons]
    cases lastWithKey ps k with
    | some q => rfl
    | none =>
      simp only [Obj.assign, if_neg hp, Obj.get_set]
      by_cases hk : p.effectiveKey = k <;> simp [hk]

/-- Claim C10 (amended): for every list of property records none of whose effective keys
(`tagName` when it is present and non-empty, otherwise `tagHex`) is `__proto__`, the object
`propertiesToObject` returns has exactly the effective keys of the records as its keys, and
the value at each key is that of the last record in list order with that effective key,
a `DataView` value being replaced by the `ArrayBuffer` of the bytes it views. -/
theorem propertiesToObject_spec {α : Type} (props : List (PropertyData α))
    (hproto : ∀ p ∈ props, p.effectiveKey ≠ "__proto__") (k : String) :
    (k ∈ (propertiesToObject props).keys ↔ ∃ p ∈ props, p.effectiveKey = k) ∧
    (propertiesToObject props).get k =
      (lastWithKey props k).map (fun p => storedValue p.value) := by
  have hget := propertiesToObjectLoop_get k props [] hproto
  have hget' : (propertiesToObject props).get k =
      (lastWithKey props k).map (fun p => storedValue p.value) := by
    rw [propertiesToObject, hget]
    cases lastWithKey props k <;> rfl
  refine ⟨?_, hget'⟩
  rw [Obj.mem_keys_iff, hget']
  simp only [lastWithKey, Option.map_eq_some']
  constructor
  · rintro ⟨v, p, hp, -⟩
    have := List.mem_of_getLast?_eq_some hp
    rw [List.mem_filter] at this
    exact ⟨p, this.1, by simpa using this.2⟩
  · rintro ⟨p, hp, hk⟩
    have hmem : p ∈ List.filter (fun p => decide (p.effectiveKey = k)) props :=
      List.mem_filter.2 ⟨hp, by simpa using hk⟩
    cases hl : (List.filter (fun p => decide (p.effectiveKey = k)) props).getLast? with
    | none =>
      rw [List.getLast?_eq_none_iff] at hl
      rw [hl] at hmem
      cases hmem
    | some q => exact ⟨_, q, rfl, rfl⟩

/-- The amended claim C10 on two records with the same name: the later one wins. -/
theorem propertiesToObject_spec_witness :
    (propertiesToObject ([⟨0x37, "0x0037", some "subject", .plain 1⟩,
      ⟨0x38, "0x0038", some "subject", .plain 2⟩] : List (PropertyData Nat))).get "subject" =
      some (.plain 2) := by
  have h := (propertiesToObject_spec ([⟨0x37, "0x0037", some "subject", .plain 1⟩,
      ⟨0x38, "0x0038", some "subject", .plain 2⟩] : List (PropertyData Nat))
    (by
      intro p hp
      simp only [List.mem_cons, List.mem_singleton, List.not_mem_nil, or_false] at hp
      rcases hp with rfl | rfl <;> decide) "subject").2
  rw [h]
  rfl

/-- Claim C10 as stated fails on a record whose value is a `DataView`: the value stored
under its key is an `ArrayBuffer`, not the value of the record. -/
theorem propertiesToObject_counterexample :
    lastWithKey [bodyRecord] "body" = some bodyRecord ∧
    (propertiesToObject [bodyRecord]).get "body" = some (.arrayBuffer blankPage) ∧
    (propertiesToObject [bodyRecord]).get "body" ≠ some bodyRecord.value := by
  refine ⟨rfl, rfl, ?_⟩
  intro h
  have h2 : (propertiesToObject [bodyRecord]).get "body" = some (.arrayBuffer blankPage) := rfl
  rw [h2] at h
  cases h

/-- A record named `__proto__` leaves no own property behind, which is why the statement
about the keys of the returned object excludes that name. -/
theorem propertiesToObject_proto :
    protoRecord.effectiveKey = "__proto__" ∧ (propertiesToObject [protoRecord]).keys = [] :=
  ⟨rfl, rfl⟩

/-! ## The shape of one step of `findEntry` -/

theorem descend_cases (L : EntryLayout) (buf : ArrayBuffer)
    (recur : DataView → Nat → Run (Option Entry)) (dv : DataView) (n : Int) (k : Nat) :
    (∃ e, BTPage.childPage L buf dv n = .error e ∧
      BTPage.descend L buf recur dv n k = some (.error e)) ∨
    (∃ cdv, BTPage.childPage L buf dv n = .ok cdv ∧
      BTPage.descend L buf recur dv n k = recur cdv k) := by
  simp only [BTPage.descend]
  cases h : BTPage.childPage L buf dv n with
  | error e => exact Or.inl ⟨e, rfl, rfl⟩
  | ok cdv => exact Or.inr ⟨cdv, rfl, rfl⟩

theorem findEntryLoop_cases (L : EntryLayout) (buf : ArrayBuffer)
    (recur : DataView → Nat → Run (Option Entry)) (dv : DataView) (ks : List Nat)
    (c k : Nat) : ∀ is : List Nat, (∀ i ∈ is, i < c) →
    BTPage.findEntryLoop L buf recur dv ks c k is = some (.ok none) ∨
    ∃ n : Int, followedSlot c n ∧
      BTPage.findEntryLoop L buf recur dv ks c k is = BTPage.descend L buf recur dv n k := by
  intro is
  induction is with
  | nil =>
    intro _
    exact Or.inr ⟨(c : Int) - 1, Or.inr rfl, rfl⟩
  | cons i is ih =>
    intro h
    have hi : i < c := h i (List.mem_cons_self _ _)
    rw [BTPage.findEntryLoop]
    split_ifs with h1 h2
    · exact Or.inl rfl
    · exact Or.inr ⟨(i : Int) - 1, Or.inl ⟨by omega, by omega⟩, rfl⟩
    · exact ih (fun j hj => h j (List.mem_cons_of_mem _ hj))

/-- One step of `findEntry` either fails or answers at once, or is the recursive call on
the child page of a slot that may be followed. -/
theorem findEntryStep_cases (L : EntryLayout) (buf : ArrayBuffer)
    (recur : DataView → Nat → Run (Option Entry)) (dv : DataView) (k : Nat) :
    (∃ e, (BTPage.keys L buf dv = .error e ∨ BTPage.cLevel buf dv = .error e) ∧
      BTPage.findEntryStep L buf recur dv k = some (.error e)) ∨
    (∃ ks, BTPage.keys L buf dv = .ok ks ∧ BTPage.cLevel buf dv = .ok 0 ∧
      ((k ∉ ks ∧ BTPage.findEntryStep L buf recur dv k = some (.ok none)) ∨
       (∃ (i : Nat) (e : Entry), ks[i]? = some k ∧ BTPage.getEntry buf dv (i : Int) = .ok e ∧
          e.key L buf = .ok k ∧
          BTPage.findEntryStep L buf recur dv k = some (.ok (some e))))) ∨
    (∃ ks lvl c, BTPage.keys L buf dv = .ok ks ∧ BTPage.cLevel buf dv = .ok lvl ∧ 0 < lvl ∧
      BTPage.cEnt buf dv = .ok c ∧
      (BTPage.findEntryStep L buf recur dv k = some (.ok none) ∨
       (∃ n e, followedSlot c n ∧ BTPage.childPage L buf dv n = .error e ∧
          BTPage.findEntryStep L buf recur dv k = some (.error e)) ∨
       (∃ n cdv, followedSlot c n ∧ BTPage.childPage L buf dv n = .ok cdv ∧
          BTPage.findEntryStep L buf recur dv k = recur cdv k))) := by
  cases hk : BTPage.keys L buf dv with
  | error e =>
    left
    exact ⟨e, Or.inl rfl, by simp [BTPage.findEntryStep, hk]⟩
  | ok ks =>
    have hc := ((keys_ok L buf dv ks).1 hk).1
    cases hl : BTPage.cLevel buf dv with
    | error e =>
      left
      exact ⟨e, Or.inr rfl, by simp [BTPage.findEntryStep, hk, hl]⟩
    | ok lvl =>
    right
    by_cases h0 : lvl = 0
    · subst h0
      left
      refine ⟨ks, rfl, rfl, ?_⟩
      by_cases hin : k ∈ ks
      · right
        obtain ⟨i, e, hik, -, he, hke, hf⟩ := (findEntryStep_leaf L buf recur dv ks k hl hk).1 hin
        exact ⟨i, e, hik, he, hke, hf⟩
      · left
        exact ⟨hin, (findEntryStep_leaf L buf recur dv ks k hl hk).2 hin⟩
    · right
      refine ⟨ks, lvl, ks.length, rfl, rfl, by omega, hc, ?_⟩
      have hstep : BTPage.findEntryStep L buf recur dv k =
          BTPage.findEntryLoop L buf recur dv ks ks.length k (List.range ks.length) := by
        simp [BTPage.findEntryStep, hk, hl, hc, h0]
      rw [hstep]
      rcases findEntryLoop_cases L buf recur dv ks ks.length k (List.range ks.length)
        (fun i hi => List.mem_range.1 hi) with h | ⟨n, hn, h⟩
      · exact Or.inl h
      · rw [h]
        rcases descend_cases L buf recur dv n k with ⟨e, h1, h2⟩ | ⟨cdv, h1, h2⟩
        · exact Or.inr (Or.inl ⟨n, e, hn, h1, h2⟩)
        · exact Or.inr (Or.inr ⟨n, cdv, hn, h1, h2⟩)

/-! ## Soundness of `findEntry` -/

theorem findEntryStep_sound (L : EntryLayout) (buf : ArrayBuffer)
    (recur : DataView → Nat → Run (Option Entry)) (dv : DataView) (k : Nat) (e : Entry)
    (P : Prop)
    (hleaf : ∀ (p : DataView) (i : Nat), BTPage.cLevel buf p = .ok 0 →
      BTPage.getEntry buf p (i : Int) = .ok e → e.key L buf = .ok k → P)
    (hrec : ∀ cdv, recur cdv k = some (.ok (some e)) → P)
    (h : BTPage.findEntryStep L buf recur dv k = some (.ok (some e))) : P := by
  rcases findEntryStep_cases L buf recur dv k with ⟨err, -, h1⟩ | ⟨ks, -, hl, h1⟩ |
    ⟨ks, lvl, c, -, -, -, -, h1⟩
  · rw [h1] at h
    cases h
  · rcases h1 with ⟨-, h2⟩ | ⟨i, e', -, he, hke, h2⟩
    · rw [h2] at h
      cases h
    · rw [h2] at h
      cases h
      exact hleaf dv i hl he hke
  · rcases h1 with h2 | ⟨n, err, -, -, h2⟩ | ⟨n, cdv, -, -, h2⟩
    · rw [h2] at h
      cases h
    · rw [h2] at h
      cases h
    · rw [h2] at h
      exact hrec cdv h

theorem findEntry_sound_aux (L : EntryLayout) (buf : ArrayBuffer) (k : Nat) (e : Entry) :
    ∀ (fuel : Nat) (dv : DataView),
      BTPage.findEntry L buf fuel dv k = some (.ok (some e)) →
      e.isLeaf = true ∧ e.key L buf = .ok k ∧
        ∃ (p : DataView) (i : Nat), BTPage.cLevel buf p = .ok 0 ∧
          BTPage.getEntry buf p (i : Int) = .ok e := by
  intro fuel
  induction fuel with
  | zero =>
    intro dv h
    exact findEntryStep_sound L buf _ dv k e _
      (fun p i hl he hke => ⟨getEntry_leaf_isLeaf buf p _ e hl he, hke, p, i, hl, he⟩)
      (fun cdv hc => by cases hc) h
  | succ f ih =>
    intro dv h
    exact findEntryStep_sound L buf _ dv k e _
      (fun p i hl he hke => ⟨getEntry_leaf_isLeaf buf p _ e hl he, hke, p, i, hl, he⟩)
      (fun cdv hc => ih cdv hc) h

/-- Claim C18: soundness of `findEntry` without any well-formedness assumption.  For every
buffer, page and key `k`, whatever the bound on the recursion, if `findEntry(k)` returns an
entry (rather than `null` or a failure) then that entry is a leaf entry (a `BlockEntry` or
a `NodeEntry`), it is an entry of a page of level 0, and its key is `k`. -/
theorem findEntry_sound (L : EntryLayout) (buf : ArrayBuffer) (fuel : Nat) (dv : DataView)
    (k : Nat) (e : Entry) (h : BTPage.findEntry L buf fuel dv k = some (.ok (some e))) :
    e.isLeaf = true ∧ e.key L buf = .ok k ∧
      ∃ (p : DataView) (i : Nat), BTPage.cLevel buf p = .ok 0 ∧
        BTPage.getEntry buf p (i : Int) = .ok e :=
  findEntry_sound_aux L buf k e fuel dv h

/-- Claim C18 on `sortedFile`: the lookup of 10 returns the first entry of the second
leaf. -/
theorem findEntry_sound_witness :
    BTPage.findEntry msPst sortedFile 1 rootView 10 = some (.ok (some (.blockEntry ⟨1024, 512⟩))) ∧
    (Entry.blockEntry ⟨1024, 512⟩).isLeaf = true ∧
    (Entry.blockEntry ⟨1024, 512⟩).key msPst sortedFile = .ok 10 ∧
    ∃ (p : DataView) (i : Nat), BTPage.cLevel sortedFile p = .ok 0 ∧
      BTPage.getEntry sortedFile p (i : Int) = .ok (.blockEntry ⟨1024, 512⟩) :=
  ⟨rfl, findEntry_sound msPst sortedFile 1 rootView 10 (.blockEntry ⟨1024, 512⟩) rfl⟩

/-! ## Termination of the descent -/

theorem getAllKeysLoop_some (L : EntryLayout) (buf : ArrayBuffer)
    (recur : DataView → Run (List Nat)) (dv : DataView) :
    ∀ (is out : List Nat),
      (∀ i ∈ is, ∀ cdv, BTPage.childPage L buf dv ((i : Nat) : Int) = .ok cdv →
        ∃ r, recur cdv = some r) →
      ∃ r, BTPage.getAllKeysLoop L buf recur dv is out = some r := by
  intro is
  induction is with
  | nil => intro out _; exact ⟨_, rfl⟩
  | cons i is ih =>
    intro out h
    simp only [BTPage.getAllKeysLoop]
    cases hc : BTPage.childPage L buf dv (i : Int) with
    | error e => exact ⟨_, rfl⟩
    | ok cdv =>
      obtain ⟨r, hr⟩ := h i (List.mem_cons_self _ _) cdv hc
      simp only [hr]
      cases r with
      | error e => exact ⟨_, rfl⟩
      | ok ks => exact ih _ (fun j hj => h j (List.mem_cons_of_mem _ hj))

theorem descent_terminates_aux (L : EntryLayout) (buf : ArrayBuffer) (dv : DataView)
    (h : LevelsDescend L buf dv) :
    ∀ lvl, BTPage.cLevel buf dv = .ok lvl →
      (∀ fuel k, lvl ≤ fuel → ∃ r, BTPage.findEntry L buf fuel dv k = some r) ∧
      (∀ fuel, lvl ≤ fuel → ∃ r, BTPage.getAllKeys L buf fuel dv = some r) := by
  induction h with
  | intro dv hlev _ ih =>
    intro lvl hl
    constructor
    · intro fuel k hf
      obtain ⟨recur, hrec, hfuel⟩ := findEntry_eq_step L buf fuel
      rw [hrec]
      rcases findEntryStep_cases L buf recur dv k with ⟨err, -, h1⟩ | ⟨ks, -, -, h1⟩ |
        ⟨ks, lvl', c, -, hl', hpos, hc, h1⟩
      · exact ⟨_, h1⟩
      · rcases h1 with ⟨-, h2⟩ | ⟨i, e', -, -, -, h2⟩
        · exact ⟨_, h2⟩
        · exact ⟨_, h2⟩
      · rcases h1 with h2 | ⟨n, err, -, -, h2⟩ | ⟨n, cdv, hn, hcp, h2⟩
        · exact ⟨_, h2⟩
        · exact ⟨_, h2⟩
        · have hlv := level_eq buf dv _ _ hl hl'
          subst hlv
          obtain ⟨f, rfl⟩ : ∃ f, fuel = f + 1 := ⟨fuel - 1, by omega⟩
          rw [h2, hfuel f rfl]
          obtain ⟨clvl, hcl, hlt⟩ := hlev lvl c n cdv hl hpos hc hn hcp
          exact (ih lvl c n cdv hl hpos hc hn hcp clvl hcl).1 f k (by omega)
    · intro fuel hf
      by_cases h0 : lvl = 0
      · subst h0
        exact ⟨_, getAllKeys_leaf L buf dv fuel hl⟩
      · obtain ⟨f, rfl⟩ : ∃ f, fuel = f + 1 := ⟨fuel - 1, by omega⟩
        rw [getAllKeys_eq_step]
        simp only [BTPage.getAllKeysStep, hl, if_neg h0]
        cases hc : BTPage.cEnt buf dv with
        | error e => exact ⟨_, rfl⟩
        | ok c =>
          simp only
          apply getAllKeysLoop_some
          intro i hi cdv hcp
          have hn : followedSlot c (i : Int) :=
            Or.inl ⟨by omega, by have := List.mem_range.1 hi; omega⟩
          obtain ⟨clvl, hcl, hlt⟩ := hlev lvl c i cdv hl (by omega) hc hn hcp
          exact (ih lvl c i cdv hl (by omega) hc hn hcp clvl hcl).2 f (by omega)

theorem loopFile_findEntry (k : Nat) : ∀ fuel : Nat,
    BTPage.findEntry msPst loopFile fuel pageView k = none := by
  have hstep : ∀ recur : DataView → Nat → Run (Option Entry),
      BTPage.findEntryStep msPst loopFile recur pageView k = recur pageView k := by
    intro recur
    have hk : BTPage.keys msPst loopFile pageView = .ok [0] := rfl
    rw [(findEntryStep_branch msPst loopFile recur pageView [0] 1 k rfl (by decide) hk).2
      (fun j y hy => by
        match j, hy with
        | 0, hy => simp only [List.getElem?_cons_zero, Option.some.injEq] at hy; omega
        | j + 1, hy => simp at hy)]
    rfl
  intro fuel
  induction fuel with
  | zero => exact hstep _
  | succ f ih => rw [BTPage.findEntry, hstep, ih]

theorem loopFile_getAllKeys : ∀ fuel : Nat,
    BTPage.getAllKeys msPst loopFile fuel pageView = none := by
  have hstep : ∀ recur : DataView → Run (List Nat), recur pageView = none →
      BTPage.getAllKeysStep msPst loopFile recur pageView = none := by
    intro recur hr
    have hl : BTPage.cLevel loopFile pageView = .ok 1 := rfl
    have hc : BTPage.cEnt loopFile pageView = .ok 1 := rfl
    have hcp : BTPage.childPage msPst loopFile pageView (0 : Int) = .ok pageView := rfl
    simp [BTPage.getAllKeysStep, hl, hc, List.range_succ, BTPage.getAllKeysLoop, hcp, hr]
  intro fuel
  induction fuel with
  | zero => exact hstep _ rfl
  | succ f ih => exact hstep _ ih

theorem levelsDescend_leaf (L : EntryLayout) (buf : ArrayBuffer) (dv : DataView)
    (hl : BTPage.cLevel buf dv = .ok 0) : LevelsDescend L buf dv := by
  refine LevelsDescend.intro dv ?_ ?_
  · intro lvl c n cdv hl' hpos
    have := level_eq buf dv _ _ hl hl'
    omega
  · intro lvl c n cdv hl' hpos
    have := level_eq buf dv _ _ hl hl'
    omega

theorem sortedFile_levelsDescend : LevelsDescend msPst sortedFile rootView := by
  have hkids : ∀ (c : Nat) (n : Int) (cdv : DataView), BTPage.cEnt sortedFile rootView = .ok c →
      followedSlot c n → BTPage.childPage msPst sortedFile rootView n = .ok cdv →
      BTPage.cLevel sortedFile cdv = .ok 0 := by
    intro c n cdv hc hn hcp
    have hc2 : BTPage.cEnt sortedFile rootView = .ok 2 := rfl
    rw [hc2] at hc
    cases hc
    have hn' : n = 0 ∨ n = 1 := by
      rcases hn with ⟨h1, h2⟩ | h
      · omega
      · right; omega
    rcases hn' with rfl | rfl
    · have h0 : BTPage.childPage msPst sortedFile rootView 0 = .ok ⟨512, 1024⟩ := rfl
      rw [h0] at hcp
      cases hcp
      rfl
    · have h1 : BTPage.childPage msPst sortedFile rootView 1 = .ok ⟨1024, 512⟩ := rfl
      rw [h1] at hcp
      cases hcp
      rfl
  refine LevelsDescend.intro rootView ?_ ?_
  · intro lvl c n cdv hl hpos hc hn hcp
    exact ⟨0, hkids c n cdv hc hn hcp, hpos⟩
  · intro lvl c n cdv _ _ hc hn hcp
    exact levelsDescend_leaf msPst sortedFile cdv (hkids c n cdv hc hn hcp)

/-- Claim C19: termination of the recursive descent.  When, along the descent from a page,
the child page of every branch entry has a `cLevel` strictly smaller than its parent's,
`findEntry(k)` returns with at most `cLevel` nested recursive calls (it visits at most
`cLevel + 1` pages) and `getAllKeys()` returns with a recursion of depth at most `cLevel`.
The code does not check that the level decreases: on `loopFile`, whose branch page has an
entry pointing back to the page itself, neither `findEntry` nor `getAllKeys` returns,
whatever the bound on the recursion. -/
theorem descent_terminates :
    (∀ (L : EntryLayout) (buf : ArrayBuffer) (dv : DataView) (lvl : Nat),
      LevelsDescend L buf dv → BTPage.cLevel buf dv = .ok lvl →
      (∀ fuel k, lvl ≤ fuel → ∃ r, BTPage.findEntry L buf fuel dv k = some r) ∧
      (∀ fuel, lvl ≤ fuel → ∃ r, BTPage.getAllKeys L buf fuel dv = some r)) ∧
    (∀ fuel k, BTPage.findEntry msPst loopFile fuel pageView k = none) ∧
    (∀ fuel, BTPage.getAllKeys msPst loopFile fuel pageView = none) :=
  ⟨fun L buf dv lvl h hl => descent_terminates_aux L buf dv h lvl hl,
    fun fuel k => loopFile_findEntry k fuel, loopFile_getAllKeys⟩

/-- Claim C19 on `sortedFile`, whose root has level 1: one nested call is enough. -/
theorem descent_terminates_witness :
    LevelsDescend msPst sortedFile rootView ∧ BTPage.cLevel sortedFile rootView = .ok 1 ∧
    (∃ r, BTPage.findEntry msPst sortedFile 1 rootView 10 = some r) ∧
    (∃ r, BTPage.getAllKeys msPst sortedFile 1 rootView = some r) :=
  ⟨sortedFile_levelsDescend, rfl,
    (descent_terminates.1 msPst sortedFile rootView 1 sortedFile_levelsDescend rfl).1 1 10
      (le_refl 1),
    (descent_terminates.1 msPst sortedFile rootView 1 sortedFile_levelsDescend rfl).2 1
      (le_refl 1)⟩

/-! ## The failures that can be raised above level 0 -/

theorem getUint_error (buf : ArrayBuffer) (dv : DataView) (w i : Nat) (e : Err)
    (h : dv.getUint buf w i = .error e) : e = .rangeError := by
  simp only [DataView.getUint] at h
  split_ifs at h
  cases h
  rfl

theorem DataView.new_error (buf : ArrayBuffer) (pos : Int) (e : Err)
    (h : DataView.new buf pos = .error e) : e = .rangeError := by
  simp only [DataView.new] at h
  split_ifs at h
  cases h
  rfl

/-- The three outcomes of `getEntry`: a failure, a `BTEntry` above level 0, a leaf entry at
level 0. -/
theorem getEntry_cases (buf : ArrayBuffer) (dv : DataView) (n : Int) :
    (∃ e, BTPage.getEntry buf dv n = .error e ∧
      (e = .rangeError ∨ (e = .invalidBTPage ∧ BTPage.cLevel buf dv = .ok 0 ∧
        ∃ t, Page.ptype buf dv = .ok t ∧ t ≠ 0x80 ∧ t ≠ 0x81))) ∨
    (∃ v, BTPage.getEntry buf dv n = .ok (.btEntry v) ∧
      ∃ lvl, BTPage.cLevel buf dv = .ok lvl ∧ 0 < lvl) ∨
    (∃ e, BTPage.getEntry buf dv n = .ok e ∧ e.isLeaf = true ∧
      BTPage.cLevel buf dv = .ok 0) := by
  simp only [BTPage.getEntry]
  cases hcb : BTPage.cbEnt buf dv with
  | error e => exact Or.inl ⟨e, rfl, Or.inl (getUint_error buf dv _ _ e hcb)⟩
  | ok cb =>
    cases hl : BTPage.cLevel buf dv with
    | error e => exact Or.inl ⟨e, rfl, Or.inl (getUint_error buf dv _ _ e hl)⟩
    | ok lvl =>
      simp only
      by_cases h0 : lvl = 0
      · subst h0
        simp only [if_true]
        cases ht : Page.ptype buf dv with
        | error e => exact Or.inl ⟨e, rfl, Or.inl (getUint_error buf dv _ _ e ht)⟩
        | ok t =>
          simp only
          by_cases h80 : t = 0x80
          · simp only [if_pos h80]
            cases hn : DataView.new buf (↑dv.byteOffset + n * ↑cb) with
            | error e => exact Or.inl ⟨e, rfl, Or.inl (DataView.new_error buf _ e hn)⟩
            | ok v => exact Or.inr (Or.inr ⟨_, rfl, rfl, by first | rfl | trivial⟩)
          · simp only [if_neg h80]
            by_cases h81 : t = 0x81
            · simp only [if_pos h81]
              cases hn : DataView.new buf (↑dv.byteOffset + n * ↑cb) with
              | error e => exact Or.inl ⟨e, rfl, Or.inl (DataView.new_error buf _ e hn)⟩
              | ok v => exact Or.inr (Or.inr ⟨_, rfl, rfl, by first | rfl | trivial⟩)
            · simp only [if_neg h81]
              exact Or.inl ⟨_, rfl, Or.inr ⟨rfl, by first | rfl | trivial, t, rfl, h80, h81⟩⟩
      · simp only [if_neg h0]
        cases hn : DataView.new buf (↑dv.byteOffset + n * ↑cb) with
        | error e => exact Or.inl ⟨e, rfl, Or.inl (DataView.new_error buf _ e hn)⟩
        | ok v => exact Or.inr (Or.inl ⟨v, rfl, lvl, rfl, by omega⟩)

theorem entryKey_error (L : EntryLayout) (hL : L.RangeOnly) (buf : ArrayBuffer) (e : Entry)
    (err : Err) (h : e.key L buf = .error err) : err = .rangeError := by
  cases e with
  | blockEntry v => exact hL buf v err (Or.inr (Or.inr (Or.inl h)))
  | nodeEntry v => exact hL buf v err (Or.inr (Or.inr (Or.inr h)))
  | btEntry v => exact hL buf v err (Or.inl h)

theorem getEntry_error_good (buf : ArrayBuffer) (dv : DataView) (hg : GoodLeafType buf dv)
    (n : Int) (err : Err) (h : BTPage.getEntry buf dv n = .error err) : err = .rangeError := by
  rcases getEntry_cases buf dv n with ⟨e, h1, h2⟩ | ⟨v, h1, -⟩ | ⟨e, h1, -⟩
  · rw [h1] at h
    cases h
    rcases h2 with h2 | ⟨-, hl, t, ht, h80, h81⟩
    · exact h2
    · rcases hg t hl ht with h3 | h3
      · exact absurd h3 h80
      · exact absurd h3 h81
  · rw [h1] at h
    cases h
  · rw [h1] at h
    cases h

theorem keysLoop_error (L : EntryLayout) (hL : L.RangeOnly) (buf : ArrayBuffer)
    (dv : DataView) (hg : GoodLeafType buf dv) (err : Err) :
    ∀ (is out : List Nat), BTPage.keysLoop L buf dv is out = .error err → err = .rangeError := by
  intro is
  induction is with
  | nil => intro out h; cases h
  | cons i is ih =>
    intro out h
    simp only [BTPage.keysLoop] at h
    cases he : BTPage.getEntry buf dv (i : Int) with
    | error e =>
      rw [he] at h
      cases h
      exact getEntry_error_good buf dv hg _ _ he
    | ok entry =>
      rw [he] at h
      simp only at h
      cases hk : entry.key L buf with
      | error e =>
        rw [hk] at h
        cases h
        exact entryKey_error L hL buf entry _ hk
      | ok k =>
        rw [hk] at h
        exact ih _ h

theorem keys_error (L : EntryLayout) (hL : L.RangeOnly) (buf : ArrayBuffer)
    (dv : DataView) (hg : GoodLeafType buf dv) (err : Err)
    (h : BTPage.keys L buf dv = .error err) : err = .rangeError := by
  simp only [BTPage.keys] at h
  cases hc : BTPage.cEnt buf dv with
  | error e =>
    rw [hc] at h
    cases h
    exact getUint_error buf dv _ _ _ hc
  | ok c =>
    rw [hc] at h
    exact keysLoop_error L hL buf dv hg err _ _ h

/-- What loading a child page can give: a failure that is a read outside the buffer or
"Expected BT Page" (above level 0), or a page with a valid leaf type. -/
theorem childPage_cases (L : EntryLayout) (hL : L.RangeOnly) (buf : ArrayBuffer)
    (dv : DataView) (lvl : Nat) (hl : BTPage.cLevel buf dv = .ok lvl) (hpos : 0 < lvl)
    (n : Int) :
    (∃ err, BTPage.childPage L buf dv n = .error err ∧
      (err = .expectedBTPage ∨ err = .rangeError)) ∨
    (∃ cdv, BTPage.childPage L buf dv n = .ok cdv ∧ GoodLeafType buf cdv) := by
  simp only [BTPage.childPage]
  rcases getEntry_cases buf dv n with ⟨e, h1, h2⟩ | ⟨v, h1, -⟩ | ⟨e, h1, -, h0⟩
  · rw [h1]
    rcases h2 with h2 | ⟨-, h0, -⟩
    · exact Or.inl ⟨e, rfl, Or.inr h2⟩
    · have := level_eq buf dv _ _ hl h0
      omega
  · rw [h1]
    simp only
    cases hib : L.ib buf v with
    | error e => exact Or.inl ⟨e, rfl, Or.inr (hL buf v e (Or.inr (Or.inl hib)))⟩
    | ok ib =>
      simp only
      cases hn : DataView.new buf (ib : Int) with
      | error e => exact Or.inl ⟨e, rfl, Or.inr (DataView.new_error buf _ e hn)⟩
      | ok cdv =>
        simp only [Page.getPage]
        cases ht : Page.ptype buf cdv with
        | error e => exact Or.inl ⟨e, rfl, Or.inr (getUint_error buf cdv _ _ e ht)⟩
        | ok t =>
          simp only
          by_cases hbt : Page.kindOfType t = .btPage
          · rw [if_pos hbt]
            refine Or.inr ⟨cdv, rfl, ?_⟩
            intro t' _ ht'
            rw [ht] at ht'
            cases ht'
            exact (kindOfType_bt t).1 hbt
          · rw [if_neg hbt]
            exact Or.inl ⟨_, rfl, Or.inl rfl⟩
  · have := level_eq buf dv _ _ hl h0
    omega

theorem findEntry_error_aux (L : EntryLayout) (hL : L.RangeOnly) (buf : ArrayBuffer) (k : Nat)
    (err : Err) : ∀ (fuel : Nat) (dv : DataView), GoodLeafType buf dv →
      BTPage.findEntry L buf fuel dv k = some (.error err) →
      err = .expectedBTPage ∨ err = .rangeError := by
  have hstep : ∀ (recur : DataView → Nat → Run (Option Entry)),
      (∀ cdv, GoodLeafType buf cdv → recur cdv k = some (.error err) →
        err = .expectedBTPage ∨ err = .rangeError) →
      ∀ dv, GoodLeafType buf dv → BTPage.findEntryStep L buf recur dv k = some (.error err) →
        err = .expectedBTPage ∨ err = .rangeError := by
    intro recur hrec dv hg h
    rcases findEntryStep_cases L buf recur dv k with ⟨e, h0, h1⟩ | ⟨ks, -, -, h1⟩ |
      ⟨ks, lvl, c, -, hl, hpos, -, h1⟩
    · rw [h1] at h
      cases h
      rcases h0 with h0 | h0
      · exact Or.inr (keys_error L hL buf dv hg _ h0)
      · exact Or.inr (getUint_error buf dv _ _ _ h0)
    · rcases h1 with ⟨-, h2⟩ | ⟨i, e', -, -, -, h2⟩
      · rw [h2] at h
        cases h
      · rw [h2] at h
        cases h
    · rcases h1 with h2 | ⟨n, e, -, hcp, h2⟩ | ⟨n, cdv, -, hcp, h2⟩
      · rw [h2] at h
        cases h
      · rw [h2] at h
        cases h
        rcases childPage_cases L hL buf dv lvl hl hpos n with ⟨e', h3, h4⟩ | ⟨cdv, h3, -⟩
        · rw [h3] at hcp
          cases hcp
          exact h4
        · rw [h3] at hcp
          cases hcp
      · rw [h2] at h
        rcases childPage_cases L hL buf dv lvl hl hpos n with ⟨e', h3, -⟩ | ⟨cdv', h3, h4⟩
        · rw [h3] at hcp
          cases hcp
        · rw [h3] at hcp
          cases hcp
          exact hrec cdv h4 h
  intro fuel
  induction fuel with
  | zero => exact hstep _ (fun cdv _ h => by cases h)
  | succ f ih => exact hstep _ (fun cdv hg h => ih cdv hg h)

theorem getAllKeysLoop_error (L : EntryLayout) (buf : ArrayBuffer)
    (recur : DataView → Run (List Nat)) (dv : DataView) (err : Err) (P : Prop)
    (hchild : ∀ (i : Nat), BTPage.childPage L buf dv (i : Int) = .error err → P)
    (hrec : ∀ (i : Nat) cdv, BTPage.childPage L buf dv (i : Int) = .ok cdv →
      recur cdv = some (.error err) → P) :
    ∀ (is out : List Nat), BTPage.getAllKeysLoop L buf recur dv is out = some (.error err) →
      P := by
  intro is
  induction is with
  | nil => intro out h; cases h
  | cons i is ih =>
    intro out h
    simp only [BTPage.getAllKeysLoop] at h
    cases hc : BTPage.childPage L buf dv (i : Int) with
    | error e =>
      rw [hc] at h
      cases h
      exact hchild i hc
    | ok cdv =>
      rw [hc] at h
      simp only at h
      cases hr : recur cdv with
      | none => rw [hr] at h; cases h
      | some r =>
        rw [hr] at h
        cases r with
        | error e =>
          cases h
          exact hrec i cdv hc hr
        | ok ks => exact ih _ h

theorem getAllKeys_error_aux (L : EntryLayout) (hL : L.RangeOnly) (buf : ArrayBuffer)
    (err : Err) : ∀ (fuel : Nat) (dv : DataView), GoodLeafType buf dv →
      BTPage.getAllKeys L buf fuel dv = some (.error err) →
      err = .expectedBTPage ∨ err = .rangeError := by
  have hstep : ∀ (recur : DataView → Run (List Nat)),
      (∀ cdv, GoodLeafType buf cdv → recur cdv = some (.error err) →
        err = .expectedBTPage ∨ err = .rangeError) →
      ∀ dv, GoodLeafType buf dv → BTPage.getAllKeysStep L buf recur dv = some (.error err) →
        err = .expectedBTPage ∨ err = .rangeError := by
    intro recur hrec dv hg h
    simp only [BTPage.getAllKeysStep] at h
    cases hl : BTPage.cLevel buf dv with
    | error e =>
      rw [hl] at h
      cases h
      exact Or.inr (getUint_error buf dv _ _ _ hl)
    | ok lvl =>
      rw [hl] at h
      simp only at h
      by_cases h0 : lvl = 0
      · rw [if_pos h0] at h
        exact Or.inr (keys_error L hL buf dv hg _ (Option.some.inj h))
      · rw [if_neg h0] at h
        cases hc : BTPage.cEnt buf dv with
        | error e =>
          rw [hc] at h
          cases h
          exact Or.inr (getUint_error buf dv _ _ _ hc)
        | ok c =>
          rw [hc] at h
          refine getAllKeysLoop_error L buf recur dv err _ ?_ ?_ _ _ h
          · intro i hcp
            rcases childPage_cases L hL buf dv lvl hl (by omega) i with ⟨e', h3, h4⟩ |
              ⟨cdv, h3, -⟩
            · rw [h3] at hcp
              cases hcp
              exact h4
            · rw [h3] at hcp
              cases hcp
          · intro i cdv hcp hr
            rcases childPage_cases L hL buf dv lvl hl (by omega) i with ⟨e', h3, -⟩ |
              ⟨cdv', h3, h4⟩
            · rw [h3] at hcp
              cases hcp
            · rw [h3] at hcp
              cases hcp
              exact hrec cdv h4 hr
  intro fuel
  induction fuel with
  | zero => exact hstep _ (fun cdv _ h => by cases h)
  | succ f ih => exact hstep _ (fun cdv hg h => ih cdv hg h)

theorem msPst_rangeOnly : msPst.RangeOnly := by
  intro buf dv e h
  rcases h with h | h | h | h <;> exact getUint_error buf dv _ _ e h

/-- Claim C20: the failure "Expected BT Entry" / "Expected BTEntry" is unreachable.  On
every page with `cLevel > 0`, `getEntry` returns a `BTEntry` for every slot, whatever the
page type, or fails by a read outside the buffer; so, the entry getters failing only by
such reads, the only failures `findEntry` and `getAllKeys` can raise on a page above level 0
are "Expected BT Page" and reads outside the buffer. -/
theorem expectedBTEntry_unreachable (L : EntryLayout) (hL : L.RangeOnly) (buf : ArrayBuffer)
    (dv : DataView) (lvl : Nat) (hl : BTPage.cLevel buf dv = .ok lvl) (hpos : 0 < lvl) :
    (∀ n : Int, (∀ e, BTPage.getEntry buf dv n = .ok e → ∃ v, e = .btEntry v) ∧
      (∀ err, BTPage.getEntry buf dv n = .error err → err = .rangeError)) ∧
    (∀ fuel k err, BTPage.findEntry L buf fuel dv k = some (.error err) →
      err = .expectedBTPage ∨ err = .rangeError) ∧
    (∀ fuel err, BTPage.getAllKeys L buf fuel dv = some (.error err) →
      err = .expectedBTPage ∨ err = .rangeError) := by
  have hg : GoodLeafType buf dv := by
    intro t h0
    have := level_eq buf dv _ _ hl h0
    omega
  refine ⟨?_, ?_, ?_⟩
  · intro n
    constructor
    · intro e he
      rcases getEntry_cases buf dv n with ⟨e', h1, -⟩ | ⟨v, h1, -⟩ | ⟨e', -, -, h0⟩
      · rw [h1] at he
        cases he
      · rw [h1] at he
        cases he
        exact ⟨v, rfl⟩
      · have := level_eq buf dv _ _ hl h0
        omega
    · intro err he
      exact getEntry_error_good buf dv hg n err he
  · intro fuel k err h
    exact findEntry_error_aux L hL buf k err fuel dv hg h
  · intro fuel err h
    exact getAllKeys_error_aux L hL buf err fuel dv hg h

/-- Claim C20 on the root of `strayFile`: its slots hold `BTEntry`s, and its failures are
"Expected BT Page". -/
theorem expectedBTEntry_unreachable_witness :
    msPst.RangeOnly ∧ BTPage.cLevel strayFile rootView = .ok 1 ∧
    (∃ v, Entry.btEntry ⟨24, 1512⟩ = .btEntry v) ∧
    (Err.expectedBTPage = .expectedBTPage ∨ Err.expectedBTPage = .rangeError) :=
  ⟨msPst_rangeOnly, rfl,
    ((expectedBTEntry_unreachable msPst msPst_rangeOnly strayFile rootView 1 rfl
      (by decide)).1 1).1 (.btEntry ⟨24, 1512⟩) rfl,
    (expectedBTEntry_unreachable msPst msPst_rangeOnly strayFile rootView 1 rfl
      (by decide)).2.1 0 11 .expectedBTPage rfl⟩

/-! ## Reads inside the window of a page -/

theorem getUint_agree (b1 b2 : ArrayBuffer) (dv : DataView) (w i : Nat)
    (hin : i + w ≤ 512)
    (hagree : ∀ j, dv.byteOffset ≤ j → j < dv.byteOffset + 512 → b1.byte j = b2.byte j) :
    dv.getUint b1 w i = dv.getUint b2 w i := by
  simp only [DataView.getUint]
  rw [leValue_congr b1 b2 w (dv.byteOffset + i)
    (fun j h1 h2 => hagree j (by omega) (by omega))]

theorem getEntry_agree (b1 b2 : ArrayBuffer) (dv : DataView) (n : Int)
    (hlen : b1.byteLength = b2.byteLength)
    (hagree : ∀ j, dv.byteOffset ≤ j → j < dv.byteOffset + 512 → b1.byte j = b2.byte j) :
    BTPage.getEntry b1 dv n = BTPage.getEntry b2 dv n := by
  simp only [BTPage.getEntry, BTPage.cbEnt, BTPage.cLevel, Page.ptype, DataView.getUint8,
    getUint_agree b1 b2 dv 1 490 (by omega) hagree,
    getUint_agree b1 b2 dv 1 491 (by omega) hagree,
    getUint_agree b1 b2 dv 1 496 (by omega) hagree, DataView.new, hlen]

/-- Where `getEntry` puts the entry of slot `n`. -/
theorem getEntry_offset (buf : ArrayBuffer) (dv : DataView) (n cb : Nat) (e : Entry)
    (hcb : BTPage.cbEnt buf dv = .ok cb)
    (he : BTPage.getEntry buf dv (n : Int) = .ok e) :
    e.dv = ⟨dv.byteOffset + n * cb, buf.byteLength - (dv.byteOffset + n * cb)⟩ := by
  have hnew : ∀ v, DataView.new buf ((dv.byteOffset : Int) + (n : Int) * (cb : Int)) = .ok v →
      v = ⟨dv.byteOffset + n * cb, buf.byteLength - (dv.byteOffset + n * cb)⟩ := by
    intro v hv
    simp only [DataView.new] at hv
    split_ifs at hv with h
    cases hv
    have h1 : ((dv.byteOffset : Int) + (n : Int) * (cb : Int)).toNat = dv.byteOffset + n * cb := by
      have : ((dv.byteOffset : Int) + (n : Int) * (cb : Int)) = ((dv.byteOffset + n * cb : Nat) : Int) := by
        push_cast
        rfl
      rw [this, Int.toNat_ofNat]
    rw [h1]
  simp only [BTPage.getEntry, hcb] at he
  split at he
  · cases he
  · split_ifs at he
    · split at he
      · cases he
      · split_ifs at he
        · split at he
          · cases he
          · rename_i v hv
            cases he
            exact hnew v hv
        · split at he
          · cases he
          · rename_i v hv
            cases he
            exact hnew v hv
    · split at he
      · cases he
      · rename_i v hv
        cases he
        exact hnew v hv

theorem keysLoop_agree (b1 b2 : ArrayBuffer) (dv : DataView) (c cb : Nat)
    (hlen : b1.byteLength = b2.byteLength)
    (hagree : ∀ j, dv.byteOffset ≤ j → j < dv.byteOffset + 512 → b1.byte j = b2.byte j)
    (hcb : BTPage.cbEnt b1 dv = .ok cb) (hfit : c * cb ≤ 488) (h24 : 24 ≤ cb) :
    ∀ (is out : List Nat), (∀ i ∈ is, i < c) →
      BTPage.keysLoop msPst b1 dv is out = BTPage.keysLoop msPst b2 dv is out := by
  intro is
  induction is with
  | nil => intro out _; rfl
  | cons i is ih =>
    intro out h
    have hi : i < c := h i (List.mem_cons_self _ _)
    simp only [BTPage.keysLoop]
    rw [← getEntry_agree b1 b2 dv i hlen hagree]
    cases he : BTPage.getEntry b1 dv (i : Int) with
    | error e => rfl
    | ok entry =>
      simp only
      have hdv := getEntry_offset b1 dv i cb entry hcb he
      have hmul : (i + 1) * cb ≤ c * cb := Nat.mul_le_mul_right cb hi
      have hkey : entry.key msPst b1 = entry.key msPst b2 := by
        have hread : entry.dv.getUint b1 8 0 = entry.dv.getUint b2 8 0 := by
          simp only [DataView.getUint]
          rw [leValue_congr b1 b2 8 (entry.dv.byteOffset + 0) (fun j h1 h2 => by
            rw [hdv] at h1 h2
            simp only at h1 h2
            exact hagree j (by omega) (by
              have : (i + 1) * cb = i * cb + cb := by ring
              omega))]
        cases entry <;> exact hread
      rw [hkey]
      cases entry.key msPst b2 with
      | error e => rfl
      | ok k => exact ih _ (fun j hj => h j (List.mem_cons_of_mem _ hj))

/-- The keys of a page whose entries fit before its header are read inside its window. -/
theorem keys_agree (b1 b2 : ArrayBuffer) (dv : DataView) (c cb : Nat)
    (hlen : b1.byteLength = b2.byteLength)
    (hagree : ∀ j, dv.byteOffset ≤ j → j < dv.byteOffset + 512 → b1.byte j = b2.byte j)
    (hc : BTPage.cEnt b1 dv = .ok c) (hcb : BTPage.cbEnt b1 dv = .ok cb)
    (hfit : c * cb ≤ 488) (h24 : 24 ≤ cb) :
    BTPage.keys msPst b1 dv = BTPage.keys msPst b2 dv := by
  have hc2 : BTPage.cEnt b2 dv = .ok c := by
    rw [← hc]
    exact (getUint_agree b1 b2 dv 1 488 (by omega) hagree).symm
  simp only [BTPage.keys, hc, hc2]
  exact keysLoop_agree b1 b2 dv c cb hlen hagree hcb hfit h24 _ _
    (fun i hi => List.mem_range.1 hi)

/-! ## Cutting a window to 512 bytes -/

theorem getUint_cut (buf : ArrayBuffer) (dv : DataView) (w i : Nat) (h : 512 ≤ dv.byteLength)
    (hin : i + w ≤ 512) : dv.cut512.getUint buf w i = dv.getUint buf w i := by
  simp only [DataView.getUint, DataView.cut512]
  rw [if_pos hin, if_pos (by omega)]

theorem getEntry_cut (buf : ArrayBuffer) (dv : DataView) (h : 512 ≤ dv.byteLength) (n : Int) :
    BTPage.getEntry buf dv.cut512 n = BTPage.getEntry buf dv n := by
  simp only [BTPage.getEntry, BTPage.cbEnt, BTPage.cLevel, Page.ptype, DataView.getUint8,
    getUint_cut buf dv 1 490 h (by omega), getUint_cut buf dv 1 491 h (by omega),
    getUint_cut buf dv 1 496 h (by omega)]
  rfl

theorem keysLoop_cut (L : EntryLayout) (buf : ArrayBuffer) (dv : DataView)
    (h : 512 ≤ dv.byteLength) : ∀ (is out : List Nat),
    BTPage.keysLoop L buf dv.cut512 is out = BTPage.keysLoop L buf dv is out := by
  intro is
  induction is with
  | nil => intro out; rfl
  | cons i is ih =>
    intro out
    simp only [BTPage.keysLoop, getEntry_cut buf dv h, ih]

theorem keys_cut (L : EntryLayout) (buf : ArrayBuffer) (dv : DataView)
    (h : 512 ≤ dv.byteLength) : BTPage.keys L buf dv.cut512 = BTPage.keys L buf dv := by
  simp only [BTPage.keys, BTPage.cEnt, DataView.getUint8, getUint_cut buf dv 1 488 h (by omega),
    keysLoop_cut L buf dv h]

theorem childPage_cut (L : EntryLayout) (buf : ArrayBuffer) (dv : DataView)
    (h : 512 ≤ dv.byteLength) (n : Int) :
    BTPage.childPage L buf dv.cut512 n = BTPage.childPage L buf dv n := by
  simp only [BTPage.childPage, getEntry_cut buf dv h]

theorem findEntryLoop_cut (L : EntryLayout) (buf : ArrayBuffer)
    (recur : DataView → Nat → Run (Option Entry)) (dv : DataView) (h : 512 ≤ dv.byteLength)
    (ks : List Nat) (c k : Nat) : ∀ is : List Nat,
    BTPage.findEntryLoop L buf recur dv.cut512 ks c k is =
      BTPage.findEntryLoop L buf recur dv ks c k is := by
  intro is
  induction is with
  | nil => simp only [BTPage.findEntryLoop, BTPage.descend, childPage_cut L buf dv h]
  | cons i is ih =>
    simp only [BTPage.findEntryLoop, BTPage.descend, childPage_cut L buf dv h, ih]

theorem findEntryStep_cut (L : EntryLayout) (buf : ArrayBuffer)
    (recur : DataView → Nat → Run (Option Entry)) (dv : DataView) (h : 512 ≤ dv.byteLength)
    (k : Nat) :
    BTPage.findEntryStep L buf recur dv.cut512 k = BTPage.findEntryStep L buf recur dv k := by
  simp only [BTPage.findEntryStep, keys_cut L buf dv h, getEntry_cut buf dv h,
    findEntryLoop_cut L buf recur dv h, BTPage.cLevel, BTPage.cEnt, DataView.getUint8,
    getUint_cut buf dv 1 491 h (by omega), getUint_cut buf dv 1 488 h (by omega)]

theorem getAllKeysLoop_cut (L : EntryLayout) (buf : ArrayBuffer)
    (recur : DataView → Run (List Nat)) (dv : DataView) (h : 512 ≤ dv.byteLength) :
    ∀ (is out : List Nat),
    BTPage.getAllKeysLoop L buf recur dv.cut512 is out =
      BTPage.getAllKeysLoop L buf recur dv is out := by
  intro is
  induction is with
  | nil => intro out; rfl
  | cons i is ih =>
    intro out
    simp only [BTPage.getAllKeysLoop, childPage_cut L buf dv h, ih]

theorem getAllKeysStep_cut (L : EntryLayout) (buf : ArrayBuffer)
    (recur : DataView → Run (List Nat)) (dv : DataView) (h : 512 ≤ dv.byteLength) :
    BTPage.getAllKeysStep L buf recur dv.cut512 = BTPage.getAllKeysStep L buf recur dv := by
  simp only [BTPage.getAllKeysStep, keys_cut L buf dv h, getAllKeysLoop_cut L buf recur dv h,
    BTPage.cLevel, BTPage.cEnt, DataView.getUint8,
    getUint_cut buf dv 1 491 h (by omega), getUint_cut buf dv 1 488 h (by omega)]

theorem findEntry_cut (L : EntryLayout) (buf : ArrayBuffer) (dv : DataView)
    (h : 512 ≤ dv.byteLength) (fuel k : Nat) :
    BTPage.findEntry L buf fuel dv.cut512 k = BTPage.findEntry L buf fuel dv k := by
  cases fuel with
  | zero => exact findEntryStep_cut L buf _ dv h k
  | succ f => exact findEntryStep_cut L buf _ dv h k

theorem getAllKeys_cut (L : EntryLayout) (buf : ArrayBuffer) (dv : DataView)
    (h : 512 ≤ dv.byteLength) (fuel : Nat) :
    BTPage.getAllKeys L buf fuel dv.cut512 = BTPage.getAllKeys L buf fuel dv := by
  cases fuel with
  | zero => exact getAllKeysStep_cut L buf _ dv h
  | succ f => exact getAllKeysStep_cut L buf _ dv h

/-- On a page whose window lies in the buffer and whose leaf type is valid, every slot that
starts within the buffer decodes to an entry. -/
theorem getEntry_returns (buf : ArrayBuffer) (dv : DataView) (n cb : Nat)
    (h512 : 512 ≤ dv.byteLength) (hg : GoodLeafType buf dv)
    (hcb : BTPage.cbEnt buf dv = .ok cb) (hin : dv.byteOffset + n * cb ≤ buf.byteLength) :
    ∃ e, BTPage.getEntry buf dv (n : Int) = .ok e := by
  rcases getEntry_cases buf dv n with ⟨e, h1, -⟩ | ⟨v, h1, -⟩ | ⟨e, h1, -⟩
  · exfalso
    have herr := getEntry_error_good buf dv hg _ _ h1
    subst herr
    have hnew : DataView.new buf ((dv.byteOffset : Int) + (n : Int) * (cb : Int)) =
        .ok ⟨dv.byteOffset + n * cb, buf.byteLength - (dv.byteOffset + n * cb)⟩ := by
      have := DataView.new_nat buf (dv.byteOffset + n * cb) hin
      push_cast at this
      exact this
    have hl : ∃ lvl, BTPage.cLevel buf dv = .ok lvl := by
      simp only [BTPage.cLevel, DataView.getUint8, DataView.getUint]
      rw [if_pos (by omega)]
      exact ⟨_, rfl⟩
    have ht : ∃ t, Page.ptype buf dv = .ok t := by
      simp only [Page.ptype, DataView.getUint8, DataView.getUint]
      rw [if_pos (by omega)]
      exact ⟨_, rfl⟩
    obtain ⟨lvl, hl⟩ := hl
    obtain ⟨t, ht⟩ := ht
    simp only [BTPage.getEntry, hcb, hl, ht, hnew] at h1
    split_ifs at h1
    cases h1
  · exact ⟨_, h1⟩
  · exact ⟨_, h1⟩

/-- Claim C16 (amended): on a page with a 512-byte window whose entries fit before the
header (`cEnt * cbEnt ≤ 488`), the entry `getEntry(n)` decodes for a slot `0 ≤ n < cEnt`
occupies bytes `[n*cbEnt, (n+1)*cbEnt)` of the page window (and exists when the window lies
in the buffer and the leaf type is valid); with the MS-PST entry layout and entries of at
least 24 bytes, `getEntry` and `keys()` read nothing outside the window.  Cutting the window
of a page of at least 512 bytes to exactly 512 bytes never changes a result of `getEntry`,
`keys()`, `findEntry` or `getAllKeys`. -/
theorem page_window (L : EntryLayout) (buf : ArrayBuffer) (dv : DataView)
    (h512 : 512 ≤ dv.byteLength) :
    (∀ (c cb n : Nat), BTPage.cEnt buf dv = .ok c → BTPage.cbEnt buf dv = .ok cb →
      c * cb ≤ 488 → n < c →
      (∀ e, BTPage.getEntry buf dv (n : Int) = .ok e →
        e.dv.byteOffset = dv.byteOffset + n * cb ∧
        e.dv.byteOffset + cb ≤ dv.byteOffset + 488) ∧
      (dv.byteOffset + 512 ≤ buf.byteLength → GoodLeafType buf dv →
        ∃ e, BTPage.getEntry buf dv (n : Int) = .ok e)) ∧
    (∀ (b2 : ArrayBuffer) (c cb : Nat), buf.byteLength = b2.byteLength →
      (∀ j, dv.byteOffset ≤ j → j < dv.byteOffset + 512 → buf.byte j = b2.byte j) →
      BTPage.cEnt buf dv = .ok c → BTPage.cbEnt buf dv = .ok cb → c * cb ≤ 488 → 24 ≤ cb →
      (∀ n : Int, BTPage.getEntry buf dv n = BTPage.getEntry b2 dv n) ∧
      BTPage.keys msPst buf dv = BTPage.keys msPst b2 dv) ∧
    (∀ n : Int, BTPage.getEntry buf dv.cut512 n = BTPage.getEntry buf dv n) ∧
    BTPage.keys L buf dv.cut512 = BTPage.keys L buf dv ∧
    (∀ fuel k, BTPage.findEntry L buf fuel dv.cut512 k = BTPage.findEntry L buf fuel dv k) ∧
    (∀ fuel, BTPage.getAllKeys L buf fuel dv.cut512 = BTPage.getAllKeys L buf fuel dv) := by
  refine ⟨?_, ?_, getEntry_cut buf dv h512, keys_cut L buf dv h512,
    findEntry_cut L buf dv h512, getAllKeys_cut L buf dv h512⟩
  · intro c cb n hc hcb hfit hn
    have hmul : (n + 1) * cb ≤ c * cb := Nat.mul_le_mul_right cb hn
    have hexp : (n + 1) * cb = n * cb + cb := by ring
    constructor
    · intro e he
      have hdv := getEntry_offset buf dv n cb e hcb he
      rw [hdv]
      simp only [true_and]
      omega
    · intro hin hg
      exact getEntry_returns buf dv n cb h512 hg hcb (by omega)
  · intro b2 c cb hlen hagree hc hcb hfit h24
    exact ⟨fun n => getEntry_agree buf b2 dv n hlen hagree,
      keys_agree buf b2 dv c cb hlen hagree hc hcb hfit h24⟩

/-- The amended claim C16 on the first leaf of `sortedFile`: its second slot lies at bytes
24..48 of the page, and the keys of the page cut to 512 bytes are the same. -/
theorem page_window_witness :
    512 ≤ (DataView.mk 512 1024).byteLength ∧
    (∀ e, BTPage.getEntry sortedFile ⟨512, 1024⟩ ((1 : Nat) : Int) = .ok e →
        e.dv.byteOffset = 512 + 1 * 24 ∧ e.dv.byteOffset + 24 ≤ 512 + 488) ∧
    BTPage.keys msPst sortedFile (DataView.mk 512 1024).cut512 =
      BTPage.keys msPst sortedFile ⟨512, 1024⟩ :=
  ⟨by decide,
    ((page_window msPst sortedFile ⟨512, 1024⟩ (by decide)).1 2 24 1 rfl rfl (by decide)
      (by decide)).1,
    (page_window msPst sortedFile ⟨512, 1024⟩ (by decide)).2.2.2.1⟩

/-- Claim C16 as stated fails on `wideFile`: the page declares 3 entries of 255 bytes, its
slot 2 (below `cEnt`) starts at byte 510 and runs past the 512-byte window, and the key
`keys()` decodes for it depends on byte 512, outside the window. -/
theorem page_window_counterexample :
    BTPage.cEnt wideFile pageView = .ok 3 ∧ BTPage.cbEnt wideFile pageView = .ok 255 ∧
    BTPage.getEntry wideFile pageView ((2 : Nat) : Int) = .ok (.blockEntry ⟨510, 514⟩) ∧
    ¬ (510 + 255 ≤ pageView.byteOffset + 512) ∧
    wideFile2.byteLength = wideFile.byteLength ∧
    (∀ j, j < 512 → wideFile2.byte j = wideFile.byte j) ∧
    BTPage.keys msPst wideFile pageView = .ok [0, 0, 65536] ∧
    BTPage.keys msPst wideFile2 pageView = .ok [0, 0, 131072] := by
  refine ⟨rfl, rfl, rfl, by decide, rfl, ?_, rfl, rfl⟩
  intro j hj
  simp only [wideFile2, ArrayBuffer.writeLE]
  rw [if_neg (by omega)]

/-! ## `stringFromBuffer` -/

theorem leValue_slice (buf : ArrayBuffer) (b e p w : Nat) (hb : b ≤ buf.byteLength) :
    leValue (buf.slice b e) p w = leValue buf (b + p) w := by
  induction w generalizing p with
  | zero => rfl
  | succ w ih =>
    simp only [leValue, ih]
    simp only [ArrayBuffer.slice, Nat.min_eq_left hb]
    rfl

/-- Claim C17: `stringFromBuffer` decodes the same string whether or not the copy is
taken.  For every buffer, every `byteOffset` and every even `byteLength` with
`byteOffset + byteLength` inside the buffer, the result is the string of `byteLength / 2`
UTF-16 code units whose `i`-th unit is the little-endian 16-bit value at
`byteOffset + 2i`, for an odd `byteOffset` (the copy) as for an even one. -/
theorem stringFromBuffer_spec (buf : ArrayBuffer) (byteOffset byteLength : Nat)
    (heven : byteLength % 2 = 0) (hin : byteOffset + byteLength ≤ buf.byteLength) :
    stringFromBuffer buf byteOffset byteLength =
      .ok (utf16Units buf byteOffset (byteLength / 2)) := by
  simp only [stringFromBuffer, utf16Units]
  by_cases hodd : byteOffset % 2 ≠ 0
  · rw [if_pos hodd]
    have hlen : (buf.slice byteOffset (byteOffset + byteLength)).byteLength = byteLength := by
      simp only [ArrayBuffer.slice]
      omega
    simp only [uint16ArrayOfBuffer, hlen]
    rw [if_pos heven]
    congr 1
    apply List.map_congr_left
    intro i _
    exact leValue_slice buf byteOffset (byteOffset + byteLength) (2 * i) 2 (by omega)
  · rw [if_neg hodd]
    simp only [uint16ArrayOfRange]
    rw [if_pos ⟨by omega, by omega⟩]

/-- Claim C17 on `textFile`: an odd offset (the copy is taken) and an even one. -/
theorem stringFromBuffer_spec_witness :
    stringFromBuffer textFile 1 4 = .ok [72, 105] ∧
    stringFromBuffer textFile 6 4 = .ok [111, 107] := by
  refine ⟨?_, ?_⟩
  · rw [stringFromBuffer_spec textFile 1 4 (by decide) (by decide)]
    rfl
  · rw [stringFromBuffer_spec textFile 6 4 (by decide) (by decide)]
    rfl

/-! ## `getRFCAddress` -/

/-- Claim C11: `getRFCAddress(display, address)` is the five-case rule for every pair of
inputs, an empty or absent value counting as absent: `(absent, addr)` gives `lower(addr)`
trimmed; `(name, absent)` gives `name` trimmed; `(absent, absent)` gives `null`;
`(name, addr)` with `trim(lower(name)) == trim(lower(addr))` gives `lower(addr)` trimmed;
otherwise the result is `name + " <" + trim(lower(addr)) + ">"`.  In particular
`("Jane Doe", "JANE@EX.COM")` gives `"Jane Doe <jane@ex.com>"` and
`("jane@ex.com", "JANE@EX.COM")` gives `"jane@ex.com"`. -/
theorem getRFCAddress_rule :
    (∀ (lower : JsString → JsString) (display address : Option JsString),
      getRFCAddress lower display address = rfcAddressRule lower display address) ∧
    getRFCAddress asciiLower (some (str "Jane Doe")) (some (str "JANE@EX.COM")) =
      some (str "Jane Doe <jane@ex.com>") ∧
    getRFCAddress asciiLower (some (str "jane@ex.com")) (some (str "JANE@EX.COM")) =
      some (str "jane@ex.com") := by
  refine ⟨?_, by decide, by decide⟩
  intro lower display address
  rcases display with _ | _ | ⟨c, cs⟩ <;> rcases address with _ | _ | ⟨d, ds⟩ <;>
    simp [getRFCAddress, rfcAddressRule, truthy, present, stringOf]

/-! ## `headersToArr` -/

theorem head?_dropWhile_false (p : Nat → Bool) : ∀ (l : List Nat) (c : Nat),
    (l.dropWhile p).head? = some c → p c = false := by
  intro l
  induction l with
  | nil => intro c h; simp at h
  | cons a l ih =>
    intro c h
    by_cases ha : p a = true
    · rw [List.dropWhile_cons_of_pos ha] at h
      exact ih c h
    · have ha' : p a = false := by simpa using ha
      rw [List.dropWhile_cons_of_neg ha] at h
      simp only [List.head?_cons, Option.some.injEq] at h
      rw [← h]
      exact ha'

theorem getLast?_dropWhile (p : Nat → Bool) : ∀ (l : List Nat),
    l.dropWhile p ≠ [] → (l.dropWhile p).getLast? = l.getLast? := by
  intro l
  induction l with
  | nil => intro h; simp at h
  | cons a l ih =>
    intro h
    by_cases ha : p a = true
    · rw [List.dropWhile_cons_of_pos ha] at h ⊢
      rw [ih h]
      cases l with
      | nil => simp at h
      | cons b l => rw [List.getLast?_cons_cons]
    · rw [List.dropWhile_cons_of_neg ha]

/-- A trimmed string has no white space at either end. -/
theorem trim_ends (s : JsString) :
    (∀ c, (trim s).head? = some c → isWhiteSpace c = false) ∧
    (∀ c, (trim s).getLast? = some c → isWhiteSpace c = false) := by
  constructor
  · intro c h
    simp only [trim, List.head?_reverse] at h
    have hne : ((s.dropWhile isWhiteSpace).reverse.dropWhile isWhiteSpace) ≠ [] := by
      intro h0
      rw [h0] at h
      simp at h
    rw [getLast?_dropWhile isWhiteSpace _ hne, List.getLast?_reverse] at h
    exact head?_dropWhile_false isWhiteSpace s c h
  · intro c h
    simp only [trim, List.getLast?_reverse] at h
    exact head?_dropWhile_false isWhiteSpace _ c h

theorem headersLoop_eq (lower : JsString → JsString) : ∀ (lines : List JsString)
    (headers : List Header),
    headersLoop lower lines headers = headers ++ lines.filterMap (headerOfLine lower) := by
  intro lines
  induction lines with
  | nil => intro headers; simp [headersLoop]
  | cons line rest ih =>
    intro headers
    simp only [headersLoop, List.filterMap_cons]
    cases h : headerOfLine lower line with
    | none => simp only [ih]
    | some hd => simp only [ih, List.append_assoc, List.singleton_append]

/-- What a header pushed for a line looks like. -/
theorem headerOfLine_some (lower : JsString → JsString) (line : JsString) (h : Header)
    (hh : headerOfLine lower line = some h) :
    h.key = line.takeWhile (fun c => c ≠ 58) ∧ h.key ≠ [] ∧ h.key.length < 100 ∧
      lower h.key ≠ str "content-type" ∧
      h.value = trim (removeFirst (h.key ++ [58]) line) ∧ h.value ≠ [] := by
  simp only [headerOfLine] at hh
  split_ifs at hh with h1 h2
  cases hh
  exact ⟨rfl, h1.1, h1.2.1, h1.2.2, rfl, h2⟩

theorem headersToArr_invariant_aux (lower : JsString → JsString)
    (headersStr : Option JsString) (h : Header) (hmem : h ∈ headersToArr lower headersStr) :
    1 ≤ h.key.length ∧ h.key.length ≤ 99 ∧ 58 ∉ h.key ∧ lower h.key ≠ str "content-type" ∧
      h.value ≠ [] ∧
      (∀ c, h.value.head? = some c → isWhiteSpace c = false) ∧
      (∀ c, h.value.getLast? = some c → isWhiteSpace c = false) := by
  simp only [headersToArr, headersLoop_eq, List.nil_append, List.mem_filterMap] at hmem
  obtain ⟨line, -, hline⟩ := hmem
  obtain ⟨hkey, hne, hlen, hct, hval, hvne⟩ := headerOfLine_some lower line h hline
  refine ⟨?_, by omega, ?_, hct, hvne, ?_, ?_⟩
  · cases hk : h.key with
    | nil => exact absurd hk hne
    | cons c cs => simp
  · intro hin
    rw [hkey] at hin
    have := List.mem_takeWhile_imp hin
    simp at this
  · rw [hval]
    exact (trim_ends _).1
  · rw [hval]
    exact (trim_ends _).2

/-- Claim C13: for every input (a string or an absent value), every header `headersToArr`
returns has a key of 1 to 99 code units that contains no colon and whose lower-case form is
not `content-type`, and a value that is not empty and has no white space at its start or
end; so a `Content-Type` header and a header whose key has 100 or more characters are
never returned. -/
theorem headersToArr_invariant (lower : JsString → JsString) (headersStr : Option JsString)
    (h : Header) (hmem : h ∈ headersToArr lower headersStr) :
    1 ≤ h.key.length ∧ h.key.length ≤ 99 ∧ 58 ∉ h.key ∧ lower h.key ≠ str "content-type" ∧
      h.value ≠ [] ∧
      (∀ c, h.value.head? = some c → isWhiteSpace c = false) ∧
      (∀ c, h.value.getLast? = some c → isWhiteSpace c = false) :=
  headersToArr_invariant_aux lower headersStr h hmem

/-- Claim C13 on a text with a `Content-Type` line: only the `To` header is returned. -/
theorem headersToArr_invariant_witness :
    headersToArr asciiLower (some (str "Content-Type: text/plain\nTo:  b ")) =
      [⟨str "To", str "b"⟩] ∧
    1 ≤ (str "To").length ∧ (str "To").length ≤ 99 ∧ 58 ∉ str "To" ∧
    asciiLower (str "To") ≠ str "content-type" ∧ str "b" ≠ [] ∧
    (∀ c, (str "b").head? = some c → isWhiteSpace c = false) ∧
    (∀ c, (str "b").getLast? = some c → isWhiteSpace c = false) :=
  ⟨by decide,
    headersToArr_invariant asciiLower (some (str "Content-Type: text/plain\nTo:  b "))
      ⟨str "To", str "b"⟩ (by decide)⟩

theorem headersToArr_eq (lower : JsString → JsString) (text : JsString) :
    headersToArr lower (some text) = headersOfLines lower (splitLines text) := by
  cases text <;> rfl

theorem foldLinesLoop_append (l1 l2 : List JsString) : ∀ acc : List JsString,
    foldLinesLoop (l1 ++ l2) acc = foldLinesLoop l2 (foldLinesLoop l1 acc) := by
  induction l1 with
  | nil => intro acc; rfl
  | cons line rest ih =>
    intro acc
    simp only [List.cons_append, foldLinesLoop]
    split_ifs <;> exact ih _

/-- The loop only ever changes the last collected line. -/
theorem foldLinesLoop_front (B : List JsString) : ∀ (rest C : List JsString), C ≠ [] →
    foldLinesLoop rest (B ++ C) = B ++ foldLinesLoop rest C := by
  intro rest
  induction rest with
  | nil => intro C _; rfl
  | cons line rest ih =>
    intro C hC
    have hBC : B ++ C ≠ [] := by simp [hC]
    simp only [foldLinesLoop]
    by_cases hl : line ≠ []
    · rw [if_pos hl, if_pos hl, if_neg hBC, if_neg hC]
      by_cases hs : line.head? = some 32
      · rw [if_pos hs, if_pos hs, List.dropLast_append_of_ne_nil _ hC, List.append_assoc]
        have hlast : (B ++ C).getLast? = C.getLast? := by
          rw [List.getLast?_append]
          cases hc : C.getLast? with
          | none => exact absurd (List.getLast?_eq_none_iff.1 hc) hC
          | some x => rfl
        rw [hlast]
        exact ih _ (by simp)
      · rw [if_neg hs, if_neg hs, List.append_assoc]
        exact ih _ (by simp)
    · rw [if_neg hl, if_neg hl]
      exact ih C hC

/-- Lines that start afresh are read as if nothing had been read before them. -/
theorem foldLinesLoop_fresh : ∀ (rest B : List JsString), startsFresh rest = true → B ≠ [] →
    foldLinesLoop rest B = B ++ foldLinesLoop rest [] := by
  intro rest
  induction rest with
  | nil => intro B _ _; simp [foldLinesLoop]
  | cons line rest ih =>
    intro B hf hB
    simp only [startsFresh] at hf
    simp only [foldLinesLoop]
    by_cases hl : line = []
    · rw [if_pos hl] at hf
      rw [if_neg (by simpa using hl), if_neg (by simpa using hl)]
      exact ih B hf hB
    · rw [if_neg hl] at hf
      have hs : line.head? ≠ some 32 := by simpa using hf
      rw [if_pos hl, if_pos hl, if_neg hB, if_neg hs, if_pos trivial]
      rw [foldLinesLoop_front B rest [line] (by simp)]
      rfl

/-- A header line followed by a continuation line is collected as one line. -/
theorem foldLinesLoop_continuation (A : List JsString) (h c : JsString) (hh : h ≠ [])
    (hfirst : A = [] ∨ h.head? ≠ some 32) :
    foldLinesLoop [h, 32 :: c] A = A ++ [h ++ [10] ++ 32 :: c] := by
  have h1 : foldLinesLoop [h, 32 :: c] A = foldLinesLoop [32 :: c] (A ++ [h]) := by
    simp only [foldLinesLoop]
    rw [if_pos hh]
    rcases hfirst with hA | hs
    · rw [if_pos hA]
    · by_cases hA : A = []
      · rw [if_pos hA]
      · rw [if_neg hA, if_neg hs]
  rw [h1]
  simp only [foldLinesLoop]
  rw [if_pos (by simp), if_neg (by simp), if_pos (by simp)]
  simp

theorem takeWhile_key (K r : JsString) (hcolon : 58 ∉ K) :
    (K ++ 58 :: r).takeWhile (fun c => decide (c ≠ 58)) = K := by
  induction K with
  | nil => simp
  | cons a K ih =>
    have ha : a ≠ 58 := fun h => hcolon (by simp [h])
    have hK : 58 ∉ K := fun h => hcolon (List.mem_cons_of_mem _ h)
    rw [List.cons_append, List.takeWhile_cons_of_pos (by simpa using ha), ih hK]

theorem removeFirst_key (K r : JsString) (hK : K ≠ []) :
    removeFirst (K ++ [58]) (K ++ 58 :: r) = r := by
  cases K with
  | nil => exact absurd rfl hK
  | cons a K =>
    have hp : (a :: (K ++ [58])).isPrefixOf (a :: (K ++ 58 :: r)) = true := by
      rw [ List.isPrefixOf_iff_prefix]
      exact ⟨r, by simp⟩
    rw [List.cons_append, List.cons_append, removeFirst, if_pos hp]
    simp

theorem headerOfLine_key (lower : JsString → JsString) (K r : JsString) (hK : K ≠ [])
    (hcolon : 58 ∉ K) (hlen : K.length < 100) (hct : lower K ≠ str "content-type")
    (hval : trim r ≠ []) :
    headerOfLine lower (K ++ 58 :: r) = some ⟨K, trim r⟩ := by
  simp only [headerOfLine, takeWhile_key K r hcolon, removeFirst_key K r hK]
  rw [if_pos ⟨hK, hlen, hct⟩, if_pos hval]

/-- Claim C12 (amended): header folding in `headersToArr`.  When a header line `K: v` is
followed by a continuation line (a line starting with a space), the header for `K` has as
value `v`, a newline and the continuation line as it is, its leading space kept, the whole
trimmed at both ends; the lines before it and the lines after it, whose first non-empty
line does not start with a space, give their headers separately. -/
theorem headersToArr_folding (lower : JsString → JsString) (text : JsString)
    (pre rest : List JsString) (K v c : JsString)
    (hsplit : splitLines text = pre ++ [K ++ 58 :: v, 32 :: c] ++ rest)
    (hK : K ≠ []) (hcolon : 58 ∉ K) (hlen : K.length < 100)
    (hct : lower K ≠ str "content-type")
    (hfirst : foldLinesLoop pre [] = [] ∨ K.head? ≠ some 32)
    (hval : trim (v ++ 10 :: 32 :: c) ≠ [])
    (hrest : startsFresh rest = true) :
    headersToArr lower (some text) =
      headersOfLines lower pre ++ [⟨K, trim (v ++ 10 :: 32 :: c)⟩] ++
        headersOfLines lower rest := by
  have hline : K ++ 58 :: v ≠ [] := by simp
  have hhead : (K ++ 58 :: v).head? = K.head? := by
    cases K with
    | nil => exact absurd rfl hK
    | cons a K => rfl
  have hfold : foldLinesLoop (pre ++ [K ++ 58 :: v, 32 :: c] ++ rest) [] =
      foldLinesLoop pre [] ++ [K ++ 58 :: (v ++ 10 :: 32 :: c)] ++ foldLinesLoop rest [] := by
    rw [foldLinesLoop_append, foldLinesLoop_append,
      foldLinesLoop_continuation _ _ c hline (by rw [hhead]; exact hfirst),
      foldLinesLoop_fresh rest _ hrest (by simp)]
    simp
  rw [headersToArr_eq, hsplit, headersOfLines, hfold]
  simp only [headersLoop_eq, List.nil_append, List.filterMap_append, List.filterMap_cons,
    List.filterMap_nil, headerOfLine_key lower K _ hK hcolon hlen hct hval, headersOfLines]

/-- The amended claim C12 on the lines `From: a`, ` continued`, `To: b`: the value of
`From` keeps the space after the newline, and `To` is a separate header. -/
theorem headersToArr_folding_witness :
    headersToArr asciiLower (some (str "From: a\n continued\nTo: b")) =
      [⟨str "From", str "a\n continued"⟩, ⟨str "To", str "b"⟩] := by
  rw [headersToArr_folding asciiLower (str "From: a\n continued\nTo: b") [] [str "To: b"]
    (str "From") (str " a") (str "continued") (by decide) (by decide) (by decide) (by decide)
    (by decide) (Or.inl rfl) (by decide) (by decide)]
  decide

/-- Claim C12 as stated fails on its own example: for the lines `From: a`, ` continued`,
`To: b` the value of `From` is `a`, a newline and ` continued` with its leading space, not
`a`, a newline and `continued`. -/
theorem headersToArr_folding_counterexample :
    splitLines (str "From: a\n continued\nTo: b") =
      [str "From: a", str " continued", str "To: b"] ∧
    headersToArr asciiLower (some (str "From: a\n continued\nTo: b")) =
      [⟨str "From", str "a\n continued"⟩, ⟨str "To", str "b"⟩] ∧
    headersToArr asciiLower (some (str "From: a\n continued\nTo: b")) ≠
      [⟨str "From", str "a\ncontinued"⟩, ⟨str "To", str "b"⟩] := by
  refine ⟨by decide, by decide, by decide⟩

/-! ## `Message.getAttachment` -/

/-- Claim C14: `Message.getAttachment(i)`, the attachments table and the orchestrator being
lookup functions.  When the row-id cell of row `i` is not a number the result is absent
(`null` or `undefined`), without a failure and whatever the orchestrator is (it is not
called); when the cell holds a `nid` that the orchestrator cannot resolve, the call fails;
when the `nid` resolves, the result is `propertiesToObject` of the properties of that
sub-node. -/
theorem getAttachment_spec {α : Type} (rowIdTag : Nat) (pstContext : PSTContext α)
    (table : TableContext α) (index : Int) (hindex : 0 ≤ index) :
    (table.getCellValueByColumnTag index rowIdTag = .ok .notNumber →
      ∀ ctx : PSTContext α,
        Message.getAttachment rowIdTag ctx (some table) index = .ok .undefined) ∧
    (∀ nid, table.getCellValueByColumnTag index rowIdTag = .ok (.number nid) →
      (pstContext.getSubPropertyContext nid = .ok none →
        Message.getAttachment rowIdTag pstContext (some table) index =
          .error .unableToFindAttachment) ∧
      (∀ e, pstContext.getSubPropertyContext nid = .error e →
        Message.getAttachment rowIdTag pstContext (some table) index = .error e) ∧
      (∀ pc props, pstContext.getSubPropertyContext nid = .ok (some pc) →
        pc.getAllProperties = .ok props →
        Message.getAttachment rowIdTag pstContext (some table) index =
          .ok (.object (propertiesToObject props)))) := by
  have hneg : ¬ index < 0 := by omega
  refine ⟨?_, ?_⟩
  · intro hcell ctx
    simp [Message.getAttachment, hneg, hcell]
  · intro nid hcell
    refine ⟨?_, ?_, ?_⟩
    · intro h
      simp [Message.getAttachment, hneg, hcell, h]
    · intro e h
      simp [Message.getAttachment, hneg, hcell, h]
    · intro pc props h hp
      simp [Message.getAttachment, hneg, hcell, h, hp]

/-- Claim C14 on `sampleTable`: row 0 has no row id, row 1 resolves, row 2 does not. -/
theorem getAttachment_spec_witness :
    (∀ ctx : PSTContext Nat,
      Message.getAttachment 0x67F2 ctx (some sampleTable) 0 = .ok .undefined) ∧
    Message.getAttachment 0x67F2 sampleContext (some sampleTable) 2 =
      .error .unableToFindAttachment ∧
    Message.getAttachment 0x67F2 sampleContext (some sampleTable) 1 =
      .ok (.object (propertiesToObject
        [⟨0x3701, "0x3701", some "attachDataBinary", .plain 1⟩])) :=
  ⟨(getAttachment_spec 0x67F2 sampleContext sampleTable 0 (le_refl 0)).1 rfl,
    ((getAttachment_spec 0x67F2 sampleContext sampleTable 2 (by decide)).2 8 rfl).1 rfl,
    ((getAttachment_spec 0x67F2 sampleContext sampleTable 1 (by decide)).2 7 rfl).2.2
      payloadContext _ rfl rfl⟩

/-! ## The attachments of `getRFC` -/

theorem pushAttachmentsLoop_eq {α β : Type} (truthyPlain : α → Bool)
    (bufferFrom : Option (Value α) → Except MsgErr β) :
    ∀ (objs : List (Obj α)) (acc : List (MailAttachment α β)),
      Message.pushAttachmentsLoop truthyPlain bufferFrom objs acc =
        acc ++ objs.filterMap (fun o =>
          match Message.attachmentOf truthyPlain bufferFrom o with
          | .ok att => some att
          | .error _ => none) := by
  intro objs
  induction objs with
  | nil => intro acc; simp [Message.pushAttachmentsLoop]
  | cons o rest ih =>
    intro acc
    simp only [Message.pushAttachmentsLoop, List.filterMap_cons]
    cases h : Message.attachmentOf truthyPlain bufferFrom o with
    | error e => simp only [ih]
    | ok att => simp only [ih, List.append_assoc, List.singleton_append]

theorem getAttachmentEntriesLoop_length {α : Type} (table : TableContext α) :
    ∀ (is : List Nat) (out entries : List (Obj α)),
      Message.getAttachmentEntriesLoop table is out = .ok entries →
      entries.length = out.length + is.length := by
  intro is
  induction is with
  | nil =>
    intro out entries h
    simp only [Message.getAttachmentEntriesLoop, Except.ok.injEq] at h
    simp [h]
  | cons i is ih =>
    intro out entries h
    simp only [Message.getAttachmentEntriesLoop] at h
    split at h
    · cases h
    · have := ih _ _ h
      rw [List.length_append, List.length_singleton] at this
      rw [List.length_cons]
      omega

theorem getRFCAttachments_aux {α β : Type} (rowIdTag : Nat) (truthyPlain : α → Bool)
    (bufferFrom : Option (Value α) → Except MsgErr β) (pstContext : PSTContext α)
    (attachments : Option (TableContext α)) (entries : List (Obj α))
    (hentries : Message.getAttachmentEntries attachments = .ok entries) :
    Message.getRFCAttachments rowIdTag truthyPlain bufferFrom pstContext attachments true
        (some true) =
      some ((List.range entries.length).filterMap
        (Message.rowAttachment rowIdTag truthyPlain bufferFrom pstContext attachments)) := by
  simp only [Message.getRFCAttachments, hentries, if_true, pushAttachmentsLoop_eq,
    List.nil_append, List.filterMap_map, List.filterMap_filterMap]
  congr 1
  apply List.filterMap_congr
  intro i _
  simp only [Function.comp, Message.rowAttachment]
  cases h : Message.getAttachment rowIdTag pstContext attachments (i : Int) with
  | error e => rfl
  | ok r => cases r <;> rfl

/-- Claim C15 (amended): best-effort attachment assembly in `Message.getRFC`.  For a
message of class `IPM.Note` whose has-attachments flag is set, when reading the rows of the
attachments table (`getAttachmentEntries`) succeeds, the attachments of the mail object
are, in row order, exactly the rows whose resolution (`getAttachment`) and conversion both
succeeded, whatever the outcome of each row: a failing row is dropped and removes no other
row.  When reading the rows fails, the list is empty.  In both cases the conversion goes
on. -/
theorem getRFCAttachments_spec {α β : Type} (rowIdTag : Nat) (truthyPlain : α → Bool)
    (bufferFrom : Option (Value α) → Except MsgErr β) (pstContext : PSTContext α)
    (attachments : Option (TableContext α)) :
    (∀ entries, Message.getAttachmentEntries attachments = .ok entries →
      (∀ table, attachments = some table → entries.length = table.recordCount) ∧
      Message.getRFCAttachments rowIdTag truthyPlain bufferFrom pstContext attachments true
          (some true) =
        some ((List.range entries.length).filterMap
          (Message.rowAttachment rowIdTag truthyPlain bufferFrom pstContext attachments))) ∧
    (∀ e, Message.getAttachmentEntries attachments = .error e →
      Message.getRFCAttachments rowIdTag truthyPlain bufferFrom pstContext attachments true
          (some true) = some ([] : List (MailAttachment α β))) := by
  refine ⟨?_, ?_⟩
  · intro entries hentries
    refine ⟨?_, getRFCAttachments_aux rowIdTag truthyPlain bufferFrom pstContext attachments
      entries hentries⟩
    intro table ht
    subst ht
    have := getAttachmentEntriesLoop_length table _ _ _ hentries
    simpa using this
  · intro e he
    simp [Message.getRFCAttachments, he]

/-- The amended claim C15 on `sampleTable`: row 0 is absent, row 1 succeeds, row 2 fails to
resolve; the list holds exactly the attachment of row 1. -/
theorem getRFCAttachments_spec_witness :
    Message.getAttachmentEntries (some sampleTable) = .ok [[], [], []] ∧
    Message.getRFCAttachments 0x67F2 (fun _ => true) sampleBufferFrom sampleContext
        (some sampleTable) true (some true) =
      some [{ filename := none, cid := none, content := 0, contentType := none }] := by
  refine ⟨rfl, ?_⟩
  rw [((getRFCAttachments_spec 0x67F2 (fun _ => true) sampleBufferFrom sampleContext
    (some sampleTable)).1 [[], [], []] rfl).2]
  rfl

/-- Claim C15 as stated fails on `brokenTable`: the resolution and the conversion of row 0
succeed, but reading the properties of row 1 fails in `getAttachmentEntries`, and the
attachments list is empty. -/
theorem getRFCAttachments_counterexample :
    Message.rowAttachment 0x67F2 (fun _ => true) sampleBufferFrom sampleContext
        (some brokenTable) 0 =
      some { filename := none, cid := none, content := 0, contentType := none } ∧
    Message.getAttachmentEntries (some brokenTable) = .error (.thrown 1) ∧
    Message.getRFCAttachments 0x67F2 (fun _ => true) sampleBufferFrom sampleContext
        (some brokenTable) true (some true) = some [] :=
  ⟨rfl, rfl, rfl⟩

end PstParser
